import Mathlib

/-!
Verification of the algorithmic core of an educational algorithms library
(Prim, Kruskal, Dijkstra, Huffman).  The Lean definitions below are a shallow
embedding of the Python sources:

  * `src/kruskal.py`   — Union-Find (`UnionFind.encontrar`, `UnionFind.unir`) and `kruskal`
  * `src/prim.py`      — `prim`
  * `src/dijkstra.py`  — `dijkstra`, `reconstruir_ruta`
  * `src/huffman.py`   — `NodoHuffman`, `construir_arbol_huffman`, `generar_codigos`
                         and the compression statistic of `ejecutar_huffman`

Python dictionaries are modelled as association lists in insertion order
(lookup finds the unique binding; update keeps the binding in place; a fresh
key is appended at the end), matching CPython's ordered-dict semantics.
Python's `heapq` priority queues are modelled as lists kept sorted by the
tuple order used by the source (pop = head = minimum); this is extensionally
faithful because a binary heap always pops a minimal element and the tuple
orders used by the source are total, so entries comparing equal are
identical tuples.  Python string comparison is the lexicographic order on
code points, embedded below as `charsLt` on `String.data`.
-/

namespace Proyecto

/-- Association-list lookup: the value bound to key `k`, if any.
Models `d[k]` / `k in d` on a Python dict. -/
def dget {κ β : Type} [DecidableEq κ] : List (κ × β) → κ → Option β
  | [], _ => none
  | (k1, v) :: rest, k => if k1 = k then some v else dget rest k

/-- Association-list update: `d[k] = v` on a Python dict.  An existing binding
is updated in place (the key keeps its position); a fresh key is appended. -/
def dset {κ β : Type} [DecidableEq κ] : List (κ × β) → κ → β → List (κ × β)
  | [], k, v => [(k, v)]
  | (k1, v1) :: rest, k, v =>
    if k1 = k then (k, v) :: rest else (k1, v1) :: dset rest k v

/-- Lexicographic comparison of character lists by code point, the order
Python uses on `str`. -/
def charsLt : List Char → List Char → Bool
  | [], [] => false
  | [], _ :: _ => true
  | _ :: _, [] => false
  | a :: as, b :: bs =>
    if a.val < b.val then true
    else if b.val < a.val then false
    else charsLt as bs

/-- Python `<` on strings (lexicographic by code point). -/
def strLtB (a b : String) : Bool := charsLt a.data b.data

/-- Node labels are Python `str` values. -/
abbrev Nodo := String

/-- An input edge `(nodo1, nodo2, peso)`, as read from the CSV rows. -/
abbrev Arista := Nodo × Nodo × Nat

/-- First endpoint. -/
def n1 (e : Arista) : Nodo := e.1

/-- Second endpoint. -/
def n2 (e : Arista) : Nodo := e.2.1

/-- Edge weight. -/
def pesoDe (e : Arista) : Nat := e.2.2

/-- The distinct endpoints of an edge list, first occurrence first.  Both
`kruskal` (its `nodos` set) and the adjacency dict of `prim`/`dijkstra`
register the endpoints in this order; only membership and cardinality of
this collection are ever used, so the set-vs-list distinction is harmless. -/
def nodosDe (aristas : List Arista) : List Nodo :=
  aristas.foldl (fun acc e =>
    let acc1 := if e.1 ∈ acc then acc else acc ++ [e.1]
    if e.2.1 ∈ acc1 then acc1 else acc1 ++ [e.2.1]) []

/-- Adjacency construction shared verbatim by `prim` and `dijkstra`
(`grafo[nodo1].append((nodo2, peso))` and symmetrically), keys in first-seen
order, parallel edges retained. -/
def construirGrafo (aristas : List Arista) : List (Nodo × List (Nodo × Nat)) :=
  aristas.foldl (fun g e =>
    let g1 := if (dget g e.1).isSome then g else dset g e.1 []
    let g2 := if (dget g1 e.2.1).isSome then g1 else dset g1 e.2.1 []
    let g3 := dset g2 e.1 ((dget g2 e.1).getD [] ++ [(e.2.1, e.2.2)])
    dset g3 e.2.1 ((dget g3 e.2.1).getD [] ++ [(e.1, e.2.2)])) []

/-! ## Undirected reachability over an edge list -/

/-- Two nodes are adjacent when some input edge joins them, in either
direction. -/
def ady (aristas : List Arista) (a b : Nodo) : Prop :=
  ∃ w, (a, b, w) ∈ aristas ∨ (b, a, w) ∈ aristas

/-- Undirected reachability over an edge list. -/
def Alcanza (aristas : List Arista) : Nodo → Nodo → Prop :=
  Relation.ReflTransGen (ady aristas)

/-- One edge of the executable closure step: append the far endpoint when
exactly one endpoint is already collected. -/
def pasoPaso (acc : List Nodo) (e : Arista) : List Nodo :=
  let acc1 := if e.1 ∈ acc ∧ ¬ e.2.1 ∈ acc then acc ++ [e.2.1] else acc
  if e.2.1 ∈ acc1 ∧ ¬ e.1 ∈ acc1 then acc1 ++ [e.1] else acc1

/-- One breadth step of the executable closure: append every endpoint
adjacent to the current front. -/
def paso (aristas : List Arista) (s : List Nodo) : List Nodo :=
  aristas.foldl pasoPaso s

/-- Iterated closure steps. -/
def clausura (aristas : List Arista) : Nat → List Nodo → List Nodo
  | 0, s => s
  | n + 1, s => clausura aristas n (paso aristas s)

/-- Executable reachability test: iterate `paso` enough times to reach a
fixpoint. -/
def alcanzaB (aristas : List Arista) (a b : Nodo) : Bool :=
  b ∈ clausura aristas ((nodosDe aristas).length + 1) [a]

/-- The input graph is connected: all endpoints are mutually reachable. -/
def Conectado (aristas : List Arista) : Prop :=
  ∀ x ∈ nodosDe aristas, ∀ y ∈ nodosDe aristas, Alcanza aristas x y

/-- A list of edges is a forest when every edge joins two nodes that the
earlier edges do not already connect — exactly the acceptance test a fresh
Union-Find run over the list would perform. -/
def Bosque (es : List Arista) : Prop :=
  ∀ i (h : i < es.length), ¬ Alcanza (es.take i) (es.get ⟨i, h⟩).1 (es.get ⟨i, h⟩).2.1

/-- An edge set spans the nodes of the input graph when it connects any two
of them. -/
def Genera (es aristas : List Arista) : Prop :=
  ∀ x ∈ nodosDe aristas, ∀ y ∈ nodosDe aristas, Alcanza es x y

/-- Sum of the weights of an edge list. -/
def pesoTotal (es : List Arista) : Nat := (es.map pesoDe).sum

/-! ## Union-Find (`src/kruskal.py`, class `UnionFind`) -/

/-- State of the disjoint-set structure: the `padre` and `rango` dicts. -/
structure UF where
  padre : List (Nodo × Nodo)
  rango : List (Nodo × Nat)
deriving DecidableEq

/-- The registered nodes, in dict order. -/
def UF.claves (uf : UF) : List Nodo := uf.padre.map Prod.fst

/-- Constructor `UnionFind.__init__`: every node is its own parent, every
rank is `0`.  `kruskal` passes `list(set)`, so the node list has no
duplicates. -/
def ufInit (nodos : List Nodo) : UF :=
  { padre := nodos.map (fun n => (n, n)), rango := nodos.map (fun n => (n, 0)) }

/-- Body of `UnionFind.encontrar` with explicit recursion fuel — the Python
method recurses on the parent pointer, reads the parent before the recursive
call, and after it rewrites `padre[nodo]` to the discovered root (path
compression).  `none` models a `KeyError` (unregistered node) or fuel
exhaustion (a cyclic parent map); neither occurs on reachable states. -/
def encontrarAux : Nat → UF → Nodo → Option (Nodo × UF)
  | 0, _, _ => none
  | fuel + 1, uf, nodo =>
    match dget uf.padre nodo with
    | none => none
    | some p =>
      if p = nodo then some (nodo, uf)
      else
        match encontrarAux fuel uf p with
        | none => none
        | some (r, uf2) => some (r, { uf2 with padre := dset uf2.padre nodo r })

/-- `UnionFind.encontrar`; a parent chain in a grounded state has length
below the number of registered nodes, so `|padre|` steps of fuel suffice. -/
def encontrar (uf : UF) (nodo : Nodo) : Option (Nodo × UF) :=
  encontrarAux uf.padre.length uf nodo

/-- `UnionFind.unir`: find both roots; report `False` if they coincide,
otherwise link by rank (ties: second root under the first, first root's rank
grows) and report `True`. -/
def unir (uf : UF) (nodo1 nodo2 : Nodo) : Option (Bool × UF) :=
  match encontrar uf nodo1 with
  | none => none
  | some (raiz1, uf1) =>
    match encontrar uf1 nodo2 with
    | none => none
    | some (raiz2, uf2) =>
      if raiz1 = raiz2 then some (false, uf2)
      else
        match dget uf2.rango raiz1, dget uf2.rango raiz2 with
        | some g1, some g2 =>
          if g1 < g2 then some (true, { uf2 with padre := dset uf2.padre raiz1 raiz2 })
          else if g2 < g1 then some (true, { uf2 with padre := dset uf2.padre raiz2 raiz1 })
          else some (true, { uf2 with padre := dset uf2.padre raiz2 raiz1,
                                      rango := dset uf2.rango raiz1 (g1 + 1) })
        | _, _ => none

/-! ## Kruskal (`src/kruskal.py`, function `kruskal`) -/

/-- The comparison `sorted(aristas, key=lambda x: x[2])` sorts on: weights
only. -/
def pesoLe (a b : Arista) : Bool := a.2.2 ≤ b.2.2

/-- `aristas_ordenadas`: Python's `sorted` is stable, as is `mergeSort`. -/
def aristasOrdenadas (aristas : List Arista) : List Arista :=
  aristas.mergeSort pesoLe

/-- The edge loop of `kruskal`: accept an edge exactly when `unir` merges,
stopping early once `V - 1` edges are in.  `none` propagates the
(unreachable) failure of `unir`. -/
def kruskalLoop (numNodos : Nat) : UF → List Arista → Nat → List Arista →
    Option (List Arista × Nat)
  | _, mst, peso, [] => some (mst, peso)
  | uf, mst, peso, (a, b, p) :: resto =>
    match unir uf a b with
    | none => none
    | some (false, uf2) => kruskalLoop numNodos uf2 mst peso resto
    | some (true, uf2) =>
      let mst2 := mst ++ [(a, b, p)]
      if mst2.length = numNodos - 1 then some (mst2, peso + p)
      else kruskalLoop numNodos uf2 mst2 (peso + p) resto

/-- `kruskal`, with `none` marking the unreachable internal failure of
`unir` (all processed endpoints are registered and states stay grounded). -/
def kruskalO (aristas : List Arista) : Option (List Arista × Nat) :=
  if aristas = [] then some ([], 0)
  else
    let nodos := nodosDe aristas
    kruskalLoop nodos.length (ufInit nodos) [] 0 (aristasOrdenadas aristas)

/-- `kruskal(aristas)`: the accepted edges in acceptance order and their
total weight. -/
def kruskal (aristas : List Arista) : List Arista × Nat :=
  (kruskalO aristas).getD ([], 0)

/-! ## Prim (`src/prim.py`, function `prim`) -/

/-- A candidate entry `(peso, nodo1, nodo2)` of the Prim heap. -/
abbrev EntradaPrim := Nat × Nodo × Nodo

/-- Python tuple order on `(peso, nodo1, nodo2)`: weight first, then the two
labels lexicographically. -/
def entradaLe (a b : EntradaPrim) : Bool :=
  if a.1 < b.1 then true
  else if b.1 < a.1 then false
  else if strLtB a.2.1 b.2.1 then true
  else if strLtB b.2.1 a.2.1 then false
  else if strLtB a.2.2 b.2.2 then true
  else if strLtB b.2.2 a.2.2 then false
  else true

/-- `heapq.heappush` on the sorted-list model of the Prim heap. -/
def heapPush (x : EntradaPrim) : List EntradaPrim → List EntradaPrim
  | [] => [x]
  | y :: ys => if entradaLe x y then x :: y :: ys else y :: heapPush x ys

/-- The `while heap and len(visitados) < len(grafo)` loop of `prim`: pop the
minimal candidate, discard it when its far endpoint is already visited,
otherwise accept the edge and push the far endpoint's edges towards
unvisited neighbours. -/
def primLoop (grafo : List (Nodo × List (Nodo × Nat))) (visitados : List Nodo)
    (heap : List EntradaPrim) (mst : List Arista) (peso : Nat) :
    List Arista × Nat :=
  match heap with
  | [] => (mst, peso)
  | (p, a, b) :: resto =>
    if hv : visitados.length < grafo.length then
      if b ∈ visitados then primLoop grafo visitados resto mst peso
      else
        let visitados2 := visitados ++ [b]
        let heap2 := ((dget grafo b).getD []).foldl
          (fun acc pr => if pr.1 ∈ visitados2 then acc else heapPush (pr.2, b, pr.1) acc)
          resto
        primLoop grafo visitados2 heap2 (mst ++ [(a, b, p)]) (peso + p)
    else (mst, peso)
termination_by (grafo.length - visitados.length, heap.length)
decreasing_by
  · apply Prod.Lex.right
    simp
  · apply Prod.Lex.left
    simp only [List.length_append, List.length_cons, List.length_nil]
    omega

/-- `prim(aristas, nodo_inicial)`.  `nodo_inicial = none` models the Python
default `None`, replaced by `list(grafo.keys())[0]` — the first endpoint of
the first edge.  The access `grafo[nodo_inicial]` raises `KeyError` when an
explicit start node is not an endpoint of any edge; this is modelled by
`Except.error`. -/
def prim (aristas : List Arista) (nodoInicial : Option Nodo) :
    Except String (List Arista × Nat) :=
  if aristas = [] then .ok ([], 0)
  else
    let grafo := construirGrafo aristas
    let inicio := match nodoInicial with
      | none => ((grafo.head?).map Prod.fst).getD ""
      | some n => n
    match dget grafo inicio with
    | none => .error "KeyError"
    | some vecinos =>
      let heap0 := vecinos.foldl (fun acc pr => heapPush (pr.2, inicio, pr.1) acc) []
      .ok (primLoop grafo [inicio] heap0 [] 0)

/-- The MST edge list and weight that the default invocation of `prim`
returns (it never takes the `error` branch: the default start node is a key
of the adjacency dict). -/
def primRes (aristas : List Arista) : List Arista × Nat :=
  match prim aristas none with
  | .ok r => r
  | .error _ => ([], 0)

/-! ## Dijkstra (`src/dijkstra.py`) -/

/-- A heap entry `(distancia, nodo)` of the Dijkstra queue. -/
abbrev EntradaDij := Nat × Nodo

/-- Python tuple order on `(distancia, nodo)`. -/
def entradaDijLe (a b : EntradaDij) : Bool :=
  if a.1 < b.1 then true
  else if b.1 < a.1 then false
  else if strLtB a.2 b.2 then true
  else if strLtB b.2 a.2 then false
  else true

/-- `heapq.heappush` on the sorted-list model of the Dijkstra heap. -/
def heapPushD (x : EntradaDij) : List EntradaDij → List EntradaDij
  | [] => [x]
  | y :: ys => if entradaDijLe x y then x :: y :: ys else y :: heapPushD x ys

/-- Distances are `float('inf')` (here `none`) or accumulated integer sums
(`some d`). -/
def ltInf (n : Nat) : Option Nat → Bool
  | none => true
  | some m => n < m

/-- Relaxation of the neighbours of the freshly visited `actual` at distance
`d`: skip visited neighbours, and on a strict improvement update distance
and predecessor and push the improved pair. -/
def relajar (actual : Nodo) (d : Nat) (visitados : List Nodo)
    (st : List (Nodo × Option Nat) × List (Nodo × Nodo) × List EntradaDij)
    (vecinos : List (Nodo × Nat)) :
    List (Nodo × Option Nat) × List (Nodo × Nodo) × List EntradaDij :=
  vecinos.foldl (fun st pr =>
    if pr.1 ∈ visitados then st
    else
      let nueva := d + pr.2
      if ltInf nueva ((dget st.1 pr.1).getD none) then
        (dset st.1 pr.1 (some nueva), dset st.2.1 pr.1 actual,
         heapPushD (nueva, pr.1) st.2.2)
      else st) st

/-- One neighbour step of `relajar`, named so the invariance proofs can
rewrite it case by case. -/
def relPaso (actual : Nodo) (d : Nat) (visitados : List Nodo)
    (st : List (Nodo × Option Nat) × List (Nodo × Nodo) × List EntradaDij)
    (pr : Nodo × Nat) :
    List (Nodo × Option Nat) × List (Nodo × Nodo) × List EntradaDij :=
  if pr.1 ∈ visitados then st
  else
    let nueva := d + pr.2
    if ltInf nueva ((dget st.1 pr.1).getD none) then
      (dset st.1 pr.1 (some nueva), dset st.2.1 pr.1 actual,
       heapPushD (nueva, pr.1) st.2.2)
    else st

/-- The main loop of `dijkstra`: pop the minimal `(distancia, nodo)`, skip
stale entries, otherwise finalize the node and relax its neighbours. -/
def dijkstraLoop (grafo : List (Nodo × List (Nodo × Nat)))
    (distancias : List (Nodo × Option Nat)) (predecesores : List (Nodo × Nodo))
    (visitados : List Nodo) (heap : List EntradaDij) :
    List (Nodo × Option Nat) × List (Nodo × Nodo) :=
  match heap with
  | [] => (distancias, predecesores)
  | (d, actual) :: resto =>
    if actual ∈ visitados then
      dijkstraLoop grafo distancias predecesores visitados resto
    else
      if hv : visitados.length < grafo.length then
        let visitados2 := visitados ++ [actual]
        let st := relajar actual d visitados2 (distancias, predecesores, resto)
          ((dget grafo actual).getD [])
        dijkstraLoop grafo st.1 st.2.1 visitados2 st.2.2
      else (distancias, predecesores)
termination_by (grafo.length - visitados.length, heap.length)
decreasing_by
  · apply Prod.Lex.right
    simp
  · apply Prod.Lex.left
    simp only [List.length_append, List.length_cons, List.length_nil]
    omega

/-- `dijkstra(aristas, nodo_origen)`: empty result when the source is not a
key of the adjacency dict, otherwise distances (source at `0`, the rest at
infinity) and predecessors computed by the loop. -/
def dijkstra (aristas : List Arista) (origen : Nodo) :
    List (Nodo × Option Nat) × List (Nodo × Nodo) :=
  let grafo := construirGrafo aristas
  match dget grafo origen with
  | none => ([], [])
  | some _ =>
    let d0 := grafo.map (fun kv => (kv.1, (none : Option Nat)))
    let distancias := dset d0 origen (some 0)
    dijkstraLoop grafo distancias [] [] [(0, origen)]

/-- Body of `reconstruir_ruta`'s `while` walk with explicit fuel.  On
`dijkstra` outputs each predecessor was visited strictly earlier than its
successor, so the walk is acyclic and `|predecesores| + 1` steps suffice;
on a hypothetical cyclic map the Python loop would not terminate, a state
no claim exercises. -/
def reconstruirAux (predecesores : List (Nodo × Nodo)) (origen : Nodo) :
    Nat → Nodo → List Nodo → List Nodo
  | 0, _, _ => []
  | fuel + 1, actual, ruta =>
    if actual = origen then (ruta ++ [origen]).reverse
    else
      match dget predecesores actual with
      | none => []
      | some p => reconstruirAux predecesores origen fuel p (ruta ++ [actual])

/-- `reconstruir_ruta(predecesores, nodo_origen, nodo_destino)`. -/
def reconstruir_ruta (predecesores : List (Nodo × Nodo)) (origen destino : Nodo) :
    List Nodo :=
  if (dget predecesores destino).isNone ∧ destino ≠ origen then []
  else reconstruirAux predecesores origen (predecesores.length + 1) destino []

/-! ## Huffman (`src/huffman.py`)

The heap of `construir_arbol_huffman` orders `NodoHuffman` values by
`__lt__`, which compares frequencies only, so the pop order among
equal-frequency trees is implementation-defined in the source (it depends on
`heapify`'s array layout).  The model resolves those ties stably (earlier
inserted first); every property claimed of the result is independent of the
tie order. -/

/-- A Huffman tree node: a leaf holds a character and its frequency, an
internal node holds the summed frequency and exactly the two children the
constructor received (the only shapes `construir_arbol_huffman` builds). -/
inductive NodoHuffman where
  | hoja (caracter : Char) (frecuencia : Nat)
  | interno (frecuencia : Nat) (izquierdo derecho : NodoHuffman)
deriving DecidableEq

/-- The `frecuencia` field. -/
def frecuencia : NodoHuffman → Nat
  | .hoja _ f => f
  | .interno f _ _ => f

/-- `heapq.heappush` on the sorted-list model of the tree heap (stable:
a new tree goes after existing trees of the same frequency). -/
def hpush (x : NodoHuffman) : List NodoHuffman → List NodoHuffman
  | [] => [x]
  | y :: ys => if frecuencia y ≤ frecuencia x then y :: hpush x ys else x :: y :: ys

/-- The `while len(heap) > 1` merge loop: pop the two lowest-frequency
trees, make them the left and right children of a fresh internal node whose
frequency is their sum, and push it back. -/
def huffLoop : List NodoHuffman → List NodoHuffman
  | [] => []
  | [t] => [t]
  | izq :: der :: resto =>
    huffLoop (hpush (.interno (frecuencia izq + frecuencia der) izq der) resto)
termination_by l => l.length
decreasing_by
  have hlen : ∀ (x : NodoHuffman) (h : List NodoHuffman),
      (hpush x h).length = h.length + 1 := by
    intro x h
    induction h with
    | nil => rfl
    | cons y ys ih =>
      simp only [hpush]
      split <;> simp [ih]
  simp [hlen]

/-- `construir_arbol_huffman(frecuencias)`: `None` on an empty table,
otherwise heapify the leaves and merge until one tree remains
(`heap[0] if heap else None`). -/
def construir_arbol_huffman (frecuencias : List (Char × Nat)) : Option NodoHuffman :=
  if frecuencias = [] then none
  else
    let heap := (frecuencias.map (fun cf => NodoHuffman.hoja cf.1 cf.2)).mergeSort
      (fun a b => frecuencia a ≤ frecuencia b)
    match huffLoop heap with
    | t :: _ => some t
    | [] => none

/-- Recursion of `generar_codigos`: left edges append the bit character
`'0'`, right edges `'1'`; a leaf records its accumulated code, or the
literal one-character string `"0"` when the accumulated code is empty
(`codigo if codigo else "0"`). -/
def generarAux : NodoHuffman → List Char → List (Char × List Char) →
    List (Char × List Char)
  | .hoja c _, codigo, codigos => dset codigos c (if codigo = [] then ['0'] else codigo)
  | .interno _ izq der, codigo, codigos =>
    generarAux der (codigo ++ ['1']) (generarAux izq (codigo ++ ['0']) codigos)

/-- `generar_codigos(raiz)`: the symbol-to-bit-string table, bit strings as
lists of the characters `'0'`/`'1'`. -/
def generar_codigos (raiz : Option NodoHuffman) : List (Char × List Char) :=
  match raiz with
  | none => []
  | some r => generarAux r [] []

/-- Encoding a symbol sequence with a code table: concatenation of the
per-symbol codes; `none` if a symbol has no code. -/
def codificar (codigos : List (Char × List Char)) : List Char → Option (List Char)
  | [] => some []
  | c :: resto =>
    match dget codigos c, codificar codigos resto with
    | some w, some enc => some (w ++ enc)
    | _, _ => none

/-- Boolean test that `p` is a leading segment of `l`. -/
def esPrefijoB : List Char → List Char → Bool
  | [], _ => true
  | _ :: _, [] => false
  | a :: as, b :: bs => a = b && esPrefijoB as bs

/-- Modelled from the spec: the repository ships no decoder, but §8 of the
spec demands that "decoding any encoded bit stream with the generated table
round-trips to the original symbol sequence".  The canonical decoder for a
prefix-free table: repeatedly strip the unique (nonempty) code that leads
the remaining bit stream.  Fuel bounds the number of decoded symbols. -/
def decodificarAux (codigos : List (Char × List Char)) :
    Nat → List Char → Option (List Char)
  | _, [] => some []
  | 0, _ :: _ => none
  | fuel + 1, b :: bs =>
    match codigos.find? (fun cf => !cf.2.isEmpty && esPrefijoB cf.2 (b :: bs)) with
    | none => none
    | some cf =>
      match decodificarAux codigos fuel ((b :: bs).drop cf.2.length) with
      | none => none
      | some resto => some (cf.1 :: resto)

/-- Modelled from the spec: greedy prefix decoding of a bit stream (each
decoded symbol consumes at least one bit, so `|bits|` steps of fuel
suffice). -/
def decodificar (codigos : List (Char × List Char)) (bits : List Char) :
    Option (List Char) :=
  decodificarAux codigos bits.length bits

/-- The compression statistic of `ejecutar_huffman` (lines 334–337):
`bits_original = len(texto) * 8` — and `len(texto)` is the sum of the
frequencies when `frecuencias = Counter(texto)` — while `bits_comprimido`
sums code length times frequency over the table. -/
def bits_original (frecuencias : List (Char × Nat)) : Nat :=
  (frecuencias.map Prod.snd).sum * 8

/-- `bits_comprimido = sum(len(codigos[char]) * freq ...)`. -/
def bits_comprimido (frecuencias : List (Char × Nat)) : Nat :=
  (frecuencias.map (fun cf =>
    ((dget (generar_codigos (construir_arbol_huffman frecuencias)) cf.1).getD []).length
      * cf.2)).sum

/-- `tasa_compresion = (1 - bits_comprimido / bits_original) * 100`.  The
Python computation is on floats; every value the claims evaluate it at is
exactly representable, so the rational model is exact there. -/
def tasa_compresion (frecuencias : List (Char × Nat)) : ℚ :=
  (1 - (bits_comprimido frecuencias : ℚ) / (bits_original frecuencias : ℚ)) * 100

/-! ## Derived notions used by the specification statements -/

/-- The parent pointer as a total function (identity off the registered
nodes). -/
def padreDe (uf : UF) (x : Nodo) : Nodo := (dget uf.padre x).getD x

/-- Iterated parent pointer. -/
def iterar (uf : UF) : Nat → Nodo → Nodo
  | 0, x => x
  | k + 1, x => iterar uf k (padreDe uf x)

/-- A node that is its own parent. -/
def EsRaiz (uf : UF) (x : Nodo) : Prop := padreDe uf x = x

/-- The representative of `x`: follow parents for `|padre|` steps (enough to
reach the root of any grounded state). -/
def rootD (uf : UF) (x : Nodo) : Nodo := iterar uf uf.padre.length x

/-- The well-formedness invariant of every reachable Union-Find state: keys
are duplicate-free, `rango` has the same keys as `padre`, parent pointers
stay inside the key set, and every parent chain reaches a root. -/
structure BuenUF (uf : UF) : Prop where
  nodup : uf.claves.Nodup
  rangoClaves : uf.rango.map Prod.fst = uf.claves
  cerrado : ∀ x ∈ uf.claves, padreDe uf x ∈ uf.claves
  fundado : ∀ x ∈ uf.claves, EsRaiz uf (rootD uf x)

/-- The states reachable from construction over a duplicate-free node list
by `unir` and `encontrar` calls on registered nodes. -/
inductive ReachableUF : UF → Prop where
  | init (nodos : List Nodo) (hnd : nodos.Nodup) : ReachableUF (ufInit nodos)
  | union {uf : UF} {x y : Nodo} {b : Bool} {uf2 : UF} (h : ReachableUF uf)
      (hx : x ∈ uf.claves) (hy : y ∈ uf.claves)
      (hu : unir uf x y = some (b, uf2)) : ReachableUF uf2
  | find {uf : UF} {x : Nodo} {r : Nodo} {uf2 : UF} (h : ReachableUF uf)
      (hx : x ∈ uf.claves) (hf : encontrar uf x = some (r, uf2)) : ReachableUF uf2

/-- Keep a node when no already-kept node reaches it. -/
def repPaso (es : List Arista) (acc : List Nodo) (x : Nodo) : List Nodo :=
  if acc.any (fun y => alcanzaB es y x) then acc else acc ++ [x]

/-- Representatives of the reachability classes of `ns` under the edge set
`es`: keep a node when no earlier kept node reaches it. -/
def reps (es : List Arista) (ns : List Nodo) : List Nodo :=
  ns.foldl (repPaso es) []

/-- Number of connected classes of the node list `ns` under the edge set
`es`. -/
def numClases (es : List Arista) (ns : List Nodo) : Nat := (reps es ns).length

/-- Proposition that `p` is a leading segment of `l`. -/
def EsPrefijo (p l : List Char) : Prop := ∃ resto, l = p ++ resto

/-- A code table is prefix-free: between distinct symbols, neither code is a
leading segment of the other (in particular the codes are distinct). -/
def SinPrefijos (tabla : List (Char × List Char)) : Prop :=
  ∀ p1 ∈ tabla, ∀ p2 ∈ tabla, p1.1 ≠ p2.1 → ¬ EsPrefijo p1.2 p2.2

/-- The spanning trees of the input graph: edge selections from the input
list that are acyclic and connect every pair of its endpoints. -/
def ArbolGenerador (t aristas : List Arista) : Prop :=
  (∀ e ∈ t, e ∈ aristas) ∧ Bosque t ∧ Genera t aristas

/-- The edges of weight at most `c` — the cut-off used to compare the two
minimum-spanning-tree engines threshold by threshold. -/
def hasta (es : List Arista) (c : Nat) : List Arista :=
  es.filter (fun e => pesoDe e ≤ c)

/-- Adjacent pairs of a node list, in order. -/
def Pares : List Nodo → List (Nodo × Nodo)
  | [] => []
  | [_] => []
  | x :: y :: resto => (x, y) :: Pares (y :: resto)

/-- The walk of `reconstruir_ruta`: follow predecessor pointers from a node
until the source is reached. -/
inductive PredWalk (predecesores : List (Nodo × Nodo)) (origen : Nodo) :
    Nodo → List Nodo → Prop where
  | base : PredWalk predecesores origen origen [origen]
  | paso {actual p : Nodo} {l : List Nodo} (hno : actual ≠ origen)
      (hp : dget predecesores actual = some p)
      (h : PredWalk predecesores origen p l) :
      PredWalk predecesores origen actual (actual :: l)

/-- Leaf characters of a Huffman tree, left to right. -/
def hojas : NodoHuffman → List Char
  | .hoja c _ => [c]
  | .interno _ izq der => hojas izq ++ hojas der

/-- The code table of a Huffman tree hanging below the bit string `pre`, in
leaf order: what `generar_codigos` computes, laid out without the dict. -/
def tabla : NodoHuffman → List Char → List (Char × List Char)
  | .hoja c _, pre => [(c, if pre = [] then ['0'] else pre)]
  | .interno _ izq der, pre => tabla izq (pre ++ ['0']) ++ tabla der (pre ++ ['1'])

/-- State after `unir a b` on the construction over `[a, b, c, d]`. -/
def ufPaso1 : UF :=
  { padre := [("a", "a"), ("b", "a"), ("c", "c"), ("d", "d")],
    rango := [("a", 1), ("b", 0), ("c", 0), ("d", 0)] }

/-- State after `unir c d` on `ufPaso1`. -/
def ufPaso2 : UF :=
  { padre := [("a", "a"), ("b", "a"), ("c", "c"), ("d", "c")],
    rango := [("a", 1), ("b", 0), ("c", 1), ("d", 0)] }

/-- Union-Find state produced by the call sequence `unir a b`, `unir c d`,
`unir b d` after construction over `[a, b, c, d]`: the node `d` hangs at
depth two below root `a` through `c`. -/
def ufEjemplo : UF :=
  { padre := [("a", "a"), ("b", "a"), ("c", "a"), ("d", "c")],
    rango := [("a", 2), ("b", 0), ("c", 1), ("d", 0)] }

/-- State after the redundant call `unir d b` on `ufEjemplo`: the call
reports `False`, yet path compression has rewritten the parent of `d`. -/
def ufEjemplo2 : UF :=
  { padre := [("a", "a"), ("b", "a"), ("c", "a"), ("d", "a")],
    rango := [("a", 2), ("b", 0), ("c", 1), ("d", 0)] }

/-! # Lemmas

## Association-list toolkit -/

section Dicts

variable {κ β : Type} [DecidableEq κ]

theorem dget_eq_none {d : List (κ × β)} {k : κ} :
    dget d k = none ↔ k ∉ d.map Prod.fst := by
  induction d with
  | nil => simp [dget]
  | cons kv rest ih =>
    obtain ⟨k1, v⟩ := kv
    by_cases h : k1 = k
    · subst h
      simp [dget]
    · rw [show dget ((k1, v) :: rest) k = dget rest k by simp [dget, h]]
      rw [ih]
      have : ¬ k = k1 := fun e => h e.symm
      simp [this]

theorem dget_isSome {d : List (κ × β)} {k : κ} :
    (dget d k).isSome = true ↔ k ∈ d.map Prod.fst := by
  rcases h : dget d k with _ | v
  · simpa [h] using dget_eq_none.mp h
  · simp only [Option.isSome_some, true_iff]
    by_contra hk
    rw [dget_eq_none.mpr hk] at h
    exact Option.noConfusion h

theorem dget_mem {d : List (κ × β)} {k : κ} {v : β} (h : dget d k = some v) :
    (k, v) ∈ d := by
  induction d with
  | nil => exact Option.noConfusion h
  | cons kv rest ih =>
    obtain ⟨k1, v1⟩ := kv
    by_cases hk : k1 = k
    · subst hk
      rw [show dget ((k1, v1) :: rest) k1 = some v1 by simp [dget]] at h
      cases h
      exact List.mem_cons_self _ _
    · simp only [dget, if_neg hk] at h
      exact List.mem_cons_of_mem _ (ih h)

theorem dget_of_mem {d : List (κ × β)} {k : κ} {v : β}
    (hnd : (d.map Prod.fst).Nodup) (h : (k, v) ∈ d) : dget d k = some v := by
  induction d with
  | nil => cases h
  | cons kv rest ih =>
    obtain ⟨k1, v1⟩ := kv
    simp only [List.map_cons, List.nodup_cons] at hnd
    rcases List.mem_cons.mp h with h1 | h1
    · cases h1
      simp [dget]
    · have : k1 ≠ k := by
        rintro rfl
        exact hnd.1 (List.mem_map.mpr ⟨_, h1, rfl⟩)
      simp only [dget, if_neg this]
      exact ih hnd.2 h1

theorem dget_dset_self {d : List (κ × β)} {k : κ} {v : β} :
    dget (dset d k v) k = some v := by
  induction d with
  | nil => simp [dset, dget]
  | cons kv rest ih =>
    obtain ⟨k1, v1⟩ := kv
    by_cases h : k1 = k <;> simp [dset, dget, h, ih]

theorem dget_dset_ne {d : List (κ × β)} {k k2 : κ} {v : β} (h : k ≠ k2) :
    dget (dset d k v) k2 = dget d k2 := by
  induction d with
  | nil => simp [dset, dget, h]
  | cons kv rest ih =>
    obtain ⟨k1, v1⟩ := kv
    by_cases h1 : k1 = k
    · subst h1
      simp [dset, dget, h]
    · simp only [dset, if_neg h1]
      by_cases h2 : k1 = k2 <;> simp [dget, h2, ih]

theorem dset_map_fst_of_mem {d : List (κ × β)} {k : κ} {v : β}
    (h : k ∈ d.map Prod.fst) : (dset d k v).map Prod.fst = d.map Prod.fst := by
  induction d with
  | nil => cases h
  | cons kv rest ih =>
    obtain ⟨k1, v1⟩ := kv
    by_cases h1 : k1 = k
    · simp [dset, h1]
    · simp only [List.map_cons, List.mem_cons] at h
      rcases h with h | h
      · exact absurd h.symm h1
      · simp [dset, if_neg h1, ih h]

theorem dset_map_fst_of_not_mem {d : List (κ × β)} {k : κ} {v : β}
    (h : k ∉ d.map Prod.fst) : (dset d k v).map Prod.fst = d.map Prod.fst ++ [k] := by
  induction d with
  | nil => simp [dset]
  | cons kv rest ih =>
    obtain ⟨k1, v1⟩ := kv
    simp only [List.map_cons, List.mem_cons] at h
    push_neg at h
    simp [dset, if_neg (Ne.symm h.1), ih h.2]

theorem dset_length_of_mem {d : List (κ × β)} {k : κ} {v : β}
    (h : k ∈ d.map Prod.fst) : (dset d k v).length = d.length := by
  have h0 : (dset d k v).map Prod.fst = d.map Prod.fst := dset_map_fst_of_mem h
  have h1 := congrArg List.length h0
  simpa using h1

theorem dset_eq_append_of_not_mem {d : List (κ × β)} {k : κ} {v : β}
    (h : k ∉ d.map Prod.fst) : dset d k v = d ++ [(k, v)] := by
  induction d with
  | nil => simp [dset]
  | cons kv rest ih =>
    obtain ⟨k1, v1⟩ := kv
    simp only [List.map_cons, List.mem_cons] at h
    push_neg at h
    simp [dset, if_neg (Ne.symm h.1), ih h.2]

end Dicts

/-! ## Union-Find: parent chains of grounded states -/

theorem iterar_add (uf : UF) (a b : Nat) (x : Nodo) :
    iterar uf (a + b) x = iterar uf a (iterar uf b x) := by
  induction b generalizing x with
  | zero => rfl
  | succ b ih =>
    show iterar uf (a + b + 1) x = _
    rw [show a + b + 1 = (a + b) + 1 from rfl]
    show iterar uf (a + b) (padreDe uf x) = _
    rw [ih (padreDe uf x)]
    rfl

theorem iterar_raiz {uf : UF} {x : Nodo} (h : EsRaiz uf x) (k : Nat) :
    iterar uf k x = x := by
  induction k with
  | zero => rfl
  | succ k ih =>
    show iterar uf k (padreDe uf x) = x
    rw [h]
    exact ih

theorem iterar_estable {uf : UF} {x : Nodo} {m : Nat}
    (h : EsRaiz uf (iterar uf m x)) {k : Nat} (hk : m ≤ k) :
    iterar uf k x = iterar uf m x := by
  have : k = (k - m) + m := by omega
  rw [this, iterar_add]
  exact iterar_raiz h _

theorem iterar_periodico {uf : UF} {x : Nodo} {i d : Nat} (hd : 0 < d)
    (h : iterar uf (i + d) x = iterar uf i x) (k : Nat) :
    iterar uf (i + k * d) x = iterar uf i x := by
  induction k with
  | zero => simp
  | succ k ih =>
    have : i + (k + 1) * d = d + (i + k * d) := by ring
    rw [this, iterar_add, ih, ← iterar_add]
    rw [show d + i = i + d by ring, h]

theorem claves_length (uf : UF) : uf.claves.length = uf.padre.length := by
  simp [UF.claves]

theorem mem_claves_iterar {uf : UF} (hb : BuenUF uf) {x : Nodo}
    (hx : x ∈ uf.claves) (k : Nat) : iterar uf k x ∈ uf.claves := by
  induction k generalizing x with
  | zero => exact hx
  | succ k ih => exact ih (hb.cerrado x hx)

theorem rootD_raiz {uf : UF} {x : Nodo} (h : EsRaiz uf x) : rootD uf x = x :=
  iterar_raiz h _

theorem esRaiz_of_not_mem {uf : UF} {x : Nodo} (h : x ∉ uf.claves) :
    EsRaiz uf x := by
  unfold EsRaiz padreDe
  rw [dget_eq_none.mpr h]
  rfl

theorem rootD_of_not_mem {uf : UF} {x : Nodo} (h : x ∉ uf.claves) :
    rootD uf x = x := rootD_raiz (esRaiz_of_not_mem h)

theorem esRaiz_rootD {uf : UF} (hb : BuenUF uf) (x : Nodo) :
    EsRaiz uf (rootD uf x) := by
  by_cases hx : x ∈ uf.claves
  · exact hb.fundado x hx
  · rw [rootD_of_not_mem hx]
    exact esRaiz_of_not_mem hx

theorem iterar_eq_rootD {uf : UF} (hb : BuenUF uf) {x : Nodo}
    (hx : x ∈ uf.claves) {m : Nat} (h : EsRaiz uf (iterar uf m x)) :
    iterar uf m x = rootD uf x := by
  rcases le_total m uf.padre.length with hm | hm
  · exact (iterar_estable h hm).symm
  · have hfund : EsRaiz uf (iterar uf uf.padre.length x) := hb.fundado x hx
    rw [iterar_estable hfund hm]
    rfl

theorem rootD_mem {uf : UF} (hb : BuenUF uf) {x : Nodo} (hx : x ∈ uf.claves) :
    rootD uf x ∈ uf.claves := mem_claves_iterar hb hx _

theorem rootD_padre {uf : UF} (hb : BuenUF uf) {x : Nodo} (hx : x ∈ uf.claves) :
    rootD uf (padreDe uf x) = rootD uf x := by
  have hlen : 1 ≤ uf.padre.length := by
    have := claves_length uf
    have : uf.claves ≠ [] := List.ne_nil_of_mem hx
    have := List.length_pos.mpr this
    omega
  have hfund : EsRaiz uf (iterar uf uf.padre.length x) := hb.fundado x hx
  have hdec : iterar uf uf.padre.length x
      = iterar uf (uf.padre.length - 1) (padreDe uf x) := by
    have : uf.padre.length = (uf.padre.length - 1) + 1 := by omega
    rw [this]
    rfl
  rw [hdec] at hfund
  have := iterar_eq_rootD hb (hb.cerrado x hx) hfund
  rw [← this, ← hdec]
  rfl

theorem rootD_iterar {uf : UF} (hb : BuenUF uf) {x : Nodo} (hx : x ∈ uf.claves)
    (k : Nat) : rootD uf (iterar uf k x) = rootD uf x := by
  induction k generalizing x with
  | zero => rfl
  | succ k ih =>
    show rootD uf (iterar uf k (padreDe uf x)) = _
    rw [ih (hb.cerrado x hx), rootD_padre hb hx]

/-- Pigeonhole bound: a grounded chain reaches its root strictly within the
number of registered nodes. -/
theorem prof_lt {uf : UF} (hb : BuenUF uf) {x : Nodo} (hx : x ∈ uf.claves) :
    EsRaiz uf (iterar uf (uf.padre.length - 1) x) := by
  set len := uf.padre.length with hlendef
  by_contra hroot
  have hnr : ∀ k ≤ len - 1, ¬ EsRaiz uf (iterar uf k x) := by
    intro k hk he
    refine hroot ?_
    rw [iterar_estable he hk]
    exact he
  have hfund : EsRaiz uf (iterar uf len x) := hb.fundado x hx
  have hlen1 : 1 ≤ len := by
    have h1 : uf.claves ≠ [] := List.ne_nil_of_mem hx
    have := List.length_pos.mpr h1
    rw [claves_length] at this
    omega
  -- distinct iterates: a repeat would make the chain periodic and no
  -- iterate a root
  have hinj : ∀ i j, i < j → j ≤ len → iterar uf i x ≠ iterar uf j x := by
    intro i j hij hj heq
    have hd : 0 < j - i := by omega
    have hper : iterar uf (i + (j - i)) x = iterar uf i x := by
      rw [show i + (j - i) = j by omega]
      exact heq.symm
    have hk := iterar_periodico hd hper len
    have hge : len ≤ i + len * (j - i) := by nlinarith
    have hstab := iterar_estable hfund hge
    have : EsRaiz uf (iterar uf i x) := by
      rw [← hk, hstab]
      exact hfund
    exact hnr i (by omega) this
  -- pigeonhole: len + 1 distinct members of a duplicate-free list of
  -- length len
  have hmap : ∀ i ∈ List.range (len + 1), iterar uf i x ∈ uf.claves :=
    fun i _ => mem_claves_iterar hb hx i
  have hnodup : ((List.range (len + 1)).map (fun i => iterar uf i x)).Nodup := by
    rw [List.nodup_map_iff_inj_on (List.nodup_range _)]
    intro i hi j hj heq
    simp only [List.mem_range] at hi hj
    by_contra hne
    rcases Nat.lt_or_ge i j with h | h
    · exact hinj i j h (by omega) heq
    · have : j < i := by omega
      exact hinj j i this (by omega) heq.symm
  have hsub : ((List.range (len + 1)).map (fun i => iterar uf i x)).toFinset
      ⊆ uf.claves.toFinset := by
    intro a ha
    simp only [List.mem_toFinset, List.mem_map] at ha
    obtain ⟨i, hi, rfl⟩ := ha
    exact List.mem_toFinset.mpr (hmap i hi)
  have hcard1 : ((List.range (len + 1)).map (fun i => iterar uf i x)).toFinset.card
      = len + 1 := by
    rw [List.toFinset_card_of_nodup hnodup]
    simp
  have hcard2 : uf.claves.toFinset.card ≤ len := by
    calc uf.claves.toFinset.card ≤ uf.claves.length := uf.claves.toFinset_card_le
    _ = len := claves_length uf
  have := Finset.card_le_card hsub
  omega

/-- Rewiring parent pointers, each either kept or redirected straight to the
node's own root, preserves the key set's roots and the invariant. -/
theorem reparentar {uf uf2 : UF} (hb : BuenUF uf)
    (hk : uf2.padre.map Prod.fst = uf.padre.map Prod.fst)
    (hr : uf2.rango.map Prod.fst = uf.rango.map Prod.fst)
    (hp : ∀ z, padreDe uf2 z = padreDe uf z ∨ padreDe uf2 z = rootD uf z) :
    BuenUF uf2 ∧ ∀ z, rootD uf2 z = rootD uf z := by
  have hclaves : uf2.claves = uf.claves := hk
  have hlen : uf2.padre.length = uf.padre.length := by
    have := congrArg List.length hk
    simpa using this
  have hraiz2 : ∀ r, EsRaiz uf r → EsRaiz uf2 r := by
    intro r hr2
    rcases hp r with h | h
    · unfold EsRaiz
      rw [h]
      exact hr2
    · unfold EsRaiz
      rw [h, rootD_raiz hr2]
  have key : ∀ n z, z ∈ uf.claves → EsRaiz uf (iterar uf n z) →
      ∃ m ≤ n, iterar uf2 m z = rootD uf z := by
    intro n
    induction n with
    | zero =>
      intro z hz hroot
      exact ⟨0, le_refl _, (rootD_raiz hroot).symm⟩
    | succ n ih =>
      intro z hz hroot
      by_cases hz0 : EsRaiz uf z
      · exact ⟨0, Nat.zero_le _, (rootD_raiz hz0).symm⟩
      · rcases hp z with h | h
        · have hpz : EsRaiz uf (iterar uf n (padreDe uf z)) := hroot
          obtain ⟨m, hm, hit⟩ := ih (padreDe uf z) (hb.cerrado z hz) hpz
          refine ⟨m + 1, by omega, ?_⟩
          show iterar uf2 m (padreDe uf2 z) = _
          rw [h, hit, rootD_padre hb hz]
        · refine ⟨1, by omega, ?_⟩
          show iterar uf2 0 (padreDe uf2 z) = _
          rw [h]
          rfl
  have hroots : ∀ z, rootD uf2 z = rootD uf z := by
    intro z
    by_cases hz : z ∈ uf.claves
    · obtain ⟨m, hm, hit⟩ := key uf.padre.length z hz (hb.fundado z hz)
      have hraizm : EsRaiz uf2 (iterar uf2 m z) := by
        rw [hit]
        exact hraiz2 _ (esRaiz_rootD hb z)
      have hst : iterar uf2 uf2.padre.length z = iterar uf2 m z := by
        apply iterar_estable hraizm
        omega
      show iterar uf2 uf2.padre.length z = rootD uf z
      rw [hst, hit]
    · have h2 : z ∉ uf2.claves := by
        rw [hclaves]
        exact hz
      rw [rootD_of_not_mem h2, rootD_of_not_mem hz]
  refine ⟨⟨?_, ?_, ?_, ?_⟩, hroots⟩
  · rw [hclaves]
    exact hb.nodup
  · rw [hr, hclaves]
    exact hb.rangoClaves
  · intro z hz
    rw [hclaves] at hz ⊢
    rcases hp z with h | h
    · rw [h]
      exact hb.cerrado z hz
    · rw [h]
      exact rootD_mem hb hz
  · intro z hz
    rw [hroots z]
    rw [hclaves] at hz
    exact hraiz2 _ (esRaiz_rootD hb z)

/-- `encontrarAux` at a root returns immediately without mutation. -/
theorem encontrarAux_raiz {uf : UF} {x : Nodo} (hx : x ∈ uf.claves)
    (hroot : EsRaiz uf x) (fuel : Nat) (hfuel : 0 < fuel) :
    ∃ uf2, encontrarAux fuel uf x = some (rootD uf x, uf2) ∧
      uf2.rango = uf.rango ∧
      uf2.padre.map Prod.fst = uf.padre.map Prod.fst ∧
      (∀ z, padreDe uf2 z = padreDe uf z ∨
        (padreDe uf2 z = rootD uf x ∧ ∃ i, z = iterar uf i x ∧ ¬ EsRaiz uf z)) ∧
      (∀ i, ¬ EsRaiz uf (iterar uf i x) → padreDe uf2 (iterar uf i x) = rootD uf x) := by
  obtain ⟨fuel, rfl⟩ : ∃ f, fuel = f + 1 := ⟨fuel - 1, by omega⟩
  have h0 : (dget uf.padre x).isSome = true := dget_isSome.mpr hx
  have hsome : dget uf.padre x = some x := by
    rcases hp : dget uf.padre x with _ | p
    · rw [hp] at h0
      exact absurd h0 (by simp)
    · have h1 : padreDe uf x = p := by simp [padreDe, hp]
      have hxr : p = x := by
        rw [← h1]
        exact hroot
      rw [hxr]
  refine ⟨uf, ?_, rfl, rfl, fun z => Or.inl rfl, ?_⟩
  · rw [rootD_raiz hroot]
    simp [encontrarAux, hsome]
  · intro i hni
    exact absurd (show EsRaiz uf (iterar uf i x) by rw [iterar_raiz hroot]; exact hroot) hni

/-- Full specification of `encontrarAux`: with enough fuel on a grounded
state it returns the root of its argument, leaves ranks and keys unchanged,
rewrites the parent of every traversed non-root chain node straight to that
root, and touches nothing else. -/
theorem encontrarAux_ok (m : Nat) :
    ∀ (uf : UF) (x : Nodo), BuenUF uf → x ∈ uf.claves →
      EsRaiz uf (iterar uf m x) → ∀ fuel, m < fuel →
      ∃ uf2, encontrarAux fuel uf x = some (rootD uf x, uf2) ∧
        uf2.rango = uf.rango ∧
        uf2.padre.map Prod.fst = uf.padre.map Prod.fst ∧
        (∀ z, padreDe uf2 z = padreDe uf z ∨
          (padreDe uf2 z = rootD uf x ∧ ∃ i, z = iterar uf i x ∧ ¬ EsRaiz uf z)) ∧
        (∀ i, ¬ EsRaiz uf (iterar uf i x) → padreDe uf2 (iterar uf i x) = rootD uf x) := by
  induction m with
  | zero =>
    intro uf x hb hx hroot fuel hfuel
    exact encontrarAux_raiz hx hroot fuel hfuel
  | succ m ih =>
    intro uf x hb hx hroot fuel hfuel
    by_cases hz0 : EsRaiz uf x
    · exact encontrarAux_raiz hx hz0 fuel (by omega)
    · obtain ⟨fuel, rfl⟩ : ∃ f, fuel = f + 1 := ⟨fuel - 1, by omega⟩
      have h0 : (dget uf.padre x).isSome = true := dget_isSome.mpr hx
      rcases hp : dget uf.padre x with _ | p
      · rw [hp] at h0
        exact absurd h0 (by simp)
      · have hpeq : padreDe uf x = p := by simp [padreDe, hp]
        have hpx : p ≠ x := fun h => hz0 (show padreDe uf x = x by rw [hpeq, h])
        have hpc : p ∈ uf.claves := by
          rw [← hpeq]
          exact hb.cerrado x hx
        have hrootp : EsRaiz uf (iterar uf m p) := by
          rw [← hpeq]
          exact hroot
        obtain ⟨uf2, heq, hrango, hkeys, hchar, hcomp⟩ :=
          ih uf p hb hpc hrootp fuel (by omega)
        have hrpx : rootD uf p = rootD uf x := by
          rw [← hpeq]
          exact rootD_padre hb hx
        refine ⟨{ uf2 with padre := dset uf2.padre x (rootD uf p) }, ?_, hrango, ?_, ?_, ?_⟩
        · rw [← hrpx]
          simp only [encontrarAux, hp]
          rw [if_neg hpx, heq]
        · show (dset uf2.padre x (rootD uf p)).map Prod.fst = _
          rw [dset_map_fst_of_mem (by rw [hkeys]; exact hx), hkeys]
        · intro z
          by_cases hzx : z = x
          · subst hzx
            right
            refine ⟨?_, 0, rfl, hz0⟩
            show (dget (dset uf2.padre z (rootD uf p)) z).getD z = rootD uf z
            rw [dget_dset_self]
            simpa using hrpx
          · have hne : padreDe { uf2 with padre := dset uf2.padre x (rootD uf p) } z
                = padreDe uf2 z := by
              show (dget (dset uf2.padre x (rootD uf p)) z).getD z = _
              rw [dget_dset_ne (fun h => hzx h.symm)]
              rfl
            rw [hne]
            rcases hchar z with h | ⟨h1, i, hzi, hnr⟩
            · left
              exact h
            · right
              refine ⟨by rw [h1, hrpx], i + 1, ?_, hnr⟩
              show z = iterar uf i (padreDe uf x)
              rw [hpeq]
              exact hzi
        · intro i hni
          rcases i with _ | j
          · show padreDe { uf2 with padre := dset uf2.padre x (rootD uf p) } x = rootD uf x
            show (dget (dset uf2.padre x (rootD uf p)) x).getD x = _
            rw [dget_dset_self]
            simpa using hrpx
          · have hzdef : iterar uf (j + 1) x = iterar uf j p := by
              show iterar uf j (padreDe uf x) = _
              rw [hpeq]
            rw [hzdef] at hni ⊢
            by_cases hzx : iterar uf j p = x
            · rw [hzx]
              show (dget (dset uf2.padre x (rootD uf p)) x).getD x = _
              rw [dget_dset_self]
              simpa using hrpx
            · have hne : padreDe { uf2 with padre := dset uf2.padre x (rootD uf p) }
                  (iterar uf j p) = padreDe uf2 (iterar uf j p) := by
                show (dget (dset uf2.padre x (rootD uf p)) (iterar uf j p)).getD _ = _
                rw [dget_dset_ne (fun h => hzx h.symm)]
                rfl
              rw [hne, hcomp j hni, hrpx]

/-- Specification of `encontrar` on a grounded state: it returns the
representative, preserves ranks, keys, every node's representative and the
invariant, and compresses the traversed path onto the root. -/
theorem encontrar_ok {uf : UF} (hb : BuenUF uf) {x : Nodo} (hx : x ∈ uf.claves) :
    ∃ uf2, encontrar uf x = some (rootD uf x, uf2) ∧
      uf2.rango = uf.rango ∧
      uf2.padre.map Prod.fst = uf.padre.map Prod.fst ∧
      BuenUF uf2 ∧
      (∀ z, rootD uf2 z = rootD uf z) ∧
      (∀ i, ¬ EsRaiz uf (iterar uf i x) → padreDe uf2 (iterar uf i x) = rootD uf x) := by
  have hlen : 1 ≤ uf.padre.length := by
    have h1 : uf.claves ≠ [] := List.ne_nil_of_mem hx
    have := List.length_pos.mpr h1
    rw [claves_length] at this
    omega
  obtain ⟨uf2, heq, hrango, hkeys, hchar, hcomp⟩ :=
    encontrarAux_ok (uf.padre.length - 1) uf x hb hx (prof_lt hb hx)
      uf.padre.length (by omega)
  have hp : ∀ z, padreDe uf2 z = padreDe uf z ∨ padreDe uf2 z = rootD uf z := by
    intro z
    rcases hchar z with h | ⟨h1, i, hzi, _⟩
    · exact Or.inl h
    · right
      rw [h1, hzi, rootD_iterar hb hx]
  obtain ⟨hb2, hroots⟩ := reparentar hb hkeys (by rw [hrango]) hp
  exact ⟨uf2, heq, hrango, hkeys, hb2, hroots, hcomp⟩

/-- Linking one root under another: the linked root's class is absorbed,
every other representative is unchanged, and the invariant is preserved. -/
theorem enlazar {uf : UF} {rA rB : Nodo} (hb : BuenUF uf)
    (hA : rA ∈ uf.claves) (hB : rB ∈ uf.claves)
    (hrA : EsRaiz uf rA) (hrB : EsRaiz uf rB) (hne : rA ≠ rB)
    (uf2 : UF) (hpadre : uf2.padre = dset uf.padre rA rB)
    (hrango : uf2.rango.map Prod.fst = uf.rango.map Prod.fst) :
    BuenUF uf2 ∧
      ∀ z, rootD uf2 z = if rootD uf z = rA then rB else rootD uf z := by
  have hkeys : uf2.padre.map Prod.fst = uf.padre.map Prod.fst := by
    rw [hpadre]
    exact dset_map_fst_of_mem hA
  have hclaves : uf2.claves = uf.claves := hkeys
  have hlen : uf2.padre.length = uf.padre.length := by
    have := congrArg List.length hkeys
    simpa using this
  have hpad : ∀ z, padreDe uf2 z = if z = rA then rB else padreDe uf z := by
    intro z
    by_cases hz : z = rA
    · subst hz
      show (dget uf2.padre z).getD z = _
      rw [hpadre, dget_dset_self, if_pos rfl]
      rfl
    · show (dget uf2.padre z).getD z = _
      rw [hpadre, dget_dset_ne (fun h => hz h.symm), if_neg hz]
      rfl
  have hrB2 : EsRaiz uf2 rB := by
    show padreDe uf2 rB = rB
    rw [hpad, if_neg (fun h => hne h.symm)]
    exact hrB
  have key : ∀ n z, z ∈ uf.claves → EsRaiz uf (iterar uf n z) →
      ∃ m ≤ n + 1, iterar uf2 m z = (if rootD uf z = rA then rB else rootD uf z) := by
    intro n
    induction n with
    | zero =>
      intro z hz hroot
      have hrz : rootD uf z = z := rootD_raiz hroot
      by_cases hzA : z = rA
      · subst hzA
        refine ⟨1, by omega, ?_⟩
        show iterar uf2 0 (padreDe uf2 z) = _
        rw [hpad, if_pos rfl, hrz, if_pos rfl]
        rfl
      · refine ⟨0, by omega, ?_⟩
        rw [hrz, if_neg hzA]
        rfl
    | succ n ih =>
      intro z hz hroot
      by_cases hz0 : EsRaiz uf z
      · have hrz : rootD uf z = z := rootD_raiz hz0
        by_cases hzA : z = rA
        · subst hzA
          refine ⟨1, by omega, ?_⟩
          show iterar uf2 0 (padreDe uf2 z) = _
          rw [hpad, if_pos rfl, hrz, if_pos rfl]
          rfl
        · refine ⟨0, by omega, ?_⟩
          rw [hrz, if_neg hzA]
          rfl
      · have hzA : z ≠ rA := fun h => hz0 (h ▸ hrA)
        have hroot2 : EsRaiz uf (iterar uf n (padreDe uf z)) := hroot
        obtain ⟨m, hm, hit⟩ := ih (padreDe uf z) (hb.cerrado z hz) hroot2
        refine ⟨m + 1, by omega, ?_⟩
        show iterar uf2 m (padreDe uf2 z) = _
        rw [hpad, if_neg hzA, hit, rootD_padre hb hz]
  have htarget : ∀ z, EsRaiz uf2 (if rootD uf z = rA then rB else rootD uf z) := by
    intro z
    by_cases h : rootD uf z = rA
    · rw [if_pos h]
      exact hrB2
    · rw [if_neg h]
      show padreDe uf2 (rootD uf z) = rootD uf z
      rw [hpad, if_neg h]
      by_cases hz : z ∈ uf.claves
      · exact hb.fundado z hz
      · rw [rootD_of_not_mem hz]
        exact esRaiz_of_not_mem hz
  have hroots : ∀ z, rootD uf2 z =
      if rootD uf z = rA then rB else rootD uf z := by
    intro z
    by_cases hz : z ∈ uf.claves
    · obtain ⟨m, hm, hit⟩ := key (uf.padre.length - 1) z hz (prof_lt hb hz)
      have hlen1 : 1 ≤ uf.padre.length := by
        have h1 : uf.claves ≠ [] := List.ne_nil_of_mem hz
        have := List.length_pos.mpr h1
        rw [claves_length] at this
        omega
      have hraizm : EsRaiz uf2 (iterar uf2 m z) := by
        rw [hit]
        exact htarget z
      show iterar uf2 uf2.padre.length z = _
      rw [iterar_estable hraizm (by omega), hit]
    · have hzA : z ≠ rA := fun h => hz (h ▸ hA)
      have h2 : z ∉ uf2.claves := by
        rw [hclaves]
        exact hz
      rw [rootD_of_not_mem h2, rootD_of_not_mem hz, if_neg hzA]
  refine ⟨⟨?_, ?_, ?_, ?_⟩, hroots⟩
  · rw [hclaves]
    exact hb.nodup
  · rw [hrango, hclaves]
    exact hb.rangoClaves
  · intro z hz
    rw [hclaves] at hz ⊢
    rw [hpad]
    by_cases h : z = rA
    · rw [if_pos h]
      exact hB
    · rw [if_neg h]
      exact hb.cerrado z hz
  · intro z hz
    rw [hroots z]
    exact htarget z

/-- Specification of `unir` on a grounded state: it always succeeds on
registered nodes; it reports `false` exactly when the two nodes share a
representative, in which case ranks and all representatives are unchanged;
it reports `true` otherwise, in which case one of the two representatives is
absorbed into the other and every other class is untouched. -/
theorem unir_ok {uf : UF} (hb : BuenUF uf) {x y : Nodo}
    (hx : x ∈ uf.claves) (hy : y ∈ uf.claves) :
    ∃ b uf2, unir uf x y = some (b, uf2) ∧ BuenUF uf2 ∧
      uf2.padre.map Prod.fst = uf.padre.map Prod.fst ∧
      uf2.rango.map Prod.fst = uf.rango.map Prod.fst ∧
      ((b = false ∧ rootD uf x = rootD uf y ∧ uf2.rango = uf.rango ∧
          (∀ z, rootD uf2 z = rootD uf z)) ∨
       (b = true ∧ rootD uf x ≠ rootD uf y ∧
          ∃ rA rB, ((rA = rootD uf x ∧ rB = rootD uf y) ∨
              (rA = rootD uf y ∧ rB = rootD uf x)) ∧
            (∀ z, rootD uf2 z = if rootD uf z = rA then rB else rootD uf z))) := by
  obtain ⟨uf1, heq1, hrango1, hkeys1, hb1, hroots1, _⟩ := encontrar_ok hb hx
  have hy1 : y ∈ uf1.claves := by
    show y ∈ uf1.padre.map Prod.fst
    rw [hkeys1]
    exact hy
  obtain ⟨uf2, heq2, hrango2, hkeys2, hb2, hroots2, _⟩ := encontrar_ok hb1 hy1
  have hry : rootD uf1 y = rootD uf y := hroots1 y
  have hkeys : uf2.padre.map Prod.fst = uf.padre.map Prod.fst := by
    rw [hkeys2, hkeys1]
  have hrango : uf2.rango = uf.rango := by rw [hrango2, hrango1]
  have hroots : ∀ z, rootD uf2 z = rootD uf z := fun z => by
    rw [hroots2 z, hroots1 z]
  by_cases hsame : rootD uf x = rootD uf y
  · refine ⟨false, uf2, ?_, hb2, hkeys, by rw [hrango], Or.inl ⟨rfl, hsame, hrango, hroots⟩⟩
    simp only [unir, heq1, heq2, hry]
    rw [if_pos hsame]
  · have hrgkeys : uf2.rango.map Prod.fst = uf.claves := by
      rw [hrango]
      exact hb.rangoClaves
    have hxk : rootD uf x ∈ uf.claves := rootD_mem hb hx
    have hyk : rootD uf y ∈ uf.claves := rootD_mem hb hy
    have hg1 : (dget uf2.rango (rootD uf x)).isSome = true := by
      rw [dget_isSome, hrgkeys]
      exact hxk
    have hg2 : (dget uf2.rango (rootD uf y)).isSome = true := by
      rw [dget_isSome, hrgkeys]
      exact hyk
    rcases hq1 : dget uf2.rango (rootD uf x) with _ | g1
    · rw [hq1] at hg1
      exact absurd hg1 (by simp)
    rcases hq2 : dget uf2.rango (rootD uf y) with _ | g2
    · rw [hq2] at hg2
      exact absurd hg2 (by simp)
    have hAk2 : rootD uf x ∈ uf2.claves := by
      show rootD uf x ∈ uf2.padre.map Prod.fst
      rw [hkeys]
      exact hxk
    have hBk2 : rootD uf y ∈ uf2.claves := by
      show rootD uf y ∈ uf2.padre.map Prod.fst
      rw [hkeys]
      exact hyk
    have hrzx : EsRaiz uf2 (rootD uf x) := by
      have := esRaiz_rootD hb2 x
      rw [hroots x] at this
      exact this
    have hrzy : EsRaiz uf2 (rootD uf y) := by
      have := esRaiz_rootD hb2 y
      rw [hroots y] at this
      exact this
    rcases Nat.lt_trichotomy g1 g2 with hlt | heqg | hgt
    · -- rango[raiz1] < rango[raiz2]: padre[raiz1] = raiz2
      obtain ⟨hb3, hroots3⟩ := enlazar hb2 hAk2 hBk2 hrzx hrzy hsame
        { uf2 with padre := dset uf2.padre (rootD uf x) (rootD uf y) } rfl rfl
      refine ⟨true, _, ?_, hb3, ?_, by rw [hrango], Or.inr ⟨rfl, hsame, rootD uf x,
        rootD uf y, Or.inl ⟨rfl, rfl⟩, ?_⟩⟩
      · simp only [unir, heq1, heq2, hry]
        rw [if_neg hsame, hq1, hq2]
        simp [hlt]
      · show (dset uf2.padre (rootD uf x) (rootD uf y)).map Prod.fst = _
        rw [dset_map_fst_of_mem hAk2, hkeys]
      · intro z
        rw [hroots3 z, hroots z]
    · -- equal ranks: padre[raiz2] = raiz1 and rango[raiz1] += 1
      obtain ⟨hb3, hroots3⟩ := enlazar hb2 hBk2 hAk2 hrzy hrzx (Ne.symm hsame)
        { uf2 with padre := dset uf2.padre (rootD uf y) (rootD uf x),
                   rango := dset uf2.rango (rootD uf x) (g1 + 1) } rfl
        (by
          show (dset uf2.rango (rootD uf x) (g1 + 1)).map Prod.fst = _
          rw [dset_map_fst_of_mem]
          rw [hrgkeys]
          exact hxk)
      refine ⟨true, _, ?_, hb3, ?_, ?_, Or.inr ⟨rfl, hsame, rootD uf y,
        rootD uf x, Or.inr ⟨rfl, rfl⟩, ?_⟩⟩
      · simp only [unir, heq1, heq2, hry]
        rw [if_neg hsame, hq1, hq2]
        subst heqg
        simp [Nat.lt_irrefl]
      · show (dset uf2.padre (rootD uf y) (rootD uf x)).map Prod.fst = _
        rw [dset_map_fst_of_mem hBk2, hkeys]
      · show (dset uf2.rango (rootD uf x) (g1 + 1)).map Prod.fst = _
        rw [dset_map_fst_of_mem (by rw [hrgkeys]; exact hxk), hrango]
      · intro z
        rw [hroots3 z, hroots z]
    · -- rango[raiz1] > rango[raiz2]: padre[raiz2] = raiz1
      obtain ⟨hb3, hroots3⟩ := enlazar hb2 hBk2 hAk2 hrzy hrzx (Ne.symm hsame)
        { uf2 with padre := dset uf2.padre (rootD uf y) (rootD uf x) } rfl rfl
      refine ⟨true, _, ?_, hb3, ?_, by rw [hrango], Or.inr ⟨rfl, hsame, rootD uf y,
        rootD uf x, Or.inr ⟨rfl, rfl⟩, ?_⟩⟩
      · simp only [unir, heq1, heq2, hry]
        rw [if_neg hsame, hq1, hq2]
        have hn1 : ¬ g1 < g2 := by omega
        simp [hn1, hgt]
      · show (dset uf2.padre (rootD uf y) (rootD uf x)).map Prod.fst = _
        rw [dset_map_fst_of_mem hBk2, hkeys]
      · intro z
        rw [hroots3 z, hroots z]

/-- Constructed states satisfy the invariant: every node is its own root. -/
theorem ufInit_padreDe (nodos : List Nodo) (x : Nodo) :
    padreDe (ufInit nodos) x = x := by
  show ((dget (nodos.map fun n => (n, n)) x).getD x) = x
  induction nodos with
  | nil => rfl
  | cons n rest ih =>
    by_cases h : n = x
    · simp [dget, h]
    · simpa [dget, h] using ih

theorem buenUF_init {nodos : List Nodo} (hnd : nodos.Nodup) :
    BuenUF (ufInit nodos) := by
  have hclaves : (ufInit nodos).claves = nodos := by
    show (nodos.map fun n => (n, n)).map Prod.fst = nodos
    rw [List.map_map]
    exact List.map_id nodos
  have hraiz : ∀ x, EsRaiz (ufInit nodos) x := fun x => ufInit_padreDe nodos x
  refine ⟨?_, ?_, ?_, ?_⟩
  · rw [hclaves]
    exact hnd
  · show (nodos.map fun n => (n, 0)).map Prod.fst = _
    rw [hclaves, List.map_map]
    exact List.map_id nodos
  · intro x hx
    rw [ufInit_padreDe]
    exact hx
  · intro x _
    exact hraiz _

/-- Every reachable state satisfies the invariant. -/
theorem reachable_buen {uf : UF} (h : ReachableUF uf) : BuenUF uf := by
  induction h with
  | init nodos hnd => exact buenUF_init hnd
  | union h hx hy hu ih =>
    obtain ⟨b2, uf2, heq, hb2, _⟩ := unir_ok ih hx hy
    rw [hu] at heq
    cases heq
    exact hb2
  | find h hx hf ih =>
    obtain ⟨uf2, heq, _, _, hb2, _⟩ := encontrar_ok ih hx
    rw [hf] at heq
    cases heq
    exact hb2

/-- The depth-two example state is reachable by three `unir` calls. -/
theorem reachable_ufEjemplo : ReachableUF ufEjemplo := by
  have h0 : ReachableUF (ufInit ["a", "b", "c", "d"]) :=
    ReachableUF.init _ (by decide)
  have h1 : ReachableUF ufPaso1 :=
    ReachableUF.union h0 (by decide) (by decide)
      (show unir (ufInit ["a", "b", "c", "d"]) "a" "b" = some (true, ufPaso1) by decide)
  have h2 : ReachableUF ufPaso2 :=
    ReachableUF.union h1 (by decide) (by decide)
      (show unir ufPaso1 "c" "d" = some (true, ufPaso2) by decide)
  exact ReachableUF.union h2 (by decide) (by decide)
    (show unir ufPaso2 "b" "d" = some (true, ufEjemplo) by decide)

/-! ## Endpoint collection and adjacency keys -/

theorem mem_paso_nodos (acc : List Nodo) (e : Arista) (y : Nodo) :
    y ∈ (let acc1 := if e.1 ∈ acc then acc else acc ++ [e.1]
         if e.2.1 ∈ acc1 then acc1 else acc1 ++ [e.2.1]) ↔
      y ∈ acc ∨ y = e.1 ∨ y = e.2.1 := by
  show y ∈ (if e.2.1 ∈ (if e.1 ∈ acc then acc else acc ++ [e.1])
      then (if e.1 ∈ acc then acc else acc ++ [e.1])
      else (if e.1 ∈ acc then acc else acc ++ [e.1]) ++ [e.2.1]) ↔ _
  split_ifs with h1 h2 h3 <;> aesop

theorem mem_nodosDe_aux (aristas : List Arista) (acc : List Nodo) (x : Nodo) :
    x ∈ aristas.foldl (fun acc e =>
        let acc1 := if e.1 ∈ acc then acc else acc ++ [e.1]
        if e.2.1 ∈ acc1 then acc1 else acc1 ++ [e.2.1]) acc ↔
      x ∈ acc ∨ ∃ e ∈ aristas, x = e.1 ∨ x = e.2.1 := by
  induction aristas generalizing acc with
  | nil => simp
  | cons e resto ih =>
    rw [List.foldl_cons, ih, mem_paso_nodos]
    simp only [List.mem_cons]
    constructor
    · rintro ((h | h | h) | ⟨e2, he2, hx⟩)
      · exact Or.inl h
      · exact Or.inr ⟨e, Or.inl rfl, Or.inl h⟩
      · exact Or.inr ⟨e, Or.inl rfl, Or.inr h⟩
      · exact Or.inr ⟨e2, Or.inr he2, hx⟩
    · rintro (h | ⟨e2, (rfl | he2), hx⟩)
      · exact Or.inl (Or.inl h)
      · exact Or.inl (Or.inr hx)
      · exact Or.inr ⟨e2, he2, hx⟩

theorem mem_nodosDe {aristas : List Arista} {x : Nodo} :
    x ∈ nodosDe aristas ↔ ∃ e ∈ aristas, x = e.1 ∨ x = e.2.1 := by
  rw [nodosDe, mem_nodosDe_aux]
  simp

theorem construirGrafo_keys_aux (aristas : List Arista)
    (g : List (Nodo × List (Nodo × Nat))) :
    (aristas.foldl (fun g e =>
        let g1 := if (dget g e.1).isSome then g else dset g e.1 []
        let g2 := if (dget g1 e.2.1).isSome then g1 else dset g1 e.2.1 []
        let g3 := dset g2 e.1 ((dget g2 e.1).getD [] ++ [(e.2.1, e.2.2)])
        dset g3 e.2.1 ((dget g3 e.2.1).getD [] ++ [(e.1, e.2.2)])) g).map Prod.fst
      = aristas.foldl (fun acc e =>
        let acc1 := if e.1 ∈ acc then acc else acc ++ [e.1]
        if e.2.1 ∈ acc1 then acc1 else acc1 ++ [e.2.1]) (g.map Prod.fst) := by
  induction aristas generalizing g with
  | nil => rfl
  | cons e resto ih =>
    rw [List.foldl_cons, List.foldl_cons, ih]
    congr 1
    set g1 := if (dget g e.1).isSome then g else dset g e.1 [] with hg1
    have hkeys1 : g1.map Prod.fst =
        if e.1 ∈ g.map Prod.fst then g.map Prod.fst else g.map Prod.fst ++ [e.1] := by
      rw [hg1]
      by_cases h : e.1 ∈ g.map Prod.fst
      · rw [if_pos (dget_isSome.mpr h), if_pos h]
      · rw [if_neg (by rw [dget_isSome]; exact h), if_neg h]
        exact dset_map_fst_of_not_mem h
    have hm1 : e.1 ∈ g1.map Prod.fst := by
      rw [hkeys1]
      by_cases h : e.1 ∈ g.map Prod.fst <;> simp [h]
    set g2 := if (dget g1 e.2.1).isSome then g1 else dset g1 e.2.1 [] with hg2
    have hkeys2 : g2.map Prod.fst =
        if e.2.1 ∈ g1.map Prod.fst then g1.map Prod.fst
        else g1.map Prod.fst ++ [e.2.1] := by
      rw [hg2]
      by_cases h : e.2.1 ∈ g1.map Prod.fst
      · rw [if_pos (dget_isSome.mpr h), if_pos h]
      · rw [if_neg (by rw [dget_isSome]; exact h), if_neg h]
        exact dset_map_fst_of_not_mem h
    have hm2a : e.1 ∈ g2.map Prod.fst := by
      rw [hkeys2]
      by_cases h : e.2.1 ∈ g1.map Prod.fst <;> simp [h, hm1]
    have hm2b : e.2.1 ∈ g2.map Prod.fst := by
      rw [hkeys2]
      by_cases h : e.2.1 ∈ g1.map Prod.fst <;> simp [h]
    have hm3a : e.2.1 ∈ (dset g2 e.1 ((dget g2 e.1).getD [] ++ [(e.2.1, e.2.2)])).map
        Prod.fst := by
      rw [dset_map_fst_of_mem hm2a]
      exact hm2b
    rw [dset_map_fst_of_mem hm3a, dset_map_fst_of_mem hm2a, hkeys2, hkeys1]

theorem construirGrafo_keys (aristas : List Arista) :
    (construirGrafo aristas).map Prod.fst = nodosDe aristas := by
  rw [construirGrafo, nodosDe, construirGrafo_keys_aux]
  rfl

/-- On a two-symbol table with equal frequencies the heap keeps the
insertion order (the sort is stable), one merge happens, and the codes are
the single bits `0` and `1`. -/
theorem generar_codigos_dos (a b : Char) (f : Nat) (hne : a ≠ b) :
    generar_codigos (construir_arbol_huffman [(a, f), (b, f)])
      = [(a, ['0']), (b, ['1'])] := by
  have hsorted : ([NodoHuffman.hoja a f, NodoHuffman.hoja b f]).mergeSort
      (fun x y => frecuencia x ≤ frecuencia y)
      = [NodoHuffman.hoja a f, NodoHuffman.hoja b f] :=
    List.mergeSort_of_sorted (by simp [frecuencia])
  have hloop : huffLoop [NodoHuffman.hoja a f, NodoHuffman.hoja b f]
      = [NodoHuffman.interno (f + f) (.hoja a f) (.hoja b f)] := by
    rw [huffLoop]
    simp [hpush, huffLoop, frecuencia]
  rw [construir_arbol_huffman, if_neg (by simp)]
  simp only [List.map_cons, List.map_nil, hsorted, hloop]
  rw [generar_codigos]
  show generarAux (.interno (f + f) (.hoja a f) (.hoja b f)) [] [] = _
  rw [generarAux]
  simp [generarAux, dset, hne]

/-- The compression statistic on two distinct equal-frequency symbols. -/
theorem huffman_tasa_dos (a b : Char) (f : Nat) (hne : a ≠ b) (hf : 0 < f) :
    tasa_compresion [(a, f), (b, f)] = 175 / 2 := by
  unfold tasa_compresion bits_comprimido bits_original
  rw [generar_codigos_dos a b f hne]
  have hga : dget [(a, ['0']), (b, ['1'])] a = some ['0'] := by simp [dget]
  have hgb : dget [(a, ['0']), (b, ['1'])] b = some ['1'] := by simp [dget, hne]
  simp only [List.map_cons, List.map_nil, hga, hgb, Option.getD_some,
    List.length_singleton, List.sum_cons, List.sum_nil]
  have hf0 : ((f : ℚ)) ≠ 0 := by
    exact_mod_cast Nat.pos_iff_ne_zero.mp hf
  push_cast
  field_simp
  ring

/-! ## Reachability: basic laws and the executable closure -/

theorem ady_symm {es : List Arista} : Symmetric (ady es) := by
  rintro a b ⟨w, h | h⟩
  · exact ⟨w, Or.inr h⟩
  · exact ⟨w, Or.inl h⟩

theorem alcanza_refl {es : List Arista} (x : Nodo) : Alcanza es x x :=
  Relation.ReflTransGen.refl

theorem alcanza_symm {es : List Arista} : Symmetric (Alcanza es) :=
  Relation.ReflTransGen.symmetric ady_symm

theorem alcanza_trans {es : List Arista} {x y z : Nodo}
    (h1 : Alcanza es x y) (h2 : Alcanza es y z) : Alcanza es x z :=
  Relation.ReflTransGen.trans h1 h2

theorem ady_mono {es es2 : List Arista} (h : ∀ e ∈ es, e ∈ es2) {a b : Nodo}
    (ha : ady es a b) : ady es2 a b := by
  obtain ⟨w, hw | hw⟩ := ha
  · exact ⟨w, Or.inl (h _ hw)⟩
  · exact ⟨w, Or.inr (h _ hw)⟩

theorem alcanza_mono {es es2 : List Arista} (h : ∀ e ∈ es, e ∈ es2) {a b : Nodo}
    (hab : Alcanza es a b) : Alcanza es2 a b := by
  induction hab with
  | refl => exact alcanza_refl _
  | tail _ hstep ih => exact ih.tail (ady_mono h hstep)

theorem ady_de_arista {es : List Arista} {e : Arista} (he : e ∈ es) :
    ady es e.1 e.2.1 := ⟨e.2.2, Or.inl he⟩

theorem alcanza_de_arista {es : List Arista} {e : Arista} (he : e ∈ es) :
    Alcanza es e.1 e.2.1 :=
  Relation.ReflTransGen.single (ady_de_arista he)

theorem ady_mem_nodos {es : List Arista} {a b : Nodo} (h : ady es a b) :
    a ∈ nodosDe es ∧ b ∈ nodosDe es := by
  obtain ⟨w, hw | hw⟩ := h
  · exact ⟨mem_nodosDe.mpr ⟨(a, b, w), hw, Or.inl rfl⟩,
      mem_nodosDe.mpr ⟨(a, b, w), hw, Or.inr rfl⟩⟩
  · exact ⟨mem_nodosDe.mpr ⟨(b, a, w), hw, Or.inr rfl⟩,
      mem_nodosDe.mpr ⟨(b, a, w), hw, Or.inl rfl⟩⟩

theorem alcanza_mem_nodos {es : List Arista} {a b : Nodo} (h : Alcanza es a b) :
    a = b ∨ (a ∈ nodosDe es ∧ b ∈ nodosDe es) := by
  induction h with
  | refl => exact Or.inl rfl
  | tail hsteps hstep ih =>
    right
    rcases ih with rfl | ⟨ha, _⟩
    · exact ady_mem_nodos hstep
    · exact ⟨ha, (ady_mem_nodos hstep).2⟩

/-- The per-edge closure step only appends. -/
theorem pasoPaso_shape (acc : List Nodo) (e : Arista) :
    ∃ t, pasoPaso acc e = acc ++ t := by
  rw [pasoPaso]
  show (∃ t, (if e.2.1 ∈ (if e.1 ∈ acc ∧ ¬ e.2.1 ∈ acc then acc ++ [e.2.1] else acc)
      ∧ ¬ e.1 ∈ (if e.1 ∈ acc ∧ ¬ e.2.1 ∈ acc then acc ++ [e.2.1] else acc)
    then (if e.1 ∈ acc ∧ ¬ e.2.1 ∈ acc then acc ++ [e.2.1] else acc) ++ [e.1]
    else (if e.1 ∈ acc ∧ ¬ e.2.1 ∈ acc then acc ++ [e.2.1] else acc)) = acc ++ t)
  split_ifs with h1 h2 h3
  · exact ⟨[e.2.1] ++ [e.1], by simp⟩
  · exact ⟨[e.2.1], rfl⟩
  · exact ⟨[e.1], rfl⟩
  · exact ⟨[], by simp⟩

/-- Members after the per-edge closure step. -/
theorem mem_pasoPaso {acc : List Nodo} {e : Arista} {y : Nodo}
    (h : y ∈ pasoPaso acc e) :
    y ∈ acc ∨ (y = e.2.1 ∧ e.1 ∈ acc) ∨ (y = e.1 ∧ e.2.1 ∈ acc) := by
  rw [pasoPaso] at h
  revert h
  show y ∈ (if e.2.1 ∈ (if e.1 ∈ acc ∧ ¬ e.2.1 ∈ acc then acc ++ [e.2.1] else acc)
      ∧ ¬ e.1 ∈ (if e.1 ∈ acc ∧ ¬ e.2.1 ∈ acc then acc ++ [e.2.1] else acc)
    then (if e.1 ∈ acc ∧ ¬ e.2.1 ∈ acc then acc ++ [e.2.1] else acc) ++ [e.1]
    else (if e.1 ∈ acc ∧ ¬ e.2.1 ∈ acc then acc ++ [e.2.1] else acc)) → _
  split_ifs with h1 h2 h3 <;> intro h <;> aesop

/-- A step that adds nothing certifies that the edge cannot extend the
collection. -/
theorem pasoPaso_fix {acc : List Nodo} {e : Arista} (h : pasoPaso acc e = acc) :
    (e.1 ∈ acc → e.2.1 ∈ acc) ∧ (e.2.1 ∈ acc → e.1 ∈ acc) := by
  rw [pasoPaso] at h
  revert h
  show (if e.2.1 ∈ (if e.1 ∈ acc ∧ ¬ e.2.1 ∈ acc then acc ++ [e.2.1] else acc)
      ∧ ¬ e.1 ∈ (if e.1 ∈ acc ∧ ¬ e.2.1 ∈ acc then acc ++ [e.2.1] else acc)
    then (if e.1 ∈ acc ∧ ¬ e.2.1 ∈ acc then acc ++ [e.2.1] else acc) ++ [e.1]
    else (if e.1 ∈ acc ∧ ¬ e.2.1 ∈ acc then acc ++ [e.2.1] else acc)) = acc → _
  split_ifs with h1 h2 h3 <;> intro h
  · have := congrArg List.length h
    simp at this
  · have := congrArg List.length h
    simp at this
  · have := congrArg List.length h
    simp at this
  · push_neg at h1 h3
    constructor
    · intro hmem
      by_contra hne
      exact hne (h1 hmem)
    · intro hmem
      exact h3 hmem

/-- The closure step only appends. -/
theorem paso_fold_shape (l : List Arista) (s : List Nodo) :
    ∃ t, l.foldl pasoPaso s = s ++ t := by
  induction l generalizing s with
  | nil => exact ⟨[], by simp⟩
  | cons e resto ih =>
    rw [List.foldl_cons]
    obtain ⟨u, hu⟩ := pasoPaso_shape s e
    obtain ⟨t, ht⟩ := ih (pasoPaso s e)
    exact ⟨u ++ t, by rw [ht, hu, List.append_assoc]⟩

theorem paso_shape (es : List Arista) (s : List Nodo) :
    ∃ t, paso es s = s ++ t := paso_fold_shape es s

/-- Soundness of the closure step: every collected node is reachable from a
previously collected one. -/
theorem paso_fold_sound {es : List Arista} {a : Nodo} :
    ∀ (l : List Arista) (s : List Nodo), (∀ e ∈ l, e ∈ es) →
      (∀ y ∈ s, Alcanza es a y) → ∀ y ∈ l.foldl pasoPaso s, Alcanza es a y := by
  intro l
  induction l with
  | nil => exact fun s _ hs => hs
  | cons e resto ih =>
    intro s hl hs y hy
    rw [List.foldl_cons] at hy
    refine ih (pasoPaso s e) (fun e2 he2 => hl e2 (List.mem_cons_of_mem _ he2)) ?_ y hy
    intro z hz
    rcases mem_pasoPaso hz with h | ⟨rfl, hmem⟩ | ⟨rfl, hmem⟩
    · exact hs z h
    · exact (hs _ hmem).tail (ady_de_arista (hl e (List.mem_cons_self _ _)))
    · exact (hs _ hmem).tail (ady_symm (ady_de_arista (hl e (List.mem_cons_self _ _))))

/-- A fixpoint of the closure step is closed under adjacency. -/
theorem paso_fix_closed :
    ∀ (l : List Arista) (s : List Nodo), l.foldl pasoPaso s = s →
      ∀ e ∈ l, (e.1 ∈ s → e.2.1 ∈ s) ∧ (e.2.1 ∈ s → e.1 ∈ s) := by
  intro l
  induction l with
  | nil => intro s _ e he; cases he
  | cons e resto ih =>
    intro s hfix e2 he2
    rw [List.foldl_cons] at hfix
    obtain ⟨u, hu⟩ := pasoPaso_shape s e
    obtain ⟨t, ht⟩ := paso_fold_shape resto (pasoPaso s e)
    rw [hu] at ht
    rw [hu, ht] at hfix
    have hnil : u ++ t = [] := by
      have := congrArg List.length hfix
      rw [List.append_assoc] at this
      simp only [List.length_append] at this
      have h0 : (u ++ t).length = 0 := by
        simp only [List.length_append]
        omega
      exact List.length_eq_zero.mp h0
    have hu0 : u = [] := by
      rcases List.append_eq_nil.mp hnil with ⟨h1, _⟩
      exact h1
    have ht0 : t = [] := by
      rcases List.append_eq_nil.mp hnil with ⟨_, h2⟩
      exact h2
    have hstep : pasoPaso s e = s := by rw [hu, hu0, List.append_nil]
    rcases List.mem_cons.mp he2 with rfl | hmem
    · exact pasoPaso_fix hstep
    · have h2 : List.foldl pasoPaso (s ++ u) resto = s := by
        rw [ht, hu0, ht0]
        simp
      rw [hu0, List.append_nil] at h2
      exact ih s h2 e2 hmem

theorem clausura_out (es : List Arista) (n : Nat) (s : List Nodo) :
    clausura es (n + 1) s = paso es (clausura es n s) := by
  induction n generalizing s with
  | zero => rfl
  | succ n ih =>
    show clausura es (n + 1) (paso es s) = _
    rw [ih (paso es s)]
    rfl

theorem clausura_shape (es : List Arista) (n : Nat) (s : List Nodo) :
    ∃ t, clausura es n s = s ++ t := by
  induction n with
  | zero => exact ⟨[], by simp [clausura]⟩
  | succ n ih =>
    obtain ⟨t, ht⟩ := ih
    obtain ⟨u, hu⟩ := paso_shape es (clausura es n s)
    rw [clausura_out, hu, ht]
    exact ⟨t ++ u, by simp⟩

theorem clausura_sound {es : List Arista} {a : Nodo} (n : Nat) (s : List Nodo)
    (hs : ∀ y ∈ s, Alcanza es a y) : ∀ y ∈ clausura es n s, Alcanza es a y := by
  induction n generalizing s with
  | zero => exact hs
  | succ n ih =>
    show ∀ y ∈ clausura es n (paso es s), Alcanza es a y
    exact ih (paso es s) (paso_fold_sound es s (fun _ h => h) hs)

theorem pasoPaso_nodup {acc : List Nodo} {e : Arista} (h : acc.Nodup) :
    (pasoPaso acc e).Nodup := by
  rw [pasoPaso]
  show (if e.2.1 ∈ (if e.1 ∈ acc ∧ ¬ e.2.1 ∈ acc then acc ++ [e.2.1] else acc)
      ∧ ¬ e.1 ∈ (if e.1 ∈ acc ∧ ¬ e.2.1 ∈ acc then acc ++ [e.2.1] else acc)
    then (if e.1 ∈ acc ∧ ¬ e.2.1 ∈ acc then acc ++ [e.2.1] else acc) ++ [e.1]
    else (if e.1 ∈ acc ∧ ¬ e.2.1 ∈ acc then acc ++ [e.2.1] else acc)).Nodup
  split_ifs with h1 h2 h3 <;>
    simp_all [List.nodup_append, List.mem_append]

theorem paso_nodup {es : List Arista} {s : List Nodo} (hs : s.Nodup) :
    (paso es s).Nodup := by
  have haux : ∀ (l : List Arista) (s2 : List Nodo), s2.Nodup →
      (l.foldl pasoPaso s2).Nodup := by
    intro l
    induction l with
    | nil => exact fun s2 h => h
    | cons e resto ih =>
      intro s2 hs2
      rw [List.foldl_cons]
      exact ih _ (pasoPaso_nodup hs2)
  exact haux es s hs

theorem clausura_nodup {es : List Arista} (n : Nat) {s : List Nodo}
    (hs : s.Nodup) : (clausura es n s).Nodup := by
  induction n generalizing s with
  | zero => exact hs
  | succ n ih => exact ih (paso_nodup hs)

theorem paso_dom {es : List Arista} {a : Nodo} :
    ∀ (l : List Arista) (s : List Nodo), (∀ e ∈ l, e ∈ es) →
      (∀ y ∈ s, y = a ∨ y ∈ nodosDe es) →
      ∀ y ∈ l.foldl pasoPaso s, y = a ∨ y ∈ nodosDe es := by
  intro l
  induction l with
  | nil => exact fun s _ hs => hs
  | cons e resto ih =>
    intro s hl hs y hy
    rw [List.foldl_cons] at hy
    refine ih (pasoPaso s e) (fun e2 he2 => hl e2 (List.mem_cons_of_mem _ he2)) ?_ y hy
    intro z hz
    rcases mem_pasoPaso hz with h | ⟨rfl, _⟩ | ⟨rfl, _⟩
    · exact hs z h
    · exact Or.inr (mem_nodosDe.mpr ⟨e, hl e (List.mem_cons_self _ _), Or.inr rfl⟩)
    · exact Or.inr (mem_nodosDe.mpr ⟨e, hl e (List.mem_cons_self _ _), Or.inl rfl⟩)

theorem clausura_dom {es : List Arista} {a : Nodo} (n : Nat) :
    ∀ y ∈ clausura es n [a], y = a ∨ y ∈ nodosDe es := by
  have haux : ∀ (k : Nat) (s : List Nodo), (∀ y ∈ s, y = a ∨ y ∈ nodosDe es) →
      ∀ y ∈ clausura es k s, y = a ∨ y ∈ nodosDe es := by
    intro k
    induction k with
    | zero => exact fun s hs => hs
    | succ k ih =>
      intro s hs
      exact ih (paso es s) (paso_dom es s (fun _ h => h) hs)
  refine haux n [a] ?_
  intro y hy
  rcases List.mem_singleton.mp hy with rfl
  exact Or.inl rfl

theorem clausura_length_le {es : List Arista} {a : Nodo} (n : Nat) :
    (clausura es n [a]).length ≤ 1 + (nodosDe es).length := by
  have hnd : (clausura es n [a]).Nodup := clausura_nodup n (by simp)
  have hdom : ∀ y ∈ clausura es n [a], y ∈ a :: nodosDe es := by
    intro y hy
    rcases clausura_dom n y hy with rfl | h
    · exact List.mem_cons_self _ _
    · exact List.mem_cons_of_mem _ h
  have hsub : (clausura es n [a]).toFinset ⊆ (a :: nodosDe es).toFinset := by
    intro z hz
    rw [List.mem_toFinset]
    exact hdom z (List.mem_toFinset.mp hz)
  have h1 : (clausura es n [a]).toFinset.card = (clausura es n [a]).length :=
    List.toFinset_card_of_nodup hnd
  have h2 := Finset.card_le_card hsub
  have h3 : (a :: nodosDe es).toFinset.card ≤ (a :: nodosDe es).length :=
    List.toFinset_card_le _
  simp only [List.length_cons] at h3
  omega

/-- Either the closure is already a fixpoint at step `k`, or it has grown by
at least one node per step. -/
theorem clausura_fix_o_crece (es : List Arista) (a : Nodo) :
    ∀ k, paso es (clausura es k [a]) = clausura es k [a] ∨
      1 + k ≤ (clausura es k [a]).length := by
  intro k
  induction k with
  | zero =>
    right
    simp [clausura]
  | succ k ih =>
    rcases ih with hfix | hlen
    · left
      rw [clausura_out, hfix, hfix]
    · obtain ⟨t, ht⟩ := paso_shape es (clausura es k [a])
      rcases t with _ | ⟨z, t⟩
      · left
        rw [List.append_nil] at ht
        rw [clausura_out, ht, ht]
      · right
        rw [clausura_out, ht]
        simp only [List.length_append, List.length_cons]
        omega

/-- At `|nodosDe| + 1` steps the closure is a fixpoint. -/
theorem clausura_fixpoint (es : List Arista) (a : Nodo) :
    paso es (clausura es ((nodosDe es).length + 1) [a])
      = clausura es ((nodosDe es).length + 1) [a] := by
  rcases clausura_fix_o_crece es a ((nodosDe es).length + 1) with h | h
  · exact h
  · have := @clausura_length_le es a ((nodosDe es).length + 1)
    omega

/-- A set closed under adjacency absorbs everything reachable from a
member. -/
theorem cerrado_absorbe {es : List Arista} {S : List Nodo}
    (hS : ∀ e ∈ es, (e.1 ∈ S → e.2.1 ∈ S) ∧ (e.2.1 ∈ S → e.1 ∈ S))
    {x y : Nodo} (hx : x ∈ S) (hxy : Alcanza es x y) : y ∈ S := by
  induction hxy with
  | refl => exact hx
  | tail hsteps hstep ih =>
    obtain ⟨w, hw | hw⟩ := hstep
    · exact (hS _ hw).1 ih
    · exact (hS _ hw).2 ih

/-- Correctness of the executable reachability test. -/
theorem alcanzaB_iff {es : List Arista} {a b : Nodo} :
    alcanzaB es a b = true ↔ Alcanza es a b := by
  rw [alcanzaB]
  rw [decide_eq_true_eq]
  constructor
  · intro h
    refine clausura_sound _ [a] ?_ b h
    intro y hy
    rcases List.mem_singleton.mp hy with rfl
    exact alcanza_refl _
  · intro h
    have hfix := clausura_fixpoint es a
    have hclosed := paso_fix_closed es
      (clausura es ((nodosDe es).length + 1) [a]) hfix
    have ha : a ∈ clausura es ((nodosDe es).length + 1) [a] := by
      obtain ⟨t, ht⟩ := clausura_shape es ((nodosDe es).length + 1) [a]
      rw [ht]
      simp
    exact cerrado_absorbe hclosed ha h

instance decAlcanza (es : List Arista) (a b : Nodo) : Decidable (Alcanza es a b) :=
  decidable_of_iff _ alcanzaB_iff

instance decConectado (aristas : List Arista) : Decidable (Conectado aristas) :=
  decidable_of_iff
    (∀ x ∈ nodosDe aristas, ∀ y ∈ nodosDe aristas, Alcanza aristas x y) Iff.rfl

instance decGenera (es aristas : List Arista) : Decidable (Genera es aristas) :=
  decidable_of_iff
    (∀ x ∈ nodosDe aristas, ∀ y ∈ nodosDe aristas, Alcanza es x y) Iff.rfl

instance decBosque (es : List Arista) : Decidable (Bosque es) :=
  decidable_of_iff
    (∀ i (h : i < es.length),
      ¬ Alcanza (es.take i) (es.get ⟨i, h⟩).1 (es.get ⟨i, h⟩).2.1) Iff.rfl

instance decArbolGenerador (t aristas : List Arista) :
    Decidable (ArbolGenerador t aristas) :=
  decidable_of_iff ((∀ e ∈ t, e ∈ aristas) ∧ Bosque t ∧ Genera t aristas) Iff.rfl

/-! ## Class counting -/

theorem repPaso_shape (es : List Arista) (acc : List Nodo) (x : Nodo) :
    repPaso es acc x = acc ∨ repPaso es acc x = acc ++ [x] := by
  rw [repPaso]
  split_ifs with h
  · exact Or.inl rfl
  · exact Or.inr rfl

theorem reps_fold_shape (es : List Arista) (l : List Nodo) (acc : List Nodo) :
    ∃ t, l.foldl (repPaso es) acc = acc ++ t := by
  induction l generalizing acc with
  | nil => exact ⟨[], by simp⟩
  | cons n resto ih =>
    rw [List.foldl_cons]
    obtain ⟨t, ht⟩ := ih (repPaso es acc n)
    rcases repPaso_shape es acc n with h | h
    · exact ⟨t, by rw [ht, h]⟩
    · exact ⟨[n] ++ t, by rw [ht, h]; simp⟩

/-- Every collected node is covered by some representative. -/
theorem reps_fold_cubre (es : List Arista) (l : List Nodo) :
    ∀ (acc : List Nodo) (x : Nodo), x ∈ l →
      ∃ r ∈ l.foldl (repPaso es) acc, Alcanza es r x := by
  induction l with
  | nil => intro acc x hx; cases hx
  | cons n resto ih =>
    intro acc x hx
    rw [List.foldl_cons]
    rcases List.mem_cons.mp hx with rfl | hmem
    · rw [repPaso]
      by_cases hc : acc.any (fun y => alcanzaB es y x)
      · rw [if_pos hc]
        obtain ⟨y, hy, hyx⟩ := List.any_eq_true.mp hc
        obtain ⟨t, ht⟩ := reps_fold_shape es resto acc
        refine ⟨y, ?_, alcanzaB_iff.mp hyx⟩
        rw [ht]
        exact List.mem_append.mpr (Or.inl hy)
      · rw [if_neg hc]
        obtain ⟨t, ht⟩ := reps_fold_shape es resto (acc ++ [x])
        refine ⟨x, ?_, alcanza_refl _⟩
        rw [ht]
        simp
    · exact ih (repPaso es acc n) x hmem

/-- Representatives are pairwise unreachable from one another. -/
theorem reps_fold_pairwise (es : List Arista) (l : List Nodo) :
    ∀ (acc : List Nodo), acc.Pairwise (fun r1 r2 => ¬ Alcanza es r1 r2) →
      (l.foldl (repPaso es) acc).Pairwise (fun r1 r2 => ¬ Alcanza es r1 r2) := by
  induction l with
  | nil => exact fun acc h => h
  | cons n resto ih =>
    intro acc hacc
    rw [List.foldl_cons]
    refine ih (repPaso es acc n) ?_
    rw [repPaso]
    split_ifs with hc
    · exact hacc
    · rw [List.pairwise_append]
      refine ⟨hacc, List.pairwise_singleton _ _, ?_⟩
      intro y hy z hz
      rcases List.mem_singleton.mp hz with rfl
      intro hreach
      have : acc.any (fun r => alcanzaB es r z) = true :=
        List.any_eq_true.mpr ⟨y, hy, alcanzaB_iff.mpr hreach⟩
      rw [this] at hc
      exact hc rfl

theorem reps_cubre (es : List Arista) {ns : List Nodo} {x : Nodo} (hx : x ∈ ns) :
    ∃ r ∈ reps es ns, Alcanza es r x :=
  reps_fold_cubre es ns [] x hx

theorem reps_pairwise (es : List Arista) (ns : List Nodo) :
    (reps es ns).Pairwise (fun r1 r2 => ¬ Alcanza es r1 r2) :=
  reps_fold_pairwise es ns [] (List.Pairwise.nil)

theorem reps_nodup (es : List Arista) (ns : List Nodo) : (reps es ns).Nodup := by
  have hp := reps_pairwise es ns
  refine List.Pairwise.imp ?_ hp
  intro a b hab
  intro heq
  subst heq
  exact hab (alcanza_refl _)

/-- Congruence: the representatives depend only on the reachability
relation. -/
theorem reps_congr {es1 es2 : List Arista}
    (h : ∀ x y, Alcanza es1 x y ↔ Alcanza es2 x y) (ns : List Nodo) :
    reps es1 ns = reps es2 ns := by
  have hstep : ∀ acc x, repPaso es1 acc x = repPaso es2 acc x := by
    intro acc x
    rw [repPaso, repPaso]
    have hfun : (fun y => alcanzaB es1 y x) = (fun y => alcanzaB es2 y x) := by
      funext y
      rw [Bool.eq_iff_iff, alcanzaB_iff, alcanzaB_iff]
      exact h y x
    rw [hfun]
  have haux : ∀ (l : List Nodo) (acc : List Nodo),
      l.foldl (repPaso es1) acc = l.foldl (repPaso es2) acc := by
    intro l
    induction l with
    | nil => exact fun acc => rfl
    | cons n resto ih =>
      intro acc
      rw [List.foldl_cons, List.foldl_cons, hstep, ih]
  exact haux ns []

theorem numClases_congr {es1 es2 : List Arista}
    (h : ∀ x y, Alcanza es1 x y ↔ Alcanza es2 x y) (ns : List Nodo) :
    numClases es1 ns = numClases es2 ns := by
  rw [numClases, numClases, reps_congr h]

theorem ady_append {es : List Arista} {e : Arista} {x y : Nodo} :
    ady (es ++ [e]) x y ↔
      ady es x y ∨ (x = e.1 ∧ y = e.2.1) ∨ (x = e.2.1 ∧ y = e.1) := by
  obtain ⟨a, b, w⟩ := e
  constructor
  · rintro ⟨v, hv | hv⟩ <;> rcases List.mem_append.mp hv with h | h
    · exact Or.inl ⟨v, Or.inl h⟩
    · rcases List.mem_singleton.mp h with h2
      cases h2
      exact Or.inr (Or.inl ⟨rfl, rfl⟩)
    · exact Or.inl ⟨v, Or.inr h⟩
    · rcases List.mem_singleton.mp h with h2
      cases h2
      exact Or.inr (Or.inr ⟨rfl, rfl⟩)
  · rintro (⟨v, hv | hv⟩ | ⟨rfl, rfl⟩ | ⟨rfl, rfl⟩)
    · exact ⟨v, Or.inl (List.mem_append.mpr (Or.inl hv))⟩
    · exact ⟨v, Or.inr (List.mem_append.mpr (Or.inl hv))⟩
    · exact ⟨w, Or.inl (List.mem_append.mpr (Or.inr (List.mem_singleton.mpr rfl)))⟩
    · exact ⟨w, Or.inr (List.mem_append.mpr (Or.inr (List.mem_singleton.mpr rfl)))⟩

/-- Reachability after appending one edge decomposes into reachability that
avoids it and reachability that crosses it once. -/
theorem alcanza_append {es : List Arista} {e : Arista} {x y : Nodo} :
    Alcanza (es ++ [e]) x y ↔
      Alcanza es x y ∨ (Alcanza es x e.1 ∧ Alcanza es e.2.1 y) ∨
        (Alcanza es x e.2.1 ∧ Alcanza es e.1 y) := by
  constructor
  · intro h
    induction h with
    | refl => exact Or.inl (alcanza_refl _)
    | tail hsteps hstep ih =>
      rcases ady_append.mp hstep with hs | ⟨rfl, rfl⟩ | ⟨rfl, rfl⟩
      · rcases ih with h1 | ⟨h1, h2⟩ | ⟨h1, h2⟩
        · exact Or.inl (h1.tail hs)
        · exact Or.inr (Or.inl ⟨h1, h2.tail hs⟩)
        · exact Or.inr (Or.inr ⟨h1, h2.tail hs⟩)
      · rcases ih with h1 | ⟨h1, h2⟩ | ⟨h1, h2⟩
        · exact Or.inr (Or.inl ⟨h1, alcanza_refl _⟩)
        · exact Or.inr (Or.inl ⟨h1, alcanza_refl _⟩)
        · exact Or.inl h1
      · rcases ih with h1 | ⟨h1, h2⟩ | ⟨h1, h2⟩
        · exact Or.inr (Or.inr ⟨h1, alcanza_refl _⟩)
        · exact Or.inl h1
        · exact Or.inr (Or.inr ⟨h1, alcanza_refl _⟩)
  · have hmono : ∀ u v, Alcanza es u v → Alcanza (es ++ [e]) u v :=
      fun u v h => alcanza_mono (fun e2 he2 => List.mem_append.mpr (Or.inl he2)) h
    have hedge : Alcanza (es ++ [e]) e.1 e.2.1 :=
      alcanza_de_arista (List.mem_append.mpr (Or.inr (List.mem_singleton.mpr rfl)))
    rintro (h1 | ⟨h1, h2⟩ | ⟨h1, h2⟩)
    · exact hmono _ _ h1
    · exact ((hmono _ _ h1).trans hedge).trans (hmono _ _ h2)
    · exact ((hmono _ _ h1).trans (alcanza_symm hedge)).trans (hmono _ _ h2)

theorem alcanza_append_redundante {es : List Arista} {e : Arista}
    (h : Alcanza es e.1 e.2.1) (x y : Nodo) :
    Alcanza (es ++ [e]) x y ↔ Alcanza es x y := by
  rw [alcanza_append]
  constructor
  · rintro (h1 | ⟨h1, h2⟩ | ⟨h1, h2⟩)
    · exact h1
    · exact (h1.trans h).trans h2
    · exact (h1.trans (alcanza_symm h)).trans h2
  · exact Or.inl

theorem numClases_redundante {es : List Arista} {e : Arista}
    (h : Alcanza es e.1 e.2.1) (ns : List Nodo) :
    numClases (es ++ [e]) ns = numClases es ns :=
  (numClases_congr (fun x y => alcanza_append_redundante h x y) ns)

theorem reps_fold_subset (es : List Arista) (l : List Nodo) :
    ∀ (acc : List Nodo) (y : Nodo), y ∈ l.foldl (repPaso es) acc →
      y ∈ acc ∨ y ∈ l := by
  induction l with
  | nil => exact fun acc y h => Or.inl h
  | cons n resto ih =>
    intro acc y hy
    rw [List.foldl_cons] at hy
    rcases ih (repPaso es acc n) y hy with h | h
    · rcases repPaso_shape es acc n with hs | hs
      · rw [hs] at h
        exact Or.inl h
      · rw [hs] at h
        rcases List.mem_append.mp h with h2 | h2
        · exact Or.inl h2
        · exact Or.inr (List.mem_cons.mpr (Or.inl (List.mem_singleton.mp h2)))
    · exact Or.inr (List.mem_cons_of_mem _ h)

theorem reps_subset {es : List Arista} {ns : List Nodo} {y : Nodo}
    (h : y ∈ reps es ns) : y ∈ ns := by
  rcases reps_fold_subset es ns [] y h with h2 | h2
  · cases h2
  · exact h2

/-- Two distinct representatives are never connected. -/
theorem reps_ne_no_alcanza {es : List Arista} {ns : List Nodo} {r1 r2 : Nodo}
    (h1 : r1 ∈ reps es ns) (h2 : r2 ∈ reps es ns) (hne : r1 ≠ r2) :
    ¬ Alcanza es r1 r2 := by
  have hsymm : Symmetric (fun a b : Nodo => ¬ Alcanza es a b) := by
    intro a b hab hba
    exact hab (alcanza_symm hba)
  exact (reps_pairwise es ns).forall hsymm h1 h2 hne

theorem numClases_len (es : List Arista) (ns : List Nodo) :
    numClases es ns = (reps es ns).toFinset.card := by
  rw [numClases, List.toFinset_card_of_nodup (reps_nodup es ns)]

/-- Joining classes only: a finer relation has at least as many classes. -/
theorem numClases_mono {E1 E2 : List Arista} {ns : List Nodo}
    (h : ∀ x y, Alcanza E1 x y → Alcanza E2 x y) :
    numClases E2 ns ≤ numClases E1 ns := by
  classical
  have hcov : ∀ r ∈ reps E2 ns, ∃ r2, r2 ∈ reps E1 ns ∧ Alcanza E1 r2 r := by
    intro r hr
    obtain ⟨r2, hr2, hr2r⟩ := reps_cubre E1 (reps_subset hr)
    exact ⟨r2, hr2, hr2r⟩
  set φ : Nodo → Nodo := fun r =>
    if hr : ∃ r2, r2 ∈ reps E1 ns ∧ Alcanza E1 r2 r then hr.choose else r with hφ
  have hφ_mem : ∀ r ∈ reps E2 ns, φ r ∈ reps E1 ns ∧ Alcanza E1 (φ r) r := by
    intro r hr
    have hex := hcov r hr
    rw [hφ]
    simp only [dif_pos hex]
    exact hex.choose_spec
  have hinj : Set.InjOn φ ((reps E2 ns).toFinset : Set Nodo) := by
    intro r1 hr1 r2 hr2 heq
    rw [Finset.mem_coe, List.mem_toFinset] at hr1 hr2
    by_contra hne
    have h1 := hφ_mem r1 hr1
    have h2 := hφ_mem r2 hr2
    have hE1 : Alcanza E1 r1 r2 := by
      have ha := alcanza_symm h1.2
      rw [heq] at ha
      exact ha.trans h2.2
    exact reps_ne_no_alcanza hr1 hr2 hne (h _ _ hE1)
  rw [numClases_len, numClases_len]
  refine Finset.card_le_card_of_injOn φ ?_ hinj
  intro a ha
  rw [List.mem_toFinset] at ha ⊢
  exact (hφ_mem a ha).1

/-- Appending an edge between two previously disconnected collected nodes
strictly decreases the class count. -/
theorem numClases_merge {es : List Arista} {e : Arista} {ns : List Nodo}
    (hna : ¬ Alcanza es e.1 e.2.1) (ha : e.1 ∈ ns) (hb : e.2.1 ∈ ns) :
    numClases (es ++ [e]) ns + 1 ≤ numClases es ns := by
  classical
  have hmono : ∀ x y, Alcanza es x y → Alcanza (es ++ [e]) x y :=
    fun x y h => alcanza_mono (fun e2 he2 => List.mem_append.mpr (Or.inl he2)) h
  have hedge : Alcanza (es ++ [e]) e.1 e.2.1 :=
    alcanza_de_arista (List.mem_append.mpr (Or.inr (List.mem_singleton.mpr rfl)))
  have hcov : ∀ r ∈ reps (es ++ [e]) ns, ∃ r2, r2 ∈ reps es ns ∧ Alcanza es r2 r := by
    intro r hr
    obtain ⟨r2, hr2, hr2r⟩ := reps_cubre es (reps_subset hr)
    exact ⟨r2, hr2, hr2r⟩
  set φ : Nodo → Nodo := fun r =>
    if hr : ∃ r2, r2 ∈ reps es ns ∧ Alcanza es r2 r then hr.choose else r with hφ
  have hφ_mem : ∀ r ∈ reps (es ++ [e]) ns, φ r ∈ reps es ns ∧ Alcanza es (φ r) r := by
    intro r hr
    have hex := hcov r hr
    rw [hφ]
    simp only [dif_pos hex]
    exact hex.choose_spec
  have hinj : Set.InjOn φ ((reps (es ++ [e]) ns).toFinset : Set Nodo) := by
    intro r1 hr1 r2 hr2 heq
    rw [Finset.mem_coe, List.mem_toFinset] at hr1 hr2
    by_contra hne
    have h1 := hφ_mem r1 hr1
    have h2 := hφ_mem r2 hr2
    have hE : Alcanza (es ++ [e]) r1 r2 := by
      have hx := alcanza_symm h1.2
      rw [heq] at hx
      exact hmono _ _ (hx.trans h2.2)
    exact reps_ne_no_alcanza hr1 hr2 hne hE
  obtain ⟨ra, hra, hraa⟩ := reps_cubre es ha
  obtain ⟨rb, hrb, hrbb⟩ := reps_cubre es hb
  have hrarb : ra ≠ rb := by
    rintro rfl
    exact hna ((alcanza_symm hraa).trans hrbb)
  -- the image misses `ra` or `rb`
  have hmiss : ¬ (ra ∈ (reps (es ++ [e]) ns).toFinset.image φ ∧
      rb ∈ (reps (es ++ [e]) ns).toFinset.image φ) := by
    rintro ⟨hma, hmb⟩
    obtain ⟨r1, hr1, hr1a⟩ := Finset.mem_image.mp hma
    obtain ⟨r2, hr2, hr2b⟩ := Finset.mem_image.mp hmb
    rw [List.mem_toFinset] at hr1 hr2
    have h1 := hφ_mem r1 hr1
    have h2 := hφ_mem r2 hr2
    rw [hr1a] at h1
    rw [hr2b] at h2
    -- r1 ~E' ra ~ e1 ~ e2 ~ rb ~E' r2, so r1 and r2 coincide
    have hE : Alcanza (es ++ [e]) r1 r2 :=
      ((((alcanza_symm (hmono _ _ h1.2)).trans (hmono _ _ hraa)).trans hedge).trans
        (alcanza_symm (hmono _ _ hrbb))).trans (hmono _ _ h2.2)
    have hr12 : r1 = r2 := by
      by_contra hne
      exact reps_ne_no_alcanza hr1 hr2 hne hE
    subst hr12
    -- then ra ~es r1 and rb ~es r1, connecting ra to rb in es
    have hab : Alcanza es ra rb := h1.2.trans (alcanza_symm h2.2)
    exact reps_ne_no_alcanza hra hrb hrarb hab
  have hsubim : ∀ a ∈ (reps (es ++ [e]) ns).toFinset, φ a ∈ (reps es ns).toFinset := by
    intro a hha
    rw [List.mem_toFinset] at hha ⊢
    exact (hφ_mem a hha).1
  have hcard1 : (reps (es ++ [e]) ns).toFinset.card
      = ((reps (es ++ [e]) ns).toFinset.image φ).card :=
    (Finset.card_image_of_injOn hinj).symm
  have hcard2 : ((reps (es ++ [e]) ns).toFinset.image φ).card + 1
      ≤ (reps es ns).toFinset.card := by
    by_cases hcase : ra ∈ (reps (es ++ [e]) ns).toFinset.image φ
    · have hno : rb ∉ (reps (es ++ [e]) ns).toFinset.image φ :=
        fun hyes => hmiss ⟨hcase, hyes⟩
      have hsub2 : (reps (es ++ [e]) ns).toFinset.image φ
          ⊆ (reps es ns).toFinset.erase rb := by
        intro z hz
        obtain ⟨r0, hr0, hz0⟩ := Finset.mem_image.mp hz
        refine Finset.mem_erase.mpr ⟨?_, by rw [← hz0]; exact hsubim r0 hr0⟩
        rintro rfl
        exact hno hz
      calc ((reps (es ++ [e]) ns).toFinset.image φ).card + 1
          ≤ ((reps es ns).toFinset.erase rb).card + 1 :=
            Nat.add_le_add_right (Finset.card_le_card hsub2) 1
      _ = (reps es ns).toFinset.card := by
            rw [Finset.card_erase_of_mem (List.mem_toFinset.mpr hrb)]
            have hpos : 0 < (reps es ns).toFinset.card :=
              Finset.card_pos.mpr ⟨rb, List.mem_toFinset.mpr hrb⟩
            omega
    · have hsub2 : (reps (es ++ [e]) ns).toFinset.image φ
          ⊆ (reps es ns).toFinset.erase ra := by
        intro z hz
        obtain ⟨r0, hr0, hz0⟩ := Finset.mem_image.mp hz
        refine Finset.mem_erase.mpr ⟨?_, by rw [← hz0]; exact hsubim r0 hr0⟩
        rintro rfl
        exact hcase hz
      calc ((reps (es ++ [e]) ns).toFinset.image φ).card + 1
          ≤ ((reps es ns).toFinset.erase ra).card + 1 :=
            Nat.add_le_add_right (Finset.card_le_card hsub2) 1
      _ = (reps es ns).toFinset.card := by
            rw [Finset.card_erase_of_mem (List.mem_toFinset.mpr hra)]
            have hpos : 0 < (reps es ns).toFinset.card :=
              Finset.card_pos.mpr ⟨ra, List.mem_toFinset.mpr hra⟩
            omega
  rw [numClases_len, numClases_len]
  omega

/-- Appending one edge decreases the class count by at most one. -/
theorem numClases_append_le {es : List Arista} {e : Arista} {ns : List Nodo}
    (ha : e.1 ∈ ns) (hb : e.2.1 ∈ ns) :
    numClases es ns ≤ numClases (es ++ [e]) ns + 1 := by
  classical
  obtain ⟨rb, hrb, hrbb⟩ := reps_cubre es hb
  have hcov : ∀ r ∈ reps es ns, ∃ r2, r2 ∈ reps (es ++ [e]) ns ∧
      Alcanza (es ++ [e]) r2 r := by
    intro r hr
    obtain ⟨r2, hr2, hr2r⟩ := reps_cubre (es ++ [e]) (reps_subset hr)
    exact ⟨r2, hr2, hr2r⟩
  set φ : Nodo → Nodo := fun r =>
    if hr : ∃ r2, r2 ∈ reps (es ++ [e]) ns ∧ Alcanza (es ++ [e]) r2 r
    then hr.choose else r with hφ
  have hφ_mem : ∀ r ∈ reps es ns, φ r ∈ reps (es ++ [e]) ns ∧
      Alcanza (es ++ [e]) (φ r) r := by
    intro r hr
    have hex := hcov r hr
    rw [hφ]
    simp only [dif_pos hex]
    exact hex.choose_spec
  have hinj : Set.InjOn φ (((reps es ns).toFinset.erase rb : Finset Nodo) : Set Nodo) := by
    intro r1 hr1 r2 hr2 heq
    rw [Finset.mem_coe, Finset.mem_erase] at hr1 hr2
    obtain ⟨hr1b, hr1m⟩ := hr1
    obtain ⟨hr2b, hr2m⟩ := hr2
    rw [List.mem_toFinset] at hr1m hr2m
    by_contra hne
    have h1 := hφ_mem r1 hr1m
    have h2 := hφ_mem r2 hr2m
    have hE : Alcanza (es ++ [e]) r1 r2 := by
      have hx := alcanza_symm h1.2
      rw [heq] at hx
      exact hx.trans h2.2
    have hnes : ¬ Alcanza es r1 r2 := reps_ne_no_alcanza hr1m hr2m hne
    rcases alcanza_append.mp hE with hcase | ⟨hc1, hc2⟩ | ⟨hc1, hc2⟩
    · exact hnes hcase
    · -- r2 is connected to e.2.1 in es, so r2 = rb
      have : Alcanza es rb r2 := hrbb.trans hc2
      have h22 : r2 = rb := by
        by_contra hne2
        exact reps_ne_no_alcanza hr2m hrb (fun hq => hne2 hq) (alcanza_symm this)
      exact hr2b h22
    · have : Alcanza es rb r1 := hrbb.trans (alcanza_symm hc1)
      have h11 : r1 = rb := by
        by_contra hne1
        exact reps_ne_no_alcanza hr1m hrb (fun hq => hne1 hq) (alcanza_symm this)
      exact hr1b h11
  have hsubim : ∀ a ∈ (reps es ns).toFinset.erase rb,
      φ a ∈ (reps (es ++ [e]) ns).toFinset := by
    intro a hha
    have := Finset.mem_erase.mp hha
    rw [List.mem_toFinset] at this ⊢
    exact (hφ_mem a this.2).1
  have hcard := Finset.card_le_card_of_injOn φ hsubim hinj
  rw [Finset.card_erase_of_mem (List.mem_toFinset.mpr hrb)] at hcard
  rw [numClases_len, numClases_len]
  have hpos : 0 < (reps es ns).toFinset.card :=
    Finset.card_pos.mpr ⟨rb, List.mem_toFinset.mpr hrb⟩
  omega

/-! ## Forests and class counts -/

theorem alcanza_nil {x y : Nodo} : Alcanza [] x y ↔ x = y := by
  constructor
  · intro h
    induction h with
    | refl => rfl
    | tail hsteps hstep ih =>
      obtain ⟨w, hw | hw⟩ := hstep <;> cases hw
  · rintro rfl
    exact alcanza_refl _

theorem reps_nil {ns : List Nodo} (hnd : ns.Nodup) : reps [] ns = ns := by
  have haux : ∀ (l : List Nodo) (acc : List Nodo), l.Nodup →
      (∀ x ∈ l, x ∉ acc) → l.foldl (repPaso []) acc = acc ++ l := by
    intro l
    induction l with
    | nil => intro acc _ _; simp
    | cons n resto ih =>
      intro acc hnd2 hdisj
      rw [List.foldl_cons]
      have hcond : (acc.any fun y => alcanzaB [] y n) = false := by
        rw [List.any_eq_false]
        intro y hy
        intro hb
        have := alcanza_nil.mp (alcanzaB_iff.mp hb)
        subst this
        exact hdisj y (List.mem_cons_self _ _) hy
      have hstep : repPaso [] acc n = acc ++ [n] := by
        rw [repPaso, hcond]
        simp
      rw [hstep, ih (acc ++ [n]) (List.nodup_cons.mp hnd2).2 ?_]
      · simp
      · intro x hx
        rw [List.mem_append, List.mem_singleton]
        rintro (h1 | rfl)
        · exact hdisj x (List.mem_cons_of_mem _ hx) h1
        · exact (List.nodup_cons.mp hnd2).1 hx
  have := haux ns [] hnd (by simp)
  rw [reps, this]
  simp

theorem numClases_nil {ns : List Nodo} (hnd : ns.Nodup) :
    numClases [] ns = ns.length := by
  rw [numClases, reps_nil hnd]

theorem bosque_nil : Bosque [] := by
  intro i h
  simp at h

theorem bosque_append_iff {es : List Arista} {e : Arista} :
    Bosque (es ++ [e]) ↔ Bosque es ∧ ¬ Alcanza es e.1 e.2.1 := by
  have hlen : (es ++ [e]).length = es.length + 1 := by simp
  have htake : ∀ i, i ≤ es.length → (es ++ [e]).take i = es.take i := by
    intro i hi
    rw [List.take_append_eq_append_take]
    have : i - es.length = 0 := by omega
    rw [this]
    simp
  have hget : ∀ (i : Nat) (h1 : i < es.length) (h2 : i < (es ++ [e]).length),
      (es ++ [e]).get ⟨i, h2⟩ = es.get ⟨i, h1⟩ := by
    intro i h1 h2
    rw [List.get_eq_getElem, List.get_eq_getElem, List.getElem_append]
    rw [dif_pos h1]
  have hgetlast : ∀ (h2 : es.length < (es ++ [e]).length),
      (es ++ [e]).get ⟨es.length, h2⟩ = e := by
    intro h2
    exact List.get_of_append rfl rfl
  constructor
  · intro h
    constructor
    · intro i hi
      have hi2 : i < (es ++ [e]).length := by omega
      have := h i hi2
      rw [htake i (by omega), hget i hi hi2] at this
      exact this
    · have hi2 : es.length < (es ++ [e]).length := by omega
      have := h es.length hi2
      rw [htake es.length (le_refl _), hgetlast hi2, List.take_length] at this
      exact this
  · rintro ⟨hb, hna⟩ i hi
    rw [hlen] at hi
    rcases Nat.lt_or_ge i es.length with h1 | h1
    · rw [htake i (by omega), hget i h1 (by omega)]
      exact hb i h1
    · have heq : i = es.length := by omega
      subst heq
      rw [htake es.length (le_refl _), hgetlast (by omega), List.take_length]
      exact hna

/-- Counting formula for forests: each edge of a forest cuts the class count
by exactly one. -/
theorem bosque_count {es : List Arista} {ns : List Nodo} (hnd : ns.Nodup)
    (hb : Bosque es) (hends : ∀ e ∈ es, e.1 ∈ ns ∧ e.2.1 ∈ ns) :
    es.length + numClases es ns = ns.length := by
  induction es using List.reverseRecOn with
  | nil => simpa using numClases_nil hnd
  | append_singleton es e ih =>
    obtain ⟨hb0, hna⟩ := bosque_append_iff.mp hb
    have hends0 : ∀ e2 ∈ es, e2.1 ∈ ns ∧ e2.2.1 ∈ ns :=
      fun e2 he2 => hends e2 (List.mem_append.mpr (Or.inl he2))
    have he : e.1 ∈ ns ∧ e.2.1 ∈ ns :=
      hends e (List.mem_append.mpr (Or.inr (List.mem_singleton.mpr rfl)))
    have hmerge := numClases_merge hna he.1 he.2
    have happ : numClases es ns ≤ numClases (es ++ [e]) ns + 1 :=
      numClases_append_le he.1 he.2
    have hih := ih hb0 hends0
    simp only [List.length_append, List.length_singleton]
    omega

/-- Any edge list cuts the class count by at most its length. -/
theorem count_ge {es : List Arista} {ns : List Nodo} (hnd : ns.Nodup)
    (hends : ∀ e ∈ es, e.1 ∈ ns ∧ e.2.1 ∈ ns) :
    ns.length ≤ es.length + numClases es ns := by
  induction es using List.reverseRecOn with
  | nil => simp [numClases_nil hnd]
  | append_singleton es e ih =>
    have hends0 : ∀ e2 ∈ es, e2.1 ∈ ns ∧ e2.2.1 ∈ ns :=
      fun e2 he2 => hends e2 (List.mem_append.mpr (Or.inl he2))
    have he : e.1 ∈ ns ∧ e.2.1 ∈ ns :=
      hends e (List.mem_append.mpr (Or.inr (List.mem_singleton.mpr rfl)))
    have happ : numClases es ns ≤ numClases (es ++ [e]) ns + 1 :=
      numClases_append_le he.1 he.2
    have hih := ih hends0
    simp only [List.length_append, List.length_singleton]
    omega

/-- Suffix bound: appending `B` drops the class count by at most `|B|`. -/
theorem numClases_append_bloque {X B : List Arista} {ns : List Nodo}
    (hends : ∀ e ∈ B, e.1 ∈ ns ∧ e.2.1 ∈ ns) :
    numClases X ns ≤ numClases (X ++ B) ns + B.length := by
  induction B using List.reverseRecOn with
  | nil => simp
  | append_singleton B e ih =>
    have hendsB : ∀ e2 ∈ B, e2.1 ∈ ns ∧ e2.2.1 ∈ ns :=
      fun e2 he2 => hends e2 (List.mem_append.mpr (Or.inl he2))
    have he : e.1 ∈ ns ∧ e.2.1 ∈ ns :=
      hends e (List.mem_append.mpr (Or.inr (List.mem_singleton.mpr rfl)))
    have happ : numClases (X ++ B) ns ≤ numClases ((X ++ B) ++ [e]) ns + 1 :=
      numClases_append_le he.1 he.2
    rw [← List.append_assoc] at *
    simp only [List.length_append, List.length_singleton]
    have := ih hendsB
    omega

/-- The counting characterization of forests. -/
theorem bosque_iff_count {es : List Arista} {ns : List Nodo} (hnd : ns.Nodup)
    (hends : ∀ e ∈ es, e.1 ∈ ns ∧ e.2.1 ∈ ns) :
    Bosque es ↔ es.length + numClases es ns = ns.length := by
  constructor
  · exact fun hb => bosque_count hnd hb hends
  · intro hcount
    by_contra hnb
    rw [Bosque] at hnb
    push_neg at hnb
    obtain ⟨i, hi, hred⟩ := hnb
    -- split es = take i ++ [es[i]] ++ drop (i+1)
    set e := es.get ⟨i, hi⟩ with he
    have hsplit : es = (es.take i ++ [e]) ++ es.drop (i + 1) := by
      have h1 : es.take (i + 1) = es.take i ++ [e] := by
        rw [List.take_succ]
        congr 1
        rw [he, List.get_eq_getElem]
        simp [List.getElem?_eq_getElem hi]
      rw [← h1, List.take_append_drop]
    have hends_take : ∀ e2 ∈ es.take i, e2.1 ∈ ns ∧ e2.2.1 ∈ ns :=
      fun e2 he2 => hends e2 (List.mem_of_mem_take he2)
    have hends_drop : ∀ e2 ∈ es.drop (i + 1), e2.1 ∈ ns ∧ e2.2.1 ∈ ns :=
      fun e2 he2 => hends e2 (List.mem_of_mem_drop he2)
    have h1 : numClases (es.take i ++ [e]) ns = numClases (es.take i) ns :=
      numClases_redundante hred ns
    have h2 : numClases (es.take i ++ [e]) ns
        ≤ numClases ((es.take i ++ [e]) ++ es.drop (i + 1)) ns
          + (es.drop (i + 1)).length :=
      numClases_append_bloque hends_drop
    have h3 : ns.length ≤ (es.take i).length + numClases (es.take i) ns :=
      count_ge hnd hends_take
    have hlen_take : (es.take i).length = i := List.length_take_of_le (by omega)
    have hlen_drop : (es.drop (i + 1)).length = es.length - (i + 1) :=
      List.length_drop _ _
    rw [← hsplit] at h2
    omega

/-- Forests are invariant under permutation of the edge list. -/
theorem bosque_perm {es es2 : List Arista} {ns : List Nodo} (hnd : ns.Nodup)
    (hperm : es.Perm es2) (hends : ∀ e ∈ es, e.1 ∈ ns ∧ e.2.1 ∈ ns)
    (hb : Bosque es) : Bosque es2 := by
  have hends2 : ∀ e ∈ es2, e.1 ∈ ns ∧ e.2.1 ∈ ns :=
    fun e he => hends e (hperm.mem_iff.mpr he)
  have hcongr : ∀ x y, Alcanza es x y ↔ Alcanza es2 x y := by
    intro x y
    constructor
    · exact alcanza_mono (fun e he => hperm.mem_iff.mp he)
    · exact alcanza_mono (fun e he => hperm.mem_iff.mpr he)
  rw [bosque_iff_count hnd hends2]
  rw [← numClases_congr hcongr ns, ← hperm.length_eq]
  exact (bosque_iff_count hnd hends).mp hb

/-- Exchange: a larger forest contains an edge joining two classes of a
smaller one. -/
theorem bosque_intercambio {F F2 : List Arista} {ns : List Nodo} (hnd : ns.Nodup)
    (hbF : Bosque F) (hbF2 : Bosque F2)
    (hendsF : ∀ e ∈ F, e.1 ∈ ns ∧ e.2.1 ∈ ns)
    (hendsF2 : ∀ e ∈ F2, e.1 ∈ ns ∧ e.2.1 ∈ ns)
    (hlen : F.length < F2.length) :
    ∃ e ∈ F2, ¬ Alcanza F e.1 e.2.1 := by
  by_contra hno
  push_neg at hno
  have hsub : ∀ x y, Alcanza F2 x y → Alcanza F x y := by
    intro x y h
    induction h with
    | refl => exact alcanza_refl _
    | tail hsteps hstep ih =>
      obtain ⟨w, hw | hw⟩ := hstep
      · exact ih.trans (hno _ hw)
      · exact ih.trans (alcanza_symm (hno _ hw))
  have hmono : numClases F ns ≤ numClases F2 ns := numClases_mono hsub
  have hc1 := bosque_count hnd hbF hendsF
  have hc2 := bosque_count hnd hbF2 hendsF2
  omega

/-- A single class means everything is connected. -/
theorem numClases_one_conecta {es : List Arista} {ns : List Nodo}
    (h : numClases es ns = 1) {x y : Nodo} (hx : x ∈ ns) (hy : y ∈ ns) :
    Alcanza es x y := by
  obtain ⟨r1, hr1, hr1x⟩ := reps_cubre es hx
  obtain ⟨r2, hr2, hr2y⟩ := reps_cubre es hy
  have hsingle : ∃ r, reps es ns = [r] := by
    rcases hreps : reps es ns with _ | ⟨r, resto⟩
    · rw [hreps] at hr1
      cases hr1
    · rcases resto with _ | ⟨r2x, resto2⟩
      · exact ⟨r, rfl⟩
      · rw [numClases, hreps] at h
        simp at h
  obtain ⟨r, hr⟩ := hsingle
  rw [hr] at hr1 hr2
  rcases List.mem_singleton.mp hr1 with rfl
  rcases List.mem_singleton.mp hr2 with rfl
  exact (alcanza_symm hr1x).trans hr2y

/-- Everything connected means a single class. -/
theorem conecta_numClases_one {es : List Arista} {ns : List Nodo}
    (hne : ns ≠ []) (h : ∀ x ∈ ns, ∀ y ∈ ns, Alcanza es x y) :
    numClases es ns = 1 := by
  obtain ⟨x, hx⟩ := List.exists_mem_of_ne_nil ns hne
  obtain ⟨r1, hr1, _⟩ := reps_cubre es hx
  rcases hreps : reps es ns with _ | ⟨r, resto⟩
  · rw [hreps] at hr1
    cases hr1
  · rcases resto with _ | ⟨r2, resto2⟩
    · rw [numClases, hreps]
      rfl
    · exfalso
      have hmem1 : r ∈ reps es ns := by
        rw [hreps]
        exact List.mem_cons_self _ _
      have hmem2 : r2 ∈ reps es ns := by
        rw [hreps]
        exact List.mem_cons_of_mem _ (List.mem_cons_self _ _)
      have hne12 : r ≠ r2 := by
        have := reps_nodup es ns
        rw [hreps] at this
        rcases List.nodup_cons.mp this with ⟨hnotin, _⟩
        rintro rfl
        exact hnotin (List.mem_cons_self _ _)
      exact reps_ne_no_alcanza hmem1 hmem2 hne12
        (h r (reps_subset hmem1) r2 (reps_subset hmem2))

/-- A disconnected pair forces at least two classes. -/
theorem desconectado_numClases {es : List Arista} {ns : List Nodo} {x y : Nodo}
    (hx : x ∈ ns) (hy : y ∈ ns) (hno : ¬ Alcanza es x y) :
    2 ≤ numClases es ns := by
  obtain ⟨r1, hr1, hr1x⟩ := reps_cubre es hx
  obtain ⟨r2, hr2, hr2y⟩ := reps_cubre es hy
  have hne : r1 ≠ r2 := by
    rintro rfl
    exact hno ((alcanza_symm hr1x).trans hr2y)
  rcases hreps : reps es ns with _ | ⟨r, resto⟩
  · rw [hreps] at hr1
    cases hr1
  · rcases resto with _ | ⟨rr, resto2⟩
    · rw [hreps] at hr1 hr2
      rcases List.mem_singleton.mp hr1 with rfl
      rcases List.mem_singleton.mp hr2 with rfl
      exact absurd rfl hne
    · rw [numClases, hreps]
      simp only [List.length_cons]
      omega

/-- The endpoint list collects without duplicates. -/
theorem nodosDe_nodup (aristas : List Arista) : (nodosDe aristas).Nodup := by
  have haux : ∀ (l : List Arista) (acc : List Nodo), acc.Nodup →
      (l.foldl (fun acc e =>
        let acc1 := if e.1 ∈ acc then acc else acc ++ [e.1]
        if e.2.1 ∈ acc1 then acc1 else acc1 ++ [e.2.1]) acc).Nodup := by
    intro l
    induction l with
    | nil => exact fun acc h => h
    | cons e resto ih =>
      intro acc hacc
      rw [List.foldl_cons]
      refine ih _ ?_
      show (if e.2.1 ∈ (if e.1 ∈ acc then acc else acc ++ [e.1])
          then (if e.1 ∈ acc then acc else acc ++ [e.1])
          else (if e.1 ∈ acc then acc else acc ++ [e.1]) ++ [e.2.1]).Nodup
      by_cases h : e.1 ∈ acc
      · rw [if_pos h]
        by_cases h2 : e.2.1 ∈ acc
        · rw [if_pos h2]; exact hacc
        · rw [if_neg h2]
          exact hacc.append (List.nodup_singleton _)
            (fun a ha hb => h2 ((List.mem_singleton.mp hb) ▸ ha))
      · rw [if_neg h]
        have h1 : (acc ++ [e.1]).Nodup :=
          hacc.append (List.nodup_singleton _)
            (fun a ha hb => h ((List.mem_singleton.mp hb) ▸ ha))
        by_cases h2 : e.2.1 ∈ acc ++ [e.1]
        · rw [if_pos h2]; exact h1
        · rw [if_neg h2]
          exact h1.append (List.nodup_singleton _)
            (fun a ha hb => h2 ((List.mem_singleton.mp hb) ▸ ha))
  exact haux aristas [] List.nodup_nil

/-! ## Weight-bounded reachability and chain transfer -/

theorem mem_hasta {es : List Arista} {c : Nat} {e : Arista} :
    e ∈ hasta es c ↔ e ∈ es ∧ pesoDe e ≤ c := by
  simp [hasta, List.mem_filter]

theorem hasta_subset {es : List Arista} {c : Nat} : ∀ e ∈ hasta es c, e ∈ es :=
  fun _ he => (mem_hasta.mp he).1

theorem hasta_mono_c {es : List Arista} {c1 c2 : Nat} (h : c1 ≤ c2) :
    ∀ e ∈ hasta es c1, e ∈ hasta es c2 := by
  intro e he
  obtain ⟨h1, h2⟩ := mem_hasta.mp he
  exact mem_hasta.mpr ⟨h1, le_trans h2 h⟩

theorem hasta_append (es1 es2 : List Arista) (c : Nat) :
    hasta (es1 ++ es2) c = hasta es1 c ++ hasta es2 c :=
  List.filter_append _ _

theorem hasta_eq_self {es : List Arista} {c : Nat}
    (h : ∀ e ∈ es, pesoDe e ≤ c) : hasta es c = es :=
  List.filter_eq_self.mpr (fun e he => decide_eq_true (h e he))

theorem hasta_sublist (es : List Arista) (c : Nat) : (hasta es c).Sublist es :=
  List.filter_sublist _

/-- Chains transfer to any edge set that connects the endpoints of every
edge used. -/
theorem alcanza_por_ady {es1 es2 : List Arista}
    (h : ∀ e ∈ es1, Alcanza es2 e.1 e.2.1) {x y : Nodo}
    (hxy : Alcanza es1 x y) : Alcanza es2 x y := by
  induction hxy with
  | refl => exact alcanza_refl _
  | tail hsteps hstep ih =>
    obtain ⟨w, hw | hw⟩ := hstep
    · exact ih.trans (h _ hw)
    · exact ih.trans (alcanza_symm (h _ hw))

theorem nodosDe_ne_nil {aristas : List Arista} (h : aristas ≠ []) :
    nodosDe aristas ≠ [] := by
  rcases haristas : aristas with _ | ⟨e, resto⟩
  · exact absurd haristas h
  intro hnil
  have hmem : e.1 ∈ nodosDe (e :: resto) :=
    mem_nodosDe.mpr ⟨e, List.mem_cons_self _ _, Or.inl rfl⟩
  rw [hnil] at hmem
  cases hmem

/-! ## Forests under sublists and the weight ladder -/

theorem length_filter_par {α : Type} (p : α → Bool) (l : List α) :
    (l.filter p).length + (l.filter (fun e => ! p e)).length = l.length := by
  induction l with
  | nil => rfl
  | cons a l ih =>
    rcases hpa : p a with _ | _ <;>
      simp [List.filter_cons, hpa] <;>
      omega

/-- A sublist of a forest is a forest. -/
theorem bosque_sublist {es2 es : List Arista} (hsub : es2.Sublist es)
    (hb : Bosque es) : Bosque es2 := by
  set ns := nodosDe es with hns
  have hnd : ns.Nodup := nodosDe_nodup es
  have hends : ∀ e ∈ es, e.1 ∈ ns ∧ e.2.1 ∈ ns := by
    intro e he
    exact ⟨mem_nodosDe.mpr ⟨e, he, Or.inl rfl⟩, mem_nodosDe.mpr ⟨e, he, Or.inr rfl⟩⟩
  have hends2 : ∀ e ∈ es2, e.1 ∈ ns ∧ e.2.1 ∈ ns :=
    fun e he => hends e (hsub.subset he)
  obtain ⟨l, hperm⟩ := hsub.exists_perm_append
  have hendsl : ∀ e ∈ l, e.1 ∈ ns ∧ e.2.1 ∈ ns := by
    intro e he
    exact hends e (hperm.mem_iff.mpr (List.mem_append.mpr (Or.inr he)))
  have hcongr : ∀ x y, Alcanza es x y ↔ Alcanza (es2 ++ l) x y := by
    intro x y
    exact ⟨alcanza_mono (fun e he => hperm.mem_iff.mp he),
      alcanza_mono (fun e he => hperm.mem_iff.mpr he)⟩
  have hnc : numClases es ns = numClases (es2 ++ l) ns := numClases_congr hcongr ns
  have hcount := (bosque_iff_count hnd hends).mp hb
  have hblk : numClases es2 ns ≤ numClases (es2 ++ l) ns + l.length :=
    numClases_append_bloque hendsl
  have hge : ns.length ≤ es2.length + numClases es2 ns := count_ge hnd hends2
  have hlen : es.length = es2.length + l.length := by
    rw [hperm.length_eq, List.length_append]
  rw [bosque_iff_count hnd hends2]
  omega

theorem min_suma (pe : Nat) :
    ∀ W, (∑ c ∈ Finset.range W, (if c < pe then 1 else 0)) = min pe W := by
  intro W
  induction W with
  | zero => simp
  | succ W ih =>
    rw [Finset.sum_range_succ, ih]
    by_cases h : W < pe
    · rw [if_pos h]
      omega
    · rw [if_neg h]
      omega

theorem suma_pesos {W : Nat} :
    ∀ F : List Arista, (∀ e ∈ F, pesoDe e ≤ W) →
      (∑ c ∈ Finset.range W, (F.filter (fun e => decide (c < pesoDe e))).length)
        = pesoTotal F := by
  intro F
  induction F with
  | nil => simp [pesoTotal]
  | cons e F ih =>
    intro hW
    have hrec := ih (fun e2 he2 => hW e2 (List.mem_cons_of_mem _ he2))
    have hsplit : ∀ c, ((e :: F).filter (fun e => decide (c < pesoDe e))).length
        = (if c < pesoDe e then 1 else 0)
          + (F.filter (fun e => decide (c < pesoDe e))).length := by
      intro c
      rcases h : decide (c < pesoDe e) with _ | _
      · rw [List.filter_cons_of_neg (by simp [h])]
        rw [if_neg (by simpa using h)]
        omega
      · rw [List.filter_cons_of_pos (by simp [h])]
        rw [if_pos (by simpa using h)]
        simp [Nat.add_comm]
    calc (∑ c ∈ Finset.range W, ((e :: F).filter (fun e => decide (c < pesoDe e))).length)
        = (∑ c ∈ Finset.range W, ((if c < pesoDe e then 1 else 0)
            + (F.filter (fun e => decide (c < pesoDe e))).length)) :=
          Finset.sum_congr rfl (fun c _ => hsplit c)
      _ = (∑ c ∈ Finset.range W, (if c < pesoDe e then 1 else 0))
            + (∑ c ∈ Finset.range W, (F.filter (fun e => decide (c < pesoDe e))).length) :=
          Finset.sum_add_distrib
      _ = pesoDe e + pesoTotal F := by
          rw [min_suma, hrec]
          congr 1
          have := hW e (List.mem_cons_self _ _)
          omega
      _ = pesoTotal (e :: F) := by
          simp [pesoTotal]

/-- The weight of a forest, counted threshold by threshold through the
class counts of its weight-bounded subforests. -/
theorem escalera {F : List Arista} {ns : List Nodo} {W : Nat} (hnd : ns.Nodup)
    (hb : Bosque F) (hends : ∀ e ∈ F, e.1 ∈ ns ∧ e.2.1 ∈ ns)
    (hW : ∀ e ∈ F, pesoDe e ≤ W) :
    pesoTotal F + W * ns.length
      = W * F.length + (∑ c ∈ Finset.range W, numClases (hasta F c) ns) := by
  have hc : ∀ c, (F.filter (fun e => decide (c < pesoDe e))).length + ns.length
      = F.length + numClases (hasta F c) ns := by
    intro c
    have h1 : (hasta F c).length + numClases (hasta F c) ns = ns.length :=
      bosque_count hnd (bosque_sublist (hasta_sublist F c) hb)
        (fun e he => hends e (hasta_subset e he))
    have h2 := length_filter_par (fun e => decide (pesoDe e ≤ c)) F
    have h3 : F.filter (fun e => ! decide (pesoDe e ≤ c))
        = F.filter (fun e => decide (c < pesoDe e)) := by
      refine List.filter_congr ?_
      intro e _
      rcases Nat.lt_or_ge c (pesoDe e) with h | h
      · simp [h, Nat.not_le.mpr h]
      · simp [Nat.not_lt.mpr h, Nat.le_of_lt_succ, h]
    rw [h3] at h2
    have h4 : (F.filter (fun e => decide (pesoDe e ≤ c))).length = (hasta F c).length := rfl
    omega
  have hsum : (∑ c ∈ Finset.range W, ((F.filter (fun e => decide (c < pesoDe e))).length + ns.length))
      = (∑ c ∈ Finset.range W, (F.length + numClases (hasta F c) ns)) :=
    Finset.sum_congr rfl (fun c _ => hc c)
  rw [Finset.sum_add_distrib, Finset.sum_add_distrib, Finset.sum_const,
    Finset.sum_const, Finset.card_range, suma_pesos F hW, smul_eq_mul,
    smul_eq_mul] at hsum
  omega

/-- Forests of equal size ordered pointwise by the class counts of their
weight-bounded subforests are ordered by total weight. -/
theorem pesoTotal_le_de_clases {F G : List Arista} {ns : List Nodo} {W : Nat}
    (hnd : ns.Nodup) (hbF : Bosque F) (hbG : Bosque G)
    (hendsF : ∀ e ∈ F, e.1 ∈ ns ∧ e.2.1 ∈ ns)
    (hendsG : ∀ e ∈ G, e.1 ∈ ns ∧ e.2.1 ∈ ns)
    (hWF : ∀ e ∈ F, pesoDe e ≤ W) (hWG : ∀ e ∈ G, pesoDe e ≤ W)
    (hlen : F.length = G.length)
    (hcl : ∀ c, numClases (hasta F c) ns ≤ numClases (hasta G c) ns) :
    pesoTotal F ≤ pesoTotal G := by
  have e1 := escalera hnd hbF hendsF hWF
  have e2 := escalera hnd hbG hendsG hWG
  have hsum : (∑ c ∈ Finset.range W, numClases (hasta F c) ns)
      ≤ (∑ c ∈ Finset.range W, numClases (hasta G c) ns) :=
    Finset.sum_le_sum (fun c _ => hcl c)
  rw [hlen] at e1
  omega

/-! ## Kruskal: sorted processing order -/

theorem pesoLe_trans : ∀ a b c : Arista,
    pesoLe a b = true → pesoLe b c = true → pesoLe a c = true := by
  intro a b c h1 h2
  simp only [pesoLe, decide_eq_true_eq] at *
  omega

theorem pesoLe_total : ∀ a b : Arista, (pesoLe a b || pesoLe b a) = true := by
  intro a b
  simp only [pesoLe, Bool.or_eq_true, decide_eq_true_eq]
  omega

theorem aristasOrdenadas_perm (aristas : List Arista) :
    (aristasOrdenadas aristas).Perm aristas :=
  List.mergeSort_perm aristas pesoLe

theorem aristasOrdenadas_sorted (aristas : List Arista) :
    List.Pairwise (fun e1 e2 => pesoDe e1 ≤ pesoDe e2) (aristasOrdenadas aristas) := by
  have h := List.sorted_mergeSort pesoLe_trans pesoLe_total aristas
  refine h.imp ?_
  intro a b hab
  simpa [pesoLe] using hab

/-- Stability of the sort: at each weight, the sorted list lists exactly the
input edges of that weight in their input order. -/
theorem aristasOrdenadas_estable (aristas : List Arista) (w : Nat) :
    (aristasOrdenadas aristas).filter (fun e => pesoDe e = w)
      = aristas.filter (fun e => pesoDe e = w) := by
  set c := aristas.filter (fun e => pesoDe e = w) with hc
  have hcall : ∀ e ∈ c, pesoDe e = w := by
    intro e he
    have := List.of_mem_filter he
    simpa using this
  have hcp : List.Pairwise (fun a b => pesoLe a b = true) c := by
    have : List.Pairwise (fun _ _ => True) c := List.pairwise_iff_forall_sublist.mpr
      (by intro a b _; trivial)
    refine this.imp_of_mem ?_
    intro a b ha hb _
    have h1 := hcall a ha
    have h2 := hcall b hb
    simp only [pesoDe] at h1 h2
    simp [pesoLe, h1, h2]
  have hsub : c.Sublist (aristasOrdenadas aristas) :=
    List.sublist_mergeSort pesoLe_trans pesoLe_total hcp (List.filter_sublist _)
  have hsub2 : c.Sublist ((aristasOrdenadas aristas).filter (fun e => pesoDe e = w)) := by
    have := hsub.filter (fun e => decide (pesoDe e = w))
    rwa [show c.filter (fun e => decide (pesoDe e = w)) = c from
      List.filter_eq_self.mpr (by intro e he; simpa using hcall e he)] at this
  have hperm : ((aristasOrdenadas aristas).filter (fun e => pesoDe e = w)).Perm c :=
    (aristasOrdenadas_perm aristas).filter _
  exact (hsub2.eq_of_length hperm.length_eq.symm).symm

/-- The accepted edges of the Kruskal loop extend the accumulator with a
selection of the remaining edges, in processing order. -/
theorem kruskalLoop_sublist :
    ∀ (resto : List Arista) (n : Nat) (uf : UF) (mst : List Arista) (peso : Nat)
      (res : List Arista × Nat),
      kruskalLoop n uf mst peso resto = some res →
      ∃ D, res.1 = mst ++ D ∧ D.Sublist resto := by
  intro resto
  induction resto with
  | nil =>
    intro n uf mst peso res h
    cases h
    exact ⟨[], by simp, List.Sublist.refl _⟩
  | cons e resto ih =>
    intro n uf mst peso res h
    obtain ⟨a, b, p⟩ := e
    simp only [kruskalLoop] at h
    rcases hu : unir uf a b with _ | ⟨b2, uf2⟩
    · rw [hu] at h
      exact absurd h (by simp)
    · rw [hu] at h
      rcases b2 with _ | _
      · obtain ⟨D, hD, hsub⟩ := ih n uf2 mst peso res h
        exact ⟨D, hD, hsub.cons _⟩
      · simp only at h
        by_cases hbreak : (mst ++ [(a, b, p)]).length = n - 1
        · rw [if_pos hbreak] at h
          cases h
          exact ⟨[(a, b, p)], rfl, by simp⟩
        · rw [if_neg hbreak] at h
          obtain ⟨D, hD, hsub⟩ := ih n uf2 (mst ++ [(a, b, p)]) (peso + p) res h
          refine ⟨(a, b, p) :: D, by simpa using hD, hsub.cons_cons _⟩

/-- C7: `kruskal` sorts the edges ascending by weight with Python's stable
`sorted` — the sorted list is a permutation of the input, is weight-sorted,
and lists the edges of each weight in input order — and the accepted edges
appear in the result in that sorted order (the result list is a sublist of
the sorted edge list).  The embedding is a pure function of the edge list,
so the output is deterministic. -/
theorem c7_kruskal_orden_estable (aristas : List Arista) :
    (aristasOrdenadas aristas).Perm aristas ∧
    List.Pairwise (fun e1 e2 => pesoDe e1 ≤ pesoDe e2) (aristasOrdenadas aristas) ∧
    (∀ w, (aristasOrdenadas aristas).filter (fun e => pesoDe e = w)
      = aristas.filter (fun e => pesoDe e = w)) ∧
    (kruskal aristas).1.Sublist (aristasOrdenadas aristas) := by
  refine ⟨aristasOrdenadas_perm aristas, aristasOrdenadas_sorted aristas,
    aristasOrdenadas_estable aristas, ?_⟩
  rw [kruskal, kruskalO]
  by_cases hnil : aristas = []
  · simp [hnil, aristasOrdenadas]
  · rw [if_neg hnil]
    rcases hres : kruskalLoop (nodosDe aristas).length (ufInit (nodosDe aristas)) [] 0
        (aristasOrdenadas aristas) with _ | res
    · simp
    · obtain ⟨D, hD, hsub⟩ := kruskalLoop_sublist _ _ _ _ _ _ hres
      simpa [hD] using hsub

/-! ## The Kruskal loop: forest growth, cover and weight-bounded cover -/

theorem pesoTotal_append (es : List Arista) (e : Arista) :
    pesoTotal (es ++ [e]) = pesoTotal es + pesoDe e := by
  simp [pesoTotal]

theorem ufInit_claves (nodos : List Nodo) : (ufInit nodos).claves = nodos := by
  show (nodos.map fun n => (n, n)).map Prod.fst = nodos
  rw [List.map_map]
  exact List.map_id nodos

theorem rootD_init (nodos : List Nodo) (x : Nodo) : rootD (ufInit nodos) x = x :=
  rootD_raiz (ufInit_padreDe nodos x)

/-- How equality of representatives changes when the class of `ra` is
poured into the class of `rb`. -/
theorem fusion_iff {u v ra rb : Nodo} (hne : ra ≠ rb) :
    ((if u = ra then rb else u) = (if v = ra then rb else v))
      ↔ (u = v ∨ (u = ra ∧ rb = v) ∨ (u = rb ∧ ra = v)) := by
  by_cases h1 : u = ra <;> by_cases h2 : v = ra
  · rw [if_pos h1, if_pos h2]
    subst h1
    subst h2
    simp
  · rw [if_pos h1, if_neg h2]
    subst h1
    constructor
    · intro h
      exact Or.inr (Or.inl ⟨rfl, h⟩)
    · rintro (h | ⟨_, h⟩ | ⟨hc, _⟩)
      · exact absurd h.symm h2
      · exact h
      · exact absurd hc hne
  · rw [if_neg h1, if_pos h2]
    subst h2
    constructor
    · intro h
      exact Or.inr (Or.inr ⟨h, rfl⟩)
    · rintro (h | ⟨h, _⟩ | ⟨h, _⟩)
      · exact absurd h h1
      · exact absurd h h1
      · exact h
  · rw [if_neg h1, if_neg h2]
    constructor
    · exact Or.inl
    · rintro (h | ⟨h, _⟩ | ⟨_, h⟩)
      · exact h
      · exact absurd h h1
      · exact absurd h.symm h2

/-- Growing the forest preserves weight-bounded chains. -/
theorem alcanza_hasta_extend {mst d : List Arista} {c : Nat} {x y : Nodo}
    (h : Alcanza (hasta mst c) x y) : Alcanza (hasta (mst ++ d) c) x y :=
  alcanza_mono (fun k hk => mem_hasta.mpr
    ⟨List.mem_append.mpr (Or.inl (mem_hasta.mp hk).1), (mem_hasta.mp hk).2⟩) h

/-- Master lemma for the edge loop of `kruskal`.  The Union-Find state
mirrors the connectivity of the accepted forest, every processed edge is
covered by accepted edges of no larger weight, and the loop never hits the
internal failure of `unir`. -/
theorem kruskalLoop_master (aristas : List Arista) :
    ∀ (resto : List Arista) (uf : UF) (mst : List Arista) (peso : Nat)
      (procesadas : List Arista),
      aristasOrdenadas aristas = procesadas ++ resto →
      BuenUF uf →
      uf.claves = nodosDe aristas →
      (∀ x ∈ nodosDe aristas, ∀ y ∈ nodosDe aristas,
        (rootD uf x = rootD uf y ↔ Alcanza mst x y)) →
      (∀ e ∈ mst, e ∈ procesadas) →
      Bosque mst →
      peso = pesoTotal mst →
      (∀ e ∈ procesadas, Alcanza (hasta mst (pesoDe e)) e.1 e.2.1) →
      ∃ K w, kruskalLoop (nodosDe aristas).length uf mst peso resto
          = some (K, w) ∧
        (∀ e ∈ K, e ∈ aristas) ∧ Bosque K ∧ w = pesoTotal K ∧
        (∀ e ∈ aristas, Alcanza (hasta K (pesoDe e)) e.1 e.2.1) := by
  intro resto
  induction resto with
  | nil =>
    intro uf mst peso procesadas hsplit hbuf hclaves hB hCsub hbos hpeso hF
    rw [List.append_nil] at hsplit
    refine ⟨mst, peso, rfl, ?_, hbos, hpeso, ?_⟩
    · intro e he
      exact (aristasOrdenadas_perm aristas).mem_iff.mp (hsplit ▸ hCsub e he)
    · intro e he
      exact hF e (hsplit ▸ (aristasOrdenadas_perm aristas).mem_iff.mpr he)
  | cons e resto ih =>
    intro uf mst peso procesadas hsplit hbuf hclaves hB hCsub hbos hpeso hF
    obtain ⟨a, b, p⟩ := e
    have hmem_sorted : (a, b, p) ∈ aristasOrdenadas aristas := by
      rw [hsplit]
      exact List.mem_append.mpr (Or.inr (List.mem_cons_self _ _))
    have hmem_ar : (a, b, p) ∈ aristas :=
      (aristasOrdenadas_perm aristas).mem_iff.mp hmem_sorted
    have ha : a ∈ nodosDe aristas := mem_nodosDe.mpr ⟨(a, b, p), hmem_ar, Or.inl rfl⟩
    have hb : b ∈ nodosDe aristas := mem_nodosDe.mpr ⟨(a, b, p), hmem_ar, Or.inr rfl⟩
    have ha2 : a ∈ uf.claves := hclaves ▸ ha
    have hb2 : b ∈ uf.claves := hclaves ▸ hb
    have hpw : List.Pairwise (fun e1 e2 => pesoDe e1 ≤ pesoDe e2)
        (procesadas ++ (a, b, p) :: resto) := by
      rw [← hsplit]
      exact aristasOrdenadas_sorted aristas
    obtain ⟨pw1, pw2, hcross⟩ := List.pairwise_append.mp hpw
    obtain ⟨hhead, pwresto⟩ := List.pairwise_cons.mp pw2
    obtain ⟨bb, uf2, hunir, hbuf2, hkeys2, hrg2, hcase⟩ := unir_ok hbuf ha2 hb2
    have hclaves2 : uf2.claves = nodosDe aristas := by
      show uf2.padre.map Prod.fst = nodosDe aristas
      rw [hkeys2]
      exact hclaves
    have hsplit2 : aristasOrdenadas aristas = (procesadas ++ [(a, b, p)]) ++ resto := by
      rw [hsplit, List.append_assoc]
      rfl
    have hCw : ∀ k ∈ mst, pesoDe k ≤ p :=
      fun k hk => hcross k (hCsub k hk) (a, b, p) (List.mem_cons_self _ _)
    rcases hcase with ⟨hbb, hsame, hrg, hroots⟩ | ⟨hbb, hne2, rA, rB, hor, hroots⟩
    · -- redundant edge: `unir` reports `false`, nothing accepted
      subst hbb
      have hB2 : ∀ x ∈ nodosDe aristas, ∀ y ∈ nodosDe aristas,
          (rootD uf2 x = rootD uf2 y ↔ Alcanza mst x y) := by
        intro x hx y hy
        rw [hroots x, hroots y]
        exact hB x hx y hy
      have hF2 : ∀ e2 ∈ procesadas ++ [(a, b, p)],
          Alcanza (hasta mst (pesoDe e2)) e2.1 e2.2.1 := by
        intro e2 he2
        rcases List.mem_append.mp he2 with h | h
        · exact hF e2 h
        · rcases List.mem_singleton.mp h with rfl
          have heq : hasta mst p = mst := hasta_eq_self hCw
          show Alcanza (hasta mst p) a b
          rw [heq]
          exact (hB a ha b hb).mp hsame
      obtain ⟨K, w, hloop, hsub, hbK, hwK, hcov⟩ := ih uf2 mst peso
        (procesadas ++ [(a, b, p)]) hsplit2 hbuf2 hclaves2 hB2
        (fun e2 he2 => List.mem_append.mpr (Or.inl (hCsub e2 he2))) hbos hpeso hF2
      refine ⟨K, w, ?_, hsub, hbK, hwK, hcov⟩
      simp only [kruskalLoop]
      rw [hunir]
      exact hloop
    · -- merging edge: accepted
      subst hbb
      have hnotal : ¬ Alcanza mst a b := fun h => hne2 ((hB a ha b hb).mpr h)
      have hbos2 : Bosque (mst ++ [(a, b, p)]) := bosque_append_iff.mpr ⟨hbos, hnotal⟩
      have hrArB : rA ≠ rB := by
        rcases hor with ⟨h1, h2⟩ | ⟨h1, h2⟩
        · rw [h1, h2]
          exact hne2
        · rw [h1, h2]
          exact Ne.symm hne2
      have hB2 : ∀ x ∈ nodosDe aristas, ∀ y ∈ nodosDe aristas,
          (rootD uf2 x = rootD uf2 y ↔ Alcanza (mst ++ [(a, b, p)]) x y) := by
        intro x hx y hy
        rw [hroots x, hroots y, fusion_iff hrArB]
        rw [show Alcanza (mst ++ [(a, b, p)]) x y ↔
            Alcanza mst x y ∨ (Alcanza mst x a ∧ Alcanza mst b y)
              ∨ (Alcanza mst x b ∧ Alcanza mst a y) from alcanza_append]
        rcases hor with ⟨h1, h2⟩ | ⟨h1, h2⟩
        · subst h1
          subst h2
          rw [hB x hx y hy, hB x hx a ha, hB b hb y hy, hB x hx b hb, hB a ha y hy]
        · subst h1
          subst h2
          rw [hB x hx y hy, hB x hx a ha, hB b hb y hy, hB x hx b hb, hB a ha y hy]
          tauto
      have hF2 : ∀ e2 ∈ procesadas ++ [(a, b, p)],
          Alcanza (hasta (mst ++ [(a, b, p)]) (pesoDe e2)) e2.1 e2.2.1 := by
        intro e2 he2
        rcases List.mem_append.mp he2 with h | h
        · exact alcanza_hasta_extend (hF e2 h)
        · rcases List.mem_singleton.mp h with rfl
          refine @alcanza_de_arista _ (a, b, p) ?_
          exact mem_hasta.mpr ⟨List.mem_append.mpr
            (Or.inr (List.mem_singleton.mpr rfl)), le_refl _⟩
      have hCsub2 : ∀ e2 ∈ mst ++ [(a, b, p)], e2 ∈ procesadas ++ [(a, b, p)] := by
        intro e2 he2
        rcases List.mem_append.mp he2 with h | h
        · exact List.mem_append.mpr (Or.inl (hCsub e2 h))
        · exact List.mem_append.mpr (Or.inr h)
      have hpeso2 : peso + p = pesoTotal (mst ++ [(a, b, p)]) := by
        rw [pesoTotal_append, hpeso]
        rfl
      by_cases hbreak : (mst ++ [(a, b, p)]).length = (nodosDe aristas).length - 1
      · -- early break: the forest is already spanning
        have hnd : (nodosDe aristas).Nodup := nodosDe_nodup aristas
        have hsubA : ∀ e2 ∈ mst ++ [(a, b, p)], e2 ∈ aristas := by
          intro e2 he2
          rcases List.mem_append.mp (hCsub2 e2 he2) with h | h
          · refine (aristasOrdenadas_perm aristas).mem_iff.mp ?_
            rw [hsplit]
            exact List.mem_append.mpr (Or.inl h)
          · rcases List.mem_singleton.mp h with rfl
            exact hmem_ar
        have hends : ∀ e2 ∈ mst ++ [(a, b, p)],
            e2.1 ∈ nodosDe aristas ∧ e2.2.1 ∈ nodosDe aristas := by
          intro e2 he2
          exact ⟨mem_nodosDe.mpr ⟨e2, hsubA e2 he2, Or.inl rfl⟩,
            mem_nodosDe.mpr ⟨e2, hsubA e2 he2, Or.inr rfl⟩⟩
        have hcount := bosque_count hnd hbos2 hends
        have hpos : 0 < (nodosDe aristas).length := List.length_pos.mpr
          (fun hnil => by rw [hnil] at ha; cases ha)
        have hone : numClases (mst ++ [(a, b, p)]) (nodosDe aristas) = 1 := by
          omega
        refine ⟨mst ++ [(a, b, p)], peso + p, ?_, hsubA, hbos2, hpeso2, ?_⟩
        · simp only [kruskalLoop]
          rw [hunir]
          show (if (mst ++ [(a, b, p)]).length = (nodosDe aristas).length - 1
            then some (mst ++ [(a, b, p)], peso + p)
            else kruskalLoop (nodosDe aristas).length uf2 (mst ++ [(a, b, p)])
              (peso + p) resto) = _
          rw [if_pos hbreak]
        · intro e2 he2
          have he2s : e2 ∈ aristasOrdenadas aristas :=
            (aristasOrdenadas_perm aristas).mem_iff.mpr he2
          rw [hsplit] at he2s
          rcases List.mem_append.mp he2s with h | h
          · exact alcanza_hasta_extend (hF e2 h)
          rcases List.mem_cons.mp h with h | h
          · subst h
            refine @alcanza_de_arista _ (a, b, p) ?_
            exact mem_hasta.mpr ⟨List.mem_append.mpr
              (Or.inr (List.mem_singleton.mpr rfl)), le_refl _⟩
          · -- unprocessed edge: the whole accepted forest is lighter
            have hCw2 : ∀ k ∈ mst ++ [(a, b, p)], pesoDe k ≤ pesoDe e2 := by
              intro k hk
              rcases List.mem_append.mp (hCsub2 k hk) with h2 | h2
              · exact hcross k h2 e2 (List.mem_cons_of_mem _ h)
              · rcases List.mem_singleton.mp h2 with rfl
                exact hhead e2 h
            rw [hasta_eq_self hCw2]
            exact numClases_one_conecta hone
              (mem_nodosDe.mpr ⟨e2, he2, Or.inl rfl⟩)
              (mem_nodosDe.mpr ⟨e2, he2, Or.inr rfl⟩)
      · have hB2' : ∀ x ∈ nodosDe aristas, ∀ y ∈ nodosDe aristas,
            (rootD uf2 x = rootD uf2 y ↔ Alcanza (mst ++ [(a, b, p)]) x y) := hB2
        obtain ⟨K, w, hloop, hsub, hbK, hwK, hcov⟩ := ih uf2 (mst ++ [(a, b, p)])
          (peso + p) (procesadas ++ [(a, b, p)]) hsplit2 hbuf2 hclaves2 hB2'
          hCsub2 hbos2 hpeso2 hF2
        refine ⟨K, w, ?_, hsub, hbK, hwK, hcov⟩
        simp only [kruskalLoop]
        rw [hunir]
        show (if (mst ++ [(a, b, p)]).length = (nodosDe aristas).length - 1
          then some (mst ++ [(a, b, p)], peso + p)
          else kruskalLoop (nodosDe aristas).length uf2 (mst ++ [(a, b, p)])
            (peso + p) resto) = _
        rw [if_neg hbreak]
        exact hloop

/-- What `kruskal` returns on a non-empty edge list: an acyclic selection
of input edges whose total weight is the reported weight, covering every
input edge with accepted edges of no larger weight. -/
theorem kruskal_facts (aristas : List Arista) (hne : aristas ≠ []) :
    ∃ K w, kruskal aristas = (K, w) ∧
      (∀ e ∈ K, e ∈ aristas) ∧ Bosque K ∧ w = pesoTotal K ∧
      (∀ e ∈ aristas, Alcanza K e.1 e.2.1) ∧
      (∀ c x y, Alcanza (hasta aristas c) x y → Alcanza (hasta K c) x y) := by
  have hB0 : ∀ x ∈ nodosDe aristas, ∀ y ∈ nodosDe aristas,
      (rootD (ufInit (nodosDe aristas)) x = rootD (ufInit (nodosDe aristas)) y
        ↔ Alcanza [] x y) := by
    intro x _ y _
    rw [rootD_init, rootD_init, alcanza_nil]
  obtain ⟨K, w, hloop, hsub, hbK, hwK, hcov⟩ := kruskalLoop_master aristas
    (aristasOrdenadas aristas) (ufInit (nodosDe aristas)) [] 0 []
    (by simp) (buenUF_init (nodosDe_nodup aristas)) (ufInit_claves _) hB0
    (by simp) bosque_nil rfl (by simp)
  have hO : kruskalO aristas = some (K, w) := by
    rw [kruskalO, if_neg hne]
    exact hloop
  refine ⟨K, w, ?_, hsub, hbK, hwK, ?_, ?_⟩
  · rw [kruskal, hO]
    rfl
  · intro e he
    exact alcanza_mono hasta_subset (hcov e he)
  · intro c x y hxy
    refine alcanza_por_ady ?_ hxy
    intro e2 he2
    obtain ⟨he2a, hle⟩ := mem_hasta.mp he2
    exact alcanza_mono (hasta_mono_c hle) (hcov e2 he2a)

/-! ## The adjacency dict built by `construirGrafo` -/

/-- One edge of the construction appends the far endpoint to each
endpoint's adjacency list and touches no other list. -/
theorem construirGrafo_paso (g : List (Nodo × List (Nodo × Nat))) (e : Arista)
    (u : Nodo) :
    (dget (
      let g1 := if (dget g e.1).isSome then g else dset g e.1 []
      let g2 := if (dget g1 e.2.1).isSome then g1 else dset g1 e.2.1 []
      let g3 := dset g2 e.1 ((dget g2 e.1).getD [] ++ [(e.2.1, e.2.2)])
      dset g3 e.2.1 ((dget g3 e.2.1).getD [] ++ [(e.1, e.2.2)])) u).getD []
    = (dget g u).getD []
      ++ (if u = e.1 then [(e.2.1, e.2.2)] else [])
      ++ (if u = e.2.1 then [(e.1, e.2.2)] else []) := by
  have hfill : ∀ (d : List (Nodo × List (Nodo × Nat))) (k v : Nodo),
      (dget (if (dget d k).isSome then d else dset d k []) v).getD ([] : List (Nodo × Nat))
        = (dget d v).getD [] := by
    intro d k v
    by_cases hs : (dget d k).isSome
    · rw [if_pos hs]
    · rw [if_neg hs]
      by_cases hv : k = v
      · subst hv
        rw [dget_dset_self]
        rcases ho : dget d k with _ | l
        · rfl
        · rw [ho] at hs
          simp at hs
      · rw [dget_dset_ne hv]
  show (dget (dset (dset
      (if (dget (if (dget g e.1).isSome then g else dset g e.1 []) e.2.1).isSome
        then (if (dget g e.1).isSome then g else dset g e.1 [])
        else dset (if (dget g e.1).isSome then g else dset g e.1 []) e.2.1 [])
      e.1 ((dget (if (dget (if (dget g e.1).isSome then g else dset g e.1 []) e.2.1).isSome
        then (if (dget g e.1).isSome then g else dset g e.1 [])
        else dset (if (dget g e.1).isSome then g else dset g e.1 []) e.2.1 []) e.1).getD []
          ++ [(e.2.1, e.2.2)]))
      e.2.1 _) u).getD [] = _
  set g2 := if (dget (if (dget g e.1).isSome then g else dset g e.1 []) e.2.1).isSome
    then (if (dget g e.1).isSome then g else dset g e.1 [])
    else dset (if (dget g e.1).isSome then g else dset g e.1 []) e.2.1 [] with hg2def
  have hg2 : ∀ v, (dget g2 v).getD ([] : List (Nodo × Nat)) = (dget g v).getD [] := by
    intro v
    rw [hg2def, hfill, hfill]
  set g3 := dset g2 e.1 ((dget g2 e.1).getD [] ++ [(e.2.1, e.2.2)]) with hg3def
  have hg3 : ∀ v, (dget g3 v).getD ([] : List (Nodo × Nat))
      = (dget g v).getD [] ++ (if v = e.1 then [(e.2.1, e.2.2)] else []) := by
    intro v
    by_cases hv : v = e.1
    · subst hv
      rw [hg3def, dget_dset_self, if_pos rfl]
      simp [hg2]
    · rw [hg3def, dget_dset_ne (fun h => hv h.symm), if_neg hv, hg2]
      simp
  by_cases hv2 : u = e.2.1
  · subst hv2
    rw [dget_dset_self]
    simp only [Option.getD_some]
    rw [hg3]
    simp
  · rw [dget_dset_ne (fun h => hv2 h.symm), hg3, if_neg hv2]
    simp

theorem construirGrafo_adj_aux :
    ∀ (l : List Arista) (g : List (Nodo × List (Nodo × Nat))) (u : Nodo)
      (pr : Nodo × Nat),
      pr ∈ (dget (l.foldl (fun g e =>
          let g1 := if (dget g e.1).isSome then g else dset g e.1 []
          let g2 := if (dget g1 e.2.1).isSome then g1 else dset g1 e.2.1 []
          let g3 := dset g2 e.1 ((dget g2 e.1).getD [] ++ [(e.2.1, e.2.2)])
          dset g3 e.2.1 ((dget g3 e.2.1).getD [] ++ [(e.1, e.2.2)])) g) u).getD [] ↔
        pr ∈ (dget g u).getD [] ∨ (u, pr.1, pr.2) ∈ l ∨ (pr.1, u, pr.2) ∈ l := by
  intro l
  induction l with
  | nil =>
    intro g u pr
    simp
  | cons e resto ih =>
    intro g u pr
    obtain ⟨a1, b1, w1⟩ := e
    obtain ⟨q, r⟩ := pr
    rw [List.foldl_cons, ih]
    rw [show (dget (
        let g1 := if (dget g a1).isSome then g else dset g a1 []
        let g2 := if (dget g1 b1).isSome then g1 else dset g1 b1 []
        let g3 := dset g2 a1 ((dget g2 a1).getD [] ++ [(b1, w1)])
        dset g3 b1 ((dget g3 b1).getD [] ++ [(a1, w1)])) u).getD []
      = (dget g u).getD [] ++ (if u = a1 then [(b1, w1)] else [])
        ++ (if u = b1 then [(a1, w1)] else [])
      from construirGrafo_paso g (a1, b1, w1) u]
    simp only [List.mem_append, List.mem_cons, Prod.mk.injEq]
    by_cases h1 : u = a1 <;> by_cases h2 : u = b1 <;>
      simp [h1, h2] <;> tauto

/-- Membership in an adjacency list of `construirGrafo`: exactly the input
edges at that endpoint, in either orientation. -/
theorem mem_construirGrafo {aristas : List Arista} {u : Nodo} {pr : Nodo × Nat} :
    pr ∈ (dget (construirGrafo aristas) u).getD [] ↔
      (u, pr.1, pr.2) ∈ aristas ∨ (pr.1, u, pr.2) ∈ aristas := by
  rw [construirGrafo, construirGrafo_adj_aux]
  simp [dget]

theorem construirGrafo_length (aristas : List Arista) :
    (construirGrafo aristas).length = (nodosDe aristas).length := by
  rw [← construirGrafo_keys]
  simp

/-! ## The Prim heap on its sorted-list model -/

theorem mem_heapPush {x y : EntradaPrim} :
    ∀ {l : List EntradaPrim}, y ∈ heapPush x l ↔ y = x ∨ y ∈ l := by
  intro l
  induction l with
  | nil => simp [heapPush]
  | cons z zs ih =>
    rw [heapPush]
    by_cases h : entradaLe x z
    · rw [if_pos h]
      simp [List.mem_cons]
    · rw [if_neg h]
      simp only [List.mem_cons, ih]
      tauto

theorem entradaLe_peso {x y : EntradaPrim} (h : entradaLe x y = true) :
    x.1 ≤ y.1 := by
  unfold entradaLe at h
  split_ifs at h <;> omega

theorem entradaLe_peso_neg {x y : EntradaPrim} (h : entradaLe x y = false) :
    y.1 ≤ x.1 := by
  unfold entradaLe at h
  split_ifs at h <;> first | omega | cases h

theorem heapPush_pairwise {x : EntradaPrim} {l : List EntradaPrim}
    (hl : List.Pairwise (fun a b : EntradaPrim => a.1 ≤ b.1) l) :
    List.Pairwise (fun a b : EntradaPrim => a.1 ≤ b.1) (heapPush x l) := by
  induction l with
  | nil => simp [heapPush]
  | cons z zs ih =>
    obtain ⟨hz, hzs⟩ := List.pairwise_cons.mp hl
    rw [heapPush]
    by_cases h : entradaLe x z
    · rw [if_pos h]
      refine List.pairwise_cons.mpr ⟨?_, hl⟩
      intro b hb
      rcases List.mem_cons.mp hb with rfl | hb2
      · exact entradaLe_peso h
      · exact le_trans (entradaLe_peso h) (hz b hb2)
    · rw [if_neg h]
      refine List.pairwise_cons.mpr ⟨?_, ih hzs⟩
      intro b hb
      rcases mem_heapPush.mp hb with rfl | hb2
      · exact entradaLe_peso_neg (Bool.eq_false_iff.mpr h)
      · exact hz b hb2

theorem mem_fold_push (inicio : Nodo) :
    ∀ (l : List (Nodo × Nat)) (acc : List EntradaPrim) (y : EntradaPrim),
      y ∈ l.foldl (fun acc pr => heapPush (pr.2, inicio, pr.1) acc) acc ↔
        y ∈ acc ∨ ∃ pr ∈ l, y = (pr.2, inicio, pr.1) := by
  intro l
  induction l with
  | nil =>
    intro acc y
    simp
  | cons pr l ih =>
    intro acc y
    rw [List.foldl_cons, ih]
    rw [mem_heapPush]
    simp only [List.mem_cons]
    constructor
    · rintro ((rfl | h) | ⟨pr2, h2, h3⟩)
      · exact Or.inr ⟨pr, Or.inl rfl, rfl⟩
      · exact Or.inl h
      · exact Or.inr ⟨pr2, Or.inr h2, h3⟩
    · rintro (h | ⟨pr2, (rfl | h2), h3⟩)
      · exact Or.inl (Or.inr h)
      · exact Or.inl (Or.inl h3)
      · exact Or.inr ⟨pr2, h2, h3⟩

theorem fold_push_pairwise (inicio : Nodo) :
    ∀ (l : List (Nodo × Nat)) (acc : List EntradaPrim),
      List.Pairwise (fun a b : EntradaPrim => a.1 ≤ b.1) acc →
      List.Pairwise (fun a b : EntradaPrim => a.1 ≤ b.1)
        (l.foldl (fun acc pr => heapPush (pr.2, inicio, pr.1) acc) acc) := by
  intro l
  induction l with
  | nil => exact fun acc h => h
  | cons pr l ih =>
    intro acc hacc
    rw [List.foldl_cons]
    exact ih _ (heapPush_pairwise hacc)

theorem mem_fold_push_si (b : Nodo) (vis2 : List Nodo) :
    ∀ (l : List (Nodo × Nat)) (acc : List EntradaPrim) (y : EntradaPrim),
      y ∈ l.foldl (fun acc pr =>
          if pr.1 ∈ vis2 then acc else heapPush (pr.2, b, pr.1) acc) acc ↔
        y ∈ acc ∨ ∃ pr ∈ l, pr.1 ∉ vis2 ∧ y = (pr.2, b, pr.1) := by
  intro l
  induction l with
  | nil =>
    intro acc y
    simp
  | cons pr l ih =>
    intro acc y
    rw [List.foldl_cons, ih]
    by_cases hmem : pr.1 ∈ vis2
    · rw [if_pos hmem]
      simp only [List.mem_cons]
      constructor
      · rintro (h | ⟨pr2, h2, h3, h4⟩)
        · exact Or.inl h
        · exact Or.inr ⟨pr2, Or.inr h2, h3, h4⟩
      · rintro (h | ⟨pr2, (rfl | h2), h3, h4⟩)
        · exact Or.inl h
        · exact absurd hmem h3
        · exact Or.inr ⟨pr2, h2, h3, h4⟩
    · rw [if_neg hmem, mem_heapPush]
      simp only [List.mem_cons]
      constructor
      · rintro ((rfl | h) | ⟨pr2, h2, h3, h4⟩)
        · exact Or.inr ⟨pr, Or.inl rfl, hmem, rfl⟩
        · exact Or.inl h
        · exact Or.inr ⟨pr2, Or.inr h2, h3, h4⟩
      · rintro (h | ⟨pr2, (rfl | h2), h3, h4⟩)
        · exact Or.inl (Or.inr h)
        · exact Or.inl (Or.inl h4)
        · exact Or.inr ⟨pr2, h2, h3, h4⟩

theorem fold_push_si_pairwise (b : Nodo) (vis2 : List Nodo) :
    ∀ (l : List (Nodo × Nat)) (acc : List EntradaPrim),
      List.Pairwise (fun a b : EntradaPrim => a.1 ≤ b.1) acc →
      List.Pairwise (fun a b : EntradaPrim => a.1 ≤ b.1)
        (l.foldl (fun acc pr =>
          if pr.1 ∈ vis2 then acc else heapPush (pr.2, b, pr.1) acc) acc) := by
  intro l
  induction l with
  | nil => exact fun acc h => h
  | cons pr l ih =>
    intro acc hacc
    rw [List.foldl_cons]
    by_cases hmem : pr.1 ∈ vis2
    · rw [if_pos hmem]
      exact ih _ hacc
    · rw [if_neg hmem]
      exact ih _ (heapPush_pairwise hacc)

/-- A duplicate-free list at least as long as a superlist exhausts it. -/
theorem lista_llena {l1 l2 : List Nodo} (hnd : l1.Nodup)
    (hsub : ∀ x ∈ l1, x ∈ l2) (hlen : l2.length ≤ l1.length) :
    ∀ x ∈ l2, x ∈ l1 := by
  intro x hx
  have hfin : l1.toFinset ⊆ l2.toFinset := by
    intro y hy
    rw [List.mem_toFinset] at *
    exact hsub y hy
  have hc1 : l1.toFinset.card = l1.length := List.toFinset_card_of_nodup hnd
  have hc2 : l2.toFinset.card ≤ l2.length := List.toFinset_card_le l2
  have heq : l1.toFinset = l2.toFinset :=
    Finset.eq_of_subset_of_card_le hfin (by omega)
  rw [← List.mem_toFinset, ← heq, List.mem_toFinset] at hx
  exact hx

/-! ## The Prim loop -/

/-- Master lemma for the `while` loop of `prim`: the visited list grows a
tree edge by edge, the heap holds every crossing edge, popped entries are
cut minima, and at exit the visited list is exactly the start component. -/
theorem primLoop_master (aristas : List Arista) (inicio : Nodo) :
    ∀ (k : Nat) (heap : List EntradaPrim) (vis : List Nodo) (mst : List Arista)
      (peso : Nat),
    (construirGrafo aristas).length - vis.length ≤ k →
    vis.Nodup → (∀ v ∈ vis, v ∈ nodosDe aristas) → inicio ∈ vis →
    (∀ e ∈ mst, e.1 ∈ vis ∧ e.2.1 ∈ vis ∧
      ((e.1, e.2.1, e.2.2) ∈ aristas ∨ (e.2.1, e.1, e.2.2) ∈ aristas)) →
    mst.length + 1 = vis.length → Bosque mst →
    peso = pesoTotal mst →
    (∀ v ∈ vis, Alcanza mst inicio v) →
    (∀ en ∈ heap, en.2.1 ∈ vis ∧
      ((en.2.1, en.2.2, en.1) ∈ aristas ∨ (en.2.2, en.2.1, en.1) ∈ aristas)) →
    (∀ u v w, u ∈ vis → v ∉ vis →
      ((u, v, w) ∈ aristas ∨ (v, u, w) ∈ aristas) → (w, u, v) ∈ heap) →
    List.Pairwise (fun x y : EntradaPrim => x.1 ≤ y.1) heap →
    (∀ c x y, x ∈ vis → y ∈ vis →
      Alcanza (hasta aristas c) x y → Alcanza (hasta mst c) x y) →
    ∃ (mstF : List Arista) (pesoF : Nat) (visF : List Nodo),
      primLoop (construirGrafo aristas) vis heap mst peso = (mstF, pesoF) ∧
      visF.Nodup ∧ (∀ v ∈ visF, v ∈ nodosDe aristas) ∧ inicio ∈ visF ∧
      (∀ e ∈ mstF, e.1 ∈ visF ∧ e.2.1 ∈ visF ∧
        ((e.1, e.2.1, e.2.2) ∈ aristas ∨ (e.2.1, e.1, e.2.2) ∈ aristas)) ∧
      mstF.length + 1 = visF.length ∧ Bosque mstF ∧ pesoF = pesoTotal mstF ∧
      (∀ v ∈ visF, Alcanza mstF inicio v) ∧
      (∀ c x y, x ∈ visF → y ∈ visF →
        Alcanza (hasta aristas c) x y → Alcanza (hasta mstF c) x y) ∧
      (∀ v ∈ nodosDe aristas, Alcanza aristas inicio v → v ∈ visF) := by
  intro k
  induction k using Nat.strong_induction_on with
  | _ k ihk =>
  intro heap
  induction heap with
  | nil =>
    intro vis mst peso hk hI1 hI2 hI3 hI4 hI5 hI6 hI7 hI8 hI9 hI10 hI11 hI12
    -- empty heap: the visited set is adjacency-closed
    refine ⟨mst, peso, vis, by rw [primLoop], hI1, hI2, hI3, hI4, hI5, hI6, hI7,
      hI8, hI12, ?_⟩
    intro v _ hreach
    refine cerrado_absorbe ?_ hI3 hreach
    intro e he
    constructor
    · intro h1
      by_contra h2
      have := hI10 e.1 e.2.1 e.2.2 h1 h2 (Or.inl he)
      simp at this
    · intro h1
      by_contra h2
      have := hI10 e.2.1 e.1 e.2.2 h1 h2 (Or.inr he)
      simp at this
  | cons hd resto ihh =>
    obtain ⟨p, a, b⟩ := hd
    intro vis mst peso hk hI1 hI2 hI3 hI4 hI5 hI6 hI7 hI8 hI9 hI10 hI11 hI12
    by_cases hv : vis.length < (construirGrafo aristas).length
    · by_cases hbv : b ∈ vis
      · -- stale entry: far endpoint already visited, discard
        have hI9' : ∀ en ∈ resto, en.2.1 ∈ vis ∧
            ((en.2.1, en.2.2, en.1) ∈ aristas ∨ (en.2.2, en.2.1, en.1) ∈ aristas) :=
          fun en hen => hI9 en (List.mem_cons_of_mem _ hen)
        have hI10' : ∀ u v w, u ∈ vis → v ∉ vis →
            ((u, v, w) ∈ aristas ∨ (v, u, w) ∈ aristas) → (w, u, v) ∈ resto := by
          intro u v w hu hvn hav
          rcases List.mem_cons.mp (hI10 u v w hu hvn hav) with heq | h
          · simp only [Prod.mk.injEq] at heq
            obtain ⟨-, -, rfl⟩ := heq
            exact absurd hbv hvn
          · exact h
        obtain ⟨mstF, pesoF, visF, hrun, h1, h2, h3, h4, h5, h6, h7, h8, h12, hcc⟩ :=
          ihh vis mst peso hk hI1 hI2 hI3 hI4 hI5
            hI6 hI7 hI8 hI9' hI10' (List.pairwise_cons.mp hI11).2 hI12
        refine ⟨mstF, pesoF, visF, ?_, h1, h2, h3, h4, h5, h6, h7, h8, h12, hcc⟩
        rw [primLoop, dif_pos hv, if_pos hbv]
        exact hrun
      · -- fresh entry: accept the edge, visit the far endpoint
        obtain ⟨hain, havail⟩ := hI9 (p, a, b) (List.mem_cons_self _ _)
        have hbns : b ∈ nodosDe aristas := by
          rcases havail with h | h
          · exact mem_nodosDe.mpr ⟨(a, b, p), h, Or.inr rfl⟩
          · exact mem_nodosDe.mpr ⟨(b, a, p), h, Or.inl rfl⟩
        have hbvis2 : b ∈ vis ++ [b] :=
          List.mem_append.mpr (Or.inr (List.mem_singleton.mpr rfl))
        have hsubvis : ∀ v ∈ vis, v ∈ vis ++ [b] :=
          fun v hv2 => List.mem_append.mpr (Or.inl hv2)
        have hmem_vis2 : ∀ v, v ∈ vis ++ [b] ↔ v ∈ vis ∨ v = b := by
          intro v
          rw [List.mem_append, List.mem_singleton]
        have hptail : ∀ en ∈ resto, p ≤ en.1 := (List.pairwise_cons.mp hI11).1
        -- any weight-bounded escape from the visited set crosses the cut,
        -- and the popped entry is a cut minimum
        have hcut : ∀ c z x, x ∈ vis → Alcanza (hasta aristas c) x z →
            z ∈ vis ∨ p ≤ c := by
          intro c z x hx hxz
          induction hxz with
          | refl => exact Or.inl hx
          | tail hsteps hstep ih =>
            rename_i mid nxt
            rcases ih with hmid | hple
            · obtain ⟨w, hw | hw⟩ := hstep
              · obtain ⟨hwar, hwle⟩ := mem_hasta.mp hw
                by_cases hnxt : nxt ∈ vis
                · exact Or.inl hnxt
                · right
                  have hmemheap := hI10 mid nxt w hmid hnxt (Or.inl hwar)
                  have hpw : p ≤ w := by
                    rcases List.mem_cons.mp hmemheap with heq | hmemr
                    · simp only [Prod.mk.injEq] at heq
                      obtain ⟨h1, -, -⟩ := heq
                      omega
                    · exact hptail _ hmemr
                  exact le_trans hpw hwle
              · obtain ⟨hwar, hwle⟩ := mem_hasta.mp hw
                by_cases hnxt : nxt ∈ vis
                · exact Or.inl hnxt
                · right
                  have hmemheap := hI10 mid nxt w hmid hnxt (Or.inr hwar)
                  have hpw : p ≤ w := by
                    rcases List.mem_cons.mp hmemheap with heq | hmemr
                    · simp only [Prod.mk.injEq] at heq
                      obtain ⟨h1, -, -⟩ := heq
                      omega
                    · exact hptail _ hmemr
                  exact le_trans hpw hwle
            · exact Or.inr hple
        have hedge2 : ∀ c, p ≤ c → ady (hasta aristas c) a b := by
          intro c hpc
          rcases havail with h | h
          · exact ⟨p, Or.inl (mem_hasta.mpr ⟨h, hpc⟩)⟩
          · exact ⟨p, Or.inr (mem_hasta.mpr ⟨h, hpc⟩)⟩
        have hedge3 : ∀ c, p ≤ c → ady (hasta (mst ++ [(a, b, p)]) c) a b := by
          intro c hpc
          exact ⟨p, Or.inl (mem_hasta.mpr ⟨List.mem_append.mpr
            (Or.inr (List.mem_singleton.mpr rfl)), hpc⟩)⟩
        have hkey : ∀ c x, x ∈ vis → Alcanza (hasta aristas c) x b →
            Alcanza (hasta (mst ++ [(a, b, p)]) c) x b := by
          intro c x hx hxb
          have hpc : p ≤ c := by
            rcases hcut c b x hx hxb with h | h
            · exact absurd h hbv
            · exact h
          have hxa : Alcanza (hasta aristas c) x a :=
            hxb.tail (ady_symm (hedge2 c hpc))
          have hma : Alcanza (hasta (mst ++ [(a, b, p)]) c) x a :=
            alcanza_hasta_extend (hI12 c x a hx hain hxa)
          exact hma.tail (hedge3 c hpc)
        have hI12' : ∀ c x y, x ∈ vis ++ [b] → y ∈ vis ++ [b] →
            Alcanza (hasta aristas c) x y →
            Alcanza (hasta (mst ++ [(a, b, p)]) c) x y := by
          intro c x y hx hy hxy
          rcases (hmem_vis2 x).mp hx with hxv | rfl <;>
            rcases (hmem_vis2 y).mp hy with hyv | h
          · exact alcanza_hasta_extend (hI12 c x y hxv hyv hxy)
          · subst h
            exact hkey c x hxv hxy
          · exact alcanza_symm (hkey c y hyv (alcanza_symm hxy))
          · subst h
            exact alcanza_refl _
        have hI1' : (vis ++ [b]).Nodup :=
          hI1.append (List.nodup_singleton _)
            (fun v hv2 hvb => hbv ((List.mem_singleton.mp hvb) ▸ hv2))
        have hI2' : ∀ v ∈ vis ++ [b], v ∈ nodosDe aristas := by
          intro v hv2
          rcases (hmem_vis2 v).mp hv2 with h | rfl
          · exact hI2 v h
          · exact hbns
        have hI3' : inicio ∈ vis ++ [b] := hsubvis _ hI3
        have hI4' : ∀ e ∈ mst ++ [(a, b, p)], e.1 ∈ vis ++ [b] ∧
            e.2.1 ∈ vis ++ [b] ∧
            ((e.1, e.2.1, e.2.2) ∈ aristas ∨ (e.2.1, e.1, e.2.2) ∈ aristas) := by
          intro e he
          rcases List.mem_append.mp he with h | h
          · obtain ⟨h1, h2, h3⟩ := hI4 e h
            exact ⟨hsubvis _ h1, hsubvis _ h2, h3⟩
          · rcases List.mem_singleton.mp h with rfl
            exact ⟨hsubvis _ hain, hbvis2, havail⟩
        have hI5' : (mst ++ [(a, b, p)]).length + 1 = (vis ++ [b]).length := by
          simp only [List.length_append, List.length_singleton]
          omega
        have hnomst : ¬ Alcanza mst a b := by
          intro h
          rcases alcanza_mem_nodos h with heq | ⟨_, h2⟩
          · exact hbv (heq ▸ hain)
          · obtain ⟨e, he, hor⟩ := mem_nodosDe.mp h2
            obtain ⟨he1, he2, _⟩ := hI4 e he
            rcases hor with heq | heq
            · exact hbv (heq ▸ he1)
            · exact hbv (heq ▸ he2)
        have hI6' : Bosque (mst ++ [(a, b, p)]) := bosque_append_iff.mpr ⟨hI6, hnomst⟩
        have hI7' : peso + p = pesoTotal (mst ++ [(a, b, p)]) := by
          rw [pesoTotal_append, hI7]
          rfl
        have hI8' : ∀ v ∈ vis ++ [b], Alcanza (mst ++ [(a, b, p)]) inicio v := by
          intro v hv2
          rcases (hmem_vis2 v).mp hv2 with h | rfl
          · exact alcanza_mono (fun e he => List.mem_append.mpr (Or.inl he)) (hI8 v h)
          · refine (alcanza_mono (fun e he => List.mem_append.mpr (Or.inl he))
              (hI8 a hain)).tail ?_
            exact ⟨p, Or.inl (List.mem_append.mpr (Or.inr (List.mem_singleton.mpr rfl)))⟩
        set heap2 := ((dget (construirGrafo aristas) b).getD []).foldl
          (fun acc pr => if pr.1 ∈ vis ++ [b] then acc
            else heapPush (pr.2, b, pr.1) acc) resto with hheap2
        have hI9' : ∀ en ∈ heap2, en.2.1 ∈ vis ++ [b] ∧
            ((en.2.1, en.2.2, en.1) ∈ aristas ∨ (en.2.2, en.2.1, en.1) ∈ aristas) := by
          intro en hen
          rw [hheap2, mem_fold_push_si] at hen
          rcases hen with h | ⟨pr, hpr, hnm, rfl⟩
          · obtain ⟨h1, h2⟩ := hI9 en (List.mem_cons_of_mem _ h)
            exact ⟨hsubvis _ h1, h2⟩
          · exact ⟨hbvis2, mem_construirGrafo.mp hpr⟩
        have hI10' : ∀ u v w, u ∈ vis ++ [b] → v ∉ vis ++ [b] →
            ((u, v, w) ∈ aristas ∨ (v, u, w) ∈ aristas) → (w, u, v) ∈ heap2 := by
          intro u v w hu hvn hav
          have hvnb : v ≠ b := fun h => hvn (h ▸ hbvis2)
          have hvnv : v ∉ vis := fun h => hvn (hsubvis _ h)
          rcases (hmem_vis2 u).mp hu with huv | rfl
          · have hmemheap := hI10 u v w huv hvnv hav
            rcases List.mem_cons.mp hmemheap with heq | hmemr
            · simp only [Prod.mk.injEq] at heq
              exact absurd heq.2.2 hvnb
            · rw [hheap2, mem_fold_push_si]
              exact Or.inl hmemr
          · rw [hheap2, mem_fold_push_si]
            right
            exact ⟨(v, w), mem_construirGrafo.mpr hav, hvn, rfl⟩
        have hI11' : List.Pairwise (fun x y : EntradaPrim => x.1 ≤ y.1) heap2 := by
          rw [hheap2]
          exact fold_push_si_pairwise _ _ _ _ (List.pairwise_cons.mp hI11).2
        obtain ⟨mstF, pesoF, visF, hrun, h1, h2, h3, h4, h5, h6, h7, h8, h12, hcc⟩ :=
          ihk ((construirGrafo aristas).length - (vis ++ [b]).length)
            (by
              simp only [List.length_append, List.length_singleton]
              omega)
            heap2 (vis ++ [b]) (mst ++ [(a, b, p)]) (peso + p) (le_refl _)
            hI1' hI2' hI3' hI4' hI5' hI6' hI7' hI8' hI9' hI10' hI11' hI12'
        refine ⟨mstF, pesoF, visF, ?_, h1, h2, h3, h4, h5, h6, h7, h8, h12, hcc⟩
        rw [primLoop, dif_pos hv, if_neg hbv]
        exact hrun
    · -- the guard `len(visitados) < len(grafo)` failed: everything is visited
      have hglen : (construirGrafo aristas).length = (nodosDe aristas).length :=
        construirGrafo_length aristas
      have hfull : ∀ v ∈ nodosDe aristas, v ∈ vis := by
        refine lista_llena hI1 hI2 ?_
        omega
      refine ⟨mst, peso, vis, ?_, hI1, hI2, hI3, hI4, hI5, hI6, hI7, hI8, hI12, ?_⟩
      · rw [primLoop, dif_neg hv]
      · intro v hvns _
        exact hfull v hvns

/-- What `prim` returns with the default start node on a non-empty edge
list: a tree over the start component, built from input edges up to
orientation, whose weight-bounded connectivity dominates the graph's on the
visited set. -/
theorem prim_facts (aristas : List Arista) (hne : aristas ≠ []) :
    ∃ (P : List Arista) (w : Nat) (visF : List Nodo),
      prim aristas none = Except.ok (P, w) ∧
      visF.Nodup ∧ (∀ v ∈ visF, v ∈ nodosDe aristas) ∧
      (nodosDe aristas).headI ∈ visF ∧
      (∀ e ∈ P, e.1 ∈ visF ∧ e.2.1 ∈ visF ∧
        ((e.1, e.2.1, e.2.2) ∈ aristas ∨ (e.2.1, e.1, e.2.2) ∈ aristas)) ∧
      P.length + 1 = visF.length ∧ Bosque P ∧ w = pesoTotal P ∧
      (∀ v ∈ visF, Alcanza P ((nodosDe aristas).headI) v) ∧
      (∀ c x y, x ∈ visF → y ∈ visF →
        Alcanza (hasta aristas c) x y → Alcanza (hasta P c) x y) ∧
      (∀ v ∈ nodosDe aristas, Alcanza aristas ((nodosDe aristas).headI) v → v ∈ visF) := by
  obtain ⟨h0, t, hnd⟩ : ∃ h0 t, nodosDe aristas = h0 :: t := by
    rcases hx : nodosDe aristas with _ | ⟨h0, t⟩
    · exact absurd hx (nodosDe_ne_nil hne)
    · exact ⟨h0, t, rfl⟩
  have hheadI : (nodosDe aristas).headI = h0 := by
    rw [hnd]
    rfl
  have hkeys : (construirGrafo aristas).map Prod.fst = h0 :: t := by
    rw [construirGrafo_keys, hnd]
  obtain ⟨kv, g2, hg, hkv⟩ : ∃ kv g2, construirGrafo aristas = kv :: g2 ∧ kv.1 = h0 := by
    rcases hgx : construirGrafo aristas with _ | ⟨kv, g2⟩
    · rw [hgx] at hkeys
      cases hkeys
    · rw [hgx, List.map_cons] at hkeys
      rw [List.cons.injEq] at hkeys
      exact ⟨kv, g2, rfl, hkeys.1⟩
  have hini : ((((construirGrafo aristas).head?).map Prod.fst).getD "") = h0 := by
    rw [hg]
    simpa using hkv
  have hsome : (dget (construirGrafo aristas) h0).isSome := by
    rw [dget_isSome, construirGrafo_keys, hnd]
    exact List.mem_cons_self _ _
  rcases hvz : dget (construirGrafo aristas) h0 with _ | vecinos
  · rw [hvz] at hsome
    simp at hsome
  have hprim : prim aristas none = .ok (primLoop (construirGrafo aristas) [h0]
      (vecinos.foldl (fun acc pr => heapPush (pr.2, h0, pr.1) acc) []) [] 0) := by
    rw [prim, if_neg hne]
    show (match dget (construirGrafo aristas)
        ((((construirGrafo aristas).head?).map Prod.fst).getD "") with
      | none => Except.error "KeyError"
      | some vecinos => Except.ok (primLoop (construirGrafo aristas)
          [(((construirGrafo aristas).head?).map Prod.fst).getD ""]
          (vecinos.foldl (fun acc (pr : Nodo × Nat) => heapPush
            (pr.2, (((construirGrafo aristas).head?).map Prod.fst).getD "", pr.1) acc) [])
          [] 0)) = _
    rw [hini, hvz]
  have hI2 : ∀ v ∈ [h0], v ∈ nodosDe aristas := by
    intro v hv
    rcases List.mem_singleton.mp hv with rfl
    rw [hnd]
    exact List.mem_cons_self _ _
  have hI8 : ∀ v ∈ [h0], Alcanza ([] : List Arista) h0 v := by
    intro v hv
    rcases List.mem_singleton.mp hv with rfl
    exact alcanza_refl _
  have hI9 : ∀ en ∈ (vecinos.foldl (fun acc pr => heapPush (pr.2, h0, pr.1) acc) []),
      en.2.1 ∈ [h0] ∧
        ((en.2.1, en.2.2, en.1) ∈ aristas ∨ (en.2.2, en.2.1, en.1) ∈ aristas) := by
    intro en hen
    rw [mem_fold_push] at hen
    rcases hen with h | ⟨pr, hpr, rfl⟩
    · cases h
    · refine ⟨List.mem_singleton.mpr rfl, ?_⟩
      have hpr2 : pr ∈ (dget (construirGrafo aristas) h0).getD [] := by
        rw [hvz]
        exact hpr
      exact mem_construirGrafo.mp hpr2
  have hI10 : ∀ u v w, u ∈ [h0] → v ∉ [h0] →
      ((u, v, w) ∈ aristas ∨ (v, u, w) ∈ aristas) →
      (w, u, v) ∈ (vecinos.foldl (fun acc pr => heapPush (pr.2, h0, pr.1) acc) []) := by
    intro u v w hu _ hav
    have hu0 : h0 = u := (List.mem_singleton.mp hu).symm
    subst hu0
    have hpr : ((v, w) : Nodo × Nat) ∈ (dget (construirGrafo aristas) h0).getD [] :=
      mem_construirGrafo.mpr hav
    rw [hvz] at hpr
    rw [mem_fold_push]
    exact Or.inr ⟨(v, w), hpr, rfl⟩
  have hI12 : ∀ c x y, x ∈ [h0] → y ∈ [h0] →
      Alcanza (hasta aristas c) x y → Alcanza (hasta ([] : List Arista) c) x y := by
    intro c x y hx hy _
    rcases List.mem_singleton.mp hx with rfl
    rcases List.mem_singleton.mp hy with rfl
    exact alcanza_refl _
  obtain ⟨mstF, pesoF, visF, hrun, h1, h2, h3, h4, h5, h6, h7, h8, h12, hcc⟩ :=
    primLoop_master aristas h0 (construirGrafo aristas).length
      (vecinos.foldl (fun acc pr => heapPush (pr.2, h0, pr.1) acc) [])
      [h0] [] 0 (Nat.sub_le _ _) (List.nodup_singleton _) hI2
      (List.mem_singleton.mpr rfl)
      (fun e he => absurd he (List.not_mem_nil e)) rfl bosque_nil rfl hI8 hI9 hI10
      (fold_push_pairwise h0 vecinos [] List.Pairwise.nil) hI12
  rw [hheadI]
  exact ⟨mstF, pesoF, visF, by rw [hprim, hrun], h1, h2, h3, h4, h5, h6, h7, h8,
    h12, hcc⟩

/-! ## Assembly lemmas for the two MST engines -/

theorem lista_eq_length {l1 l2 : List Nodo} (hnd1 : l1.Nodup) (hnd2 : l2.Nodup)
    (h12 : ∀ v ∈ l1, v ∈ l2) (h21 : ∀ v ∈ l2, v ∈ l1) : l1.length = l2.length := by
  rw [← List.toFinset_card_of_nodup hnd1, ← List.toFinset_card_of_nodup hnd2]
  congr 1
  ext v
  simp only [List.mem_toFinset]
  exact ⟨fun h => h12 v h, fun h => h21 v h⟩

theorem lista_menor {l1 l2 : List Nodo} (hnd1 : l1.Nodup)
    (hsub : ∀ v ∈ l1, v ∈ l2) {z : Nodo} (hz2 : z ∈ l2) (hz1 : z ∉ l1) :
    l1.length < l2.length := by
  have hfin : l1.toFinset ⊆ l2.toFinset.erase z := by
    intro w hw
    rw [List.mem_toFinset] at hw
    rw [Finset.mem_erase]
    exact ⟨fun h => hz1 (h ▸ hw), List.mem_toFinset.mpr (hsub w hw)⟩
  have hc1 : l1.toFinset.card = l1.length := List.toFinset_card_of_nodup hnd1
  have hc2 := Finset.card_le_card hfin
  have hc3 : (l2.toFinset.erase z).card < l2.toFinset.card :=
    Finset.card_erase_lt_of_mem (List.mem_toFinset.mpr hz2)
  have hc4 : l2.toFinset.card ≤ l2.length := List.toFinset_card_le l2
  omega

/-- Chains over edges available up to orientation transfer to the graph. -/
theorem alcanza_avail {aristas P : List Arista}
    (h4 : ∀ e ∈ P, (e.1, e.2.1, e.2.2) ∈ aristas ∨ (e.2.1, e.1, e.2.2) ∈ aristas)
    {u v : Nodo} (h : Alcanza P u v) : Alcanza aristas u v := by
  refine alcanza_por_ady ?_ h
  intro e he
  rcases h4 e he with ha | ha
  · exact alcanza_de_arista ha
  · exact alcanza_symm (alcanza_de_arista ha)

/-- The weight-bounded version of the transfer. -/
theorem alcanza_avail_hasta {aristas P : List Arista} {c : Nat}
    (h4 : ∀ e ∈ P, (e.1, e.2.1, e.2.2) ∈ aristas ∨ (e.2.1, e.1, e.2.2) ∈ aristas)
    {u v : Nodo} (h : Alcanza (hasta P c) u v) : Alcanza (hasta aristas c) u v := by
  refine alcanza_por_ady ?_ h
  intro e he
  obtain ⟨heP, hle⟩ := mem_hasta.mp he
  rcases h4 e heP with ha | ha
  · exact alcanza_de_arista (mem_hasta.mpr ⟨ha, hle⟩)
  · exact alcanza_symm (alcanza_de_arista (mem_hasta.mpr ⟨ha, hle⟩))

theorem pesoDe_le_total {aristas : List Arista} {e : Arista} (he : e ∈ aristas) :
    pesoDe e ≤ pesoTotal aristas :=
  List.single_le_sum (fun x _ => Nat.zero_le x) _ (List.mem_map_of_mem pesoDe he)

/-- Availability of the endpoints of an edge available up to orientation. -/
theorem avail_ends {aristas : List Arista} {e : Arista}
    (h : (e.1, e.2.1, e.2.2) ∈ aristas ∨ (e.2.1, e.1, e.2.2) ∈ aristas) :
    e.1 ∈ nodosDe aristas ∧ e.2.1 ∈ nodosDe aristas := by
  rcases h with h | h
  · exact ⟨mem_nodosDe.mpr ⟨_, h, Or.inl rfl⟩, mem_nodosDe.mpr ⟨_, h, Or.inr rfl⟩⟩
  · exact ⟨mem_nodosDe.mpr ⟨_, h, Or.inr rfl⟩, mem_nodosDe.mpr ⟨_, h, Or.inl rfl⟩⟩

/-! ## The Dijkstra heap and relaxation step -/

theorem mem_heapPushD {x y : EntradaDij} :
    ∀ {l : List EntradaDij}, y ∈ heapPushD x l ↔ y = x ∨ y ∈ l := by
  intro l
  induction l with
  | nil => simp [heapPushD]
  | cons z zs ih =>
    rw [heapPushD]
    by_cases h : entradaDijLe x z
    · rw [if_pos h]
      simp [List.mem_cons]
    · rw [if_neg h]
      simp only [List.mem_cons, ih]
      tauto

theorem entradaDijLe_peso {x y : EntradaDij} (h : entradaDijLe x y = true) :
    x.1 ≤ y.1 := by
  unfold entradaDijLe at h
  split_ifs at h <;> omega

theorem entradaDijLe_peso_neg {x y : EntradaDij} (h : entradaDijLe x y = false) :
    y.1 ≤ x.1 := by
  unfold entradaDijLe at h
  split_ifs at h <;> first | omega | cases h

theorem heapPushD_pairwise {x : EntradaDij} {l : List EntradaDij}
    (hl : List.Pairwise (fun a b : EntradaDij => a.1 ≤ b.1) l) :
    List.Pairwise (fun a b : EntradaDij => a.1 ≤ b.1) (heapPushD x l) := by
  induction l with
  | nil => simp [heapPushD]
  | cons z zs ih =>
    obtain ⟨hz, hzs⟩ := List.pairwise_cons.mp hl
    rw [heapPushD]
    by_cases h : entradaDijLe x z
    · rw [if_pos h]
      refine List.pairwise_cons.mpr ⟨?_, hl⟩
      intro b hb
      rcases List.mem_cons.mp hb with rfl | hb2
      · exact entradaDijLe_peso h
      · exact le_trans (entradaDijLe_peso h) (hz b hb2)
    · rw [if_neg h]
      refine List.pairwise_cons.mpr ⟨?_, ih hzs⟩
      intro b hb
      rcases mem_heapPushD.mp hb with rfl | hb2
      · exact entradaDijLe_peso_neg (Bool.eq_false_iff.mpr h)
      · exact hz b hb2

theorem relajar_eq (actual : Nodo) (d : Nat) (visitados : List Nodo)
    (st : List (Nodo × Option Nat) × List (Nodo × Nodo) × List EntradaDij)
    (vecinos : List (Nodo × Nat)) :
    relajar actual d visitados st vecinos
      = vecinos.foldl (relPaso actual d visitados) st := rfl

theorem relPaso_visitado {actual : Nodo} {d : Nat} {visitados : List Nodo}
    {st : List (Nodo × Option Nat) × List (Nodo × Nodo) × List EntradaDij}
    {pr : Nodo × Nat} (h : pr.1 ∈ visitados) :
    relPaso actual d visitados st pr = st := by
  rw [relPaso, if_pos h]

theorem relPaso_mejora {actual : Nodo} {d : Nat} {visitados : List Nodo}
    {st : List (Nodo × Option Nat) × List (Nodo × Nodo) × List EntradaDij}
    {pr : Nodo × Nat} (h : pr.1 ∉ visitados)
    (hlt : ltInf (d + pr.2) ((dget st.1 pr.1).getD none) = true) :
    relPaso actual d visitados st pr
      = (dset st.1 pr.1 (some (d + pr.2)), dset st.2.1 pr.1 actual,
         heapPushD (d + pr.2, pr.1) st.2.2) := by
  rw [relPaso, if_neg h]
  show (if ltInf (d + pr.2) ((dget st.1 pr.1).getD none) then _ else st) = _
  rw [if_pos hlt]

theorem relPaso_peor {actual : Nodo} {d : Nat} {visitados : List Nodo}
    {st : List (Nodo × Option Nat) × List (Nodo × Nodo) × List EntradaDij}
    {pr : Nodo × Nat} (h : pr.1 ∉ visitados)
    (hlt : ltInf (d + pr.2) ((dget st.1 pr.1).getD none) = false) :
    relPaso actual d visitados st pr = st := by
  rw [relPaso, if_neg h]
  show (if ltInf (d + pr.2) ((dget st.1 pr.1).getD none) then _ else st) = st
  rw [if_neg (by rw [hlt]; exact Bool.false_ne_true)]

/-- The relaxation fold preserves the Dijkstra loop invariants: consistent
predecessor entries, every unvisited recorded distance on the heap, the
heap weight-sorted and bounding recorded distances from above, the source
pinned at distance `0`, and the freshly visited node's distance frozen. -/
theorem relajar_inv (aristas : List Arista) (origen actual : Nodo) (d : Nat)
    (vis2 : List Nodo) (hact : actual ∈ vis2) :
    ∀ (vecinos : List (Nodo × Nat))
      (st : List (Nodo × Option Nat) × List (Nodo × Nodo) × List EntradaDij),
      (∀ pr ∈ vecinos, (actual, pr.1, pr.2) ∈ aristas ∨ (pr.1, actual, pr.2) ∈ aristas) →
      (∀ v u, dget st.2.1 v = some u → u ∈ vis2 ∧
        ∃ w du, ((u, v, w) ∈ aristas ∨ (v, u, w) ∈ aristas) ∧
          dget st.1 u = some (some du) ∧ dget st.1 v = some (some (du + w))) →
      (∀ v d2, v ∉ vis2 → dget st.1 v = some (some d2) → (d2, v) ∈ st.2.2) →
      List.Pairwise (fun x y : EntradaDij => x.1 ≤ y.1) st.2.2 →
      (∀ en ∈ st.2.2, ∃ d2, dget st.1 en.2 = some (some d2) ∧ d2 ≤ en.1) →
      dget st.1 origen = some (some 0) →
      dget st.1 actual = some (some d) →
      (∀ v u, dget (relajar actual d vis2 st vecinos).2.1 v = some u → u ∈ vis2 ∧
        ∃ w du, ((u, v, w) ∈ aristas ∨ (v, u, w) ∈ aristas) ∧
          dget (relajar actual d vis2 st vecinos).1 u = some (some du) ∧
          dget (relajar actual d vis2 st vecinos).1 v = some (some (du + w))) ∧
      (∀ v d2, v ∉ vis2 → dget (relajar actual d vis2 st vecinos).1 v = some (some d2) →
        (d2, v) ∈ (relajar actual d vis2 st vecinos).2.2) ∧
      List.Pairwise (fun x y : EntradaDij => x.1 ≤ y.1)
        (relajar actual d vis2 st vecinos).2.2 ∧
      (∀ en ∈ (relajar actual d vis2 st vecinos).2.2, ∃ d2,
        dget (relajar actual d vis2 st vecinos).1 en.2 = some (some d2) ∧ d2 ≤ en.1) ∧
      dget (relajar actual d vis2 st vecinos).1 origen = some (some 0) ∧
      dget (relajar actual d vis2 st vecinos).1 actual = some (some d) := by
  intro vecinos
  induction vecinos with
  | nil =>
    intro st _ hJ1 hJ2 hJ3 hJ6 hJ5 hda
    rw [relajar_eq, List.foldl_nil]
    exact ⟨hJ1, hJ2, hJ3, hJ6, hJ5, hda⟩
  | cons pr vecinos ih =>
    intro st hvec hJ1 hJ2 hJ3 hJ6 hJ5 hda
    rw [relajar_eq, List.foldl_cons, ← relajar_eq]
    have hvec2 : ∀ pr2 ∈ vecinos,
        (actual, pr2.1, pr2.2) ∈ aristas ∨ (pr2.1, actual, pr2.2) ∈ aristas :=
      fun pr2 h => hvec pr2 (List.mem_cons_of_mem _ h)
    by_cases hmem : pr.1 ∈ vis2
    · rw [relPaso_visitado hmem]
      exact ih st hvec2 hJ1 hJ2 hJ3 hJ6 hJ5 hda
    rcases hlt : ltInf (d + pr.2) ((dget st.1 pr.1).getD none) with _ | _
    · rw [relPaso_peor hmem hlt]
      exact ih st hvec2 hJ1 hJ2 hJ3 hJ6 hJ5 hda
    · rw [relPaso_mejora hmem hlt]
      have hne_actual : pr.1 ≠ actual := fun h => hmem (h ▸ hact)
      have hne_origen : pr.1 ≠ origen := by
        intro h
        rw [h, hJ5] at hlt
        simp [ltInf] at hlt
      refine ih _ hvec2 ?_ ?_ ?_ ?_ ?_ ?_
      · -- predecessor-entry consistency
        intro v u hv
        by_cases hvpr : v = pr.1
        · subst hvpr
          rw [dget_dset_self] at hv
          obtain rfl := Option.some.inj hv
          refine ⟨hact, pr.2, d, hvec pr (List.mem_cons_self _ _), ?_, ?_⟩
          · rw [dget_dset_ne hne_actual]
            exact hda
          · rw [dget_dset_self]
        · rw [dget_dset_ne (fun h => hvpr h.symm)] at hv
          obtain ⟨huv, w, du, hav, hdu, hdv⟩ := hJ1 v u hv
          have hupr : u ≠ pr.1 := fun h => hmem (h ▸ huv)
          refine ⟨huv, w, du, hav, ?_, ?_⟩
          · rw [dget_dset_ne (fun h => hupr h.symm)]
            exact hdu
          · rw [dget_dset_ne (fun h => hvpr h.symm)]
            exact hdv
      · -- unvisited recorded distances live on the heap
        intro v d2 hvn hd
        by_cases hvpr : v = pr.1
        · subst hvpr
          rw [dget_dset_self] at hd
          obtain rfl : d + pr.2 = d2 := Option.some.inj (Option.some.inj hd)
          exact mem_heapPushD.mpr (Or.inl rfl)
        · rw [dget_dset_ne (fun h => hvpr h.symm)] at hd
          exact mem_heapPushD.mpr (Or.inr (hJ2 v d2 hvn hd))
      · exact heapPushD_pairwise hJ3
      · -- heap entries bound the recorded distances
        intro en hen
        rcases mem_heapPushD.mp hen with rfl | hold
        · exact ⟨d + pr.2, by rw [dget_dset_self], le_refl _⟩
        · obtain ⟨d3, hd3, hle⟩ := hJ6 en hold
          by_cases hepr : en.2 = pr.1
          · rw [hepr] at hd3
            rw [hd3] at hlt
            simp only [Option.getD_some, ltInf] at hlt
            have hlt2 : d + pr.2 < d3 := by simpa using hlt
            refine ⟨d + pr.2, ?_, by omega⟩
            rw [hepr, dget_dset_self]
          · refine ⟨d3, ?_, hle⟩
            rw [dget_dset_ne (fun h => hepr h.symm)]
            exact hd3
      · rw [dget_dset_ne hne_origen]
        exact hJ5
      · rw [dget_dset_ne hne_actual]
        exact hda

/-- Master lemma for the main loop of `dijkstra`: popped entries carry the
current recorded distance of their node, and the final predecessor map
links every entry to a graph edge whose weight accounts exactly for the
difference of the final recorded distances. -/
theorem dijkstraLoop_master (aristas : List Arista) (origen : Nodo) :
    ∀ (k : Nat) (heap : List EntradaDij) (visitados : List Nodo)
      (distancias : List (Nodo × Option Nat)) (predecesores : List (Nodo × Nodo)),
    (construirGrafo aristas).length - visitados.length ≤ k →
    (∀ v u, dget predecesores v = some u → u ∈ visitados ∧
      ∃ w du, ((u, v, w) ∈ aristas ∨ (v, u, w) ∈ aristas) ∧
        dget distancias u = some (some du) ∧
        dget distancias v = some (some (du + w))) →
    (∀ v d2, v ∉ visitados → dget distancias v = some (some d2) → (d2, v) ∈ heap) →
    List.Pairwise (fun x y : EntradaDij => x.1 ≤ y.1) heap →
    (∀ en ∈ heap, ∃ d2, dget distancias en.2 = some (some d2) ∧ d2 ≤ en.1) →
    dget distancias origen = some (some 0) →
    ∃ df pf, dijkstraLoop (construirGrafo aristas) distancias predecesores
        visitados heap = (df, pf) ∧
      (∀ v u, dget pf v = some u →
        ∃ w du, ((u, v, w) ∈ aristas ∨ (v, u, w) ∈ aristas) ∧
          dget df u = some (some du) ∧ dget df v = some (some (du + w))) ∧
      dget df origen = some (some 0) := by
  intro k
  induction k using Nat.strong_induction_on with
  | _ k ihk =>
  intro heap
  induction heap with
  | nil =>
    intro visitados distancias predecesores hk hJ1 hJ2 hJ3 hJ6 hJ5
    refine ⟨distancias, predecesores, by rw [dijkstraLoop], ?_, hJ5⟩
    intro v u hv
    exact (hJ1 v u hv).2
  | cons hd resto ihh =>
    obtain ⟨d, actual⟩ := hd
    intro visitados distancias predecesores hk hJ1 hJ2 hJ3 hJ6 hJ5
    by_cases hvis : actual ∈ visitados
    · -- stale entry, skipped
      have hJ2' : ∀ v d2, v ∉ visitados → dget distancias v = some (some d2) →
          (d2, v) ∈ resto := by
        intro v d2 hvn hd2
        rcases List.mem_cons.mp (hJ2 v d2 hvn hd2) with heq | h
        · simp only [Prod.mk.injEq] at heq
          obtain ⟨-, rfl⟩ := heq
          exact absurd hvis hvn
        · exact h
      obtain ⟨df, pf, hrun, hA, hB⟩ := ihh visitados distancias predecesores hk hJ1
        hJ2' (List.pairwise_cons.mp hJ3).2
        (fun en hen => hJ6 en (List.mem_cons_of_mem _ hen)) hJ5
      refine ⟨df, pf, ?_, hA, hB⟩
      rw [dijkstraLoop, if_pos hvis]
      exact hrun
    · by_cases hv : visitados.length < (construirGrafo aristas).length
      · -- popped entry is a minimum: it carries the recorded distance
        have hdact : dget distancias actual = some (some d) := by
          obtain ⟨d2, hd2, hle⟩ := hJ6 (d, actual) (List.mem_cons_self _ _)
          have hmem := hJ2 actual d2 hvis hd2
          have hge : d ≤ d2 := by
            rcases List.mem_cons.mp hmem with heq | h
            · simp only [Prod.mk.injEq] at heq
              omega
            · exact (List.pairwise_cons.mp hJ3).1 _ h
          obtain rfl : d2 = d := by omega
          exact hd2
        have hact2 : actual ∈ visitados ++ [actual] :=
          List.mem_append.mpr (Or.inr (List.mem_singleton.mpr rfl))
        have hvecavail : ∀ pr ∈ ((dget (construirGrafo aristas) actual).getD []
            : List (Nodo × Nat)),
            (actual, pr.1, pr.2) ∈ aristas ∨ (pr.1, actual, pr.2) ∈ aristas :=
          fun pr hpr => mem_construirGrafo.mp hpr
        have hJ1v2 : ∀ v u, dget predecesores v = some u → u ∈ visitados ++ [actual] ∧
            ∃ w du, ((u, v, w) ∈ aristas ∨ (v, u, w) ∈ aristas) ∧
              dget distancias u = some (some du) ∧
              dget distancias v = some (some (du + w)) := by
          intro v u hv2
          obtain ⟨h1, h2⟩ := hJ1 v u hv2
          exact ⟨List.mem_append.mpr (Or.inl h1), h2⟩
        have hJ2r : ∀ v d2, v ∉ visitados ++ [actual] →
            dget distancias v = some (some d2) → (d2, v) ∈ resto := by
          intro v d2 hvn hd2
          have hvn1 : v ∉ visitados := fun h => hvn (List.mem_append.mpr (Or.inl h))
          have hvn2 : v ≠ actual := fun h => hvn (h ▸ hact2)
          rcases List.mem_cons.mp (hJ2 v d2 hvn1 hd2) with heq | h
          · simp only [Prod.mk.injEq] at heq
            exact absurd heq.2 hvn2
          · exact h
        obtain ⟨hK1, hK2, hK3, hK6, hK5, hKd⟩ := relajar_inv aristas origen actual d
          (visitados ++ [actual]) hact2
          ((dget (construirGrafo aristas) actual).getD [])
          (distancias, predecesores, resto)
          hvecavail hJ1v2 hJ2r (List.pairwise_cons.mp hJ3).2
          (fun en hen => hJ6 en (List.mem_cons_of_mem _ hen)) hJ5 hdact
        obtain ⟨df, pf, hrun, hA, hB⟩ := ihk
          ((construirGrafo aristas).length - (visitados ++ [actual]).length)
          (by
            simp only [List.length_append, List.length_singleton]
            omega)
          (relajar actual d (visitados ++ [actual]) (distancias, predecesores, resto)
            ((dget (construirGrafo aristas) actual).getD [])).2.2
          (visitados ++ [actual])
          (relajar actual d (visitados ++ [actual]) (distancias, predecesores, resto)
            ((dget (construirGrafo aristas) actual).getD [])).1
          (relajar actual d (visitados ++ [actual]) (distancias, predecesores, resto)
            ((dget (construirGrafo aristas) actual).getD [])).2.1
          (le_refl _) hK1 hK2 hK3 hK6 hK5
        refine ⟨df, pf, ?_, hA, hB⟩
        rw [dijkstraLoop, if_neg hvis, dif_pos hv]
        exact hrun
      · refine ⟨distancias, predecesores, ?_, fun v u hv2 => (hJ1 v u hv2).2, hJ5⟩
        rw [dijkstraLoop, if_neg hvis, dif_neg hv]

theorem dget_map_none (g : List (Nodo × List (Nodo × Nat))) (v : Nodo) :
    dget (g.map (fun kv => (kv.1, (none : Option Nat)))) v = none ∨
    dget (g.map (fun kv => (kv.1, (none : Option Nat)))) v = some none := by
  induction g with
  | nil => exact Or.inl rfl
  | cons kv g ih =>
    rw [List.map_cons]
    by_cases h : kv.1 = v
    · right
      show dget ((kv.1, none) :: _) v = some none
      simp [dget, h]
    · show (dget ((kv.1, none) :: _) v = none) ∨ _
      simpa [dget, h] using ih

/-- The final state of `dijkstra` on a present source: every predecessor
entry is justified by a graph edge whose weight is the exact distance
difference, and the source's distance is `0`. -/
theorem dijkstra_final (aristas : List Arista) (origen : Nodo)
    (hmem : origen ∈ nodosDe aristas) :
    ∃ df pf, dijkstra aristas origen = (df, pf) ∧
      (∀ v u, dget pf v = some u →
        ∃ w du, ((u, v, w) ∈ aristas ∨ (v, u, w) ∈ aristas) ∧
          dget df u = some (some du) ∧ dget df v = some (some (du + w))) ∧
      dget df origen = some (some 0) := by
  have hsome : (dget (construirGrafo aristas) origen).isSome := by
    rw [dget_isSome, construirGrafo_keys]
    exact hmem
  rcases hz : dget (construirGrafo aristas) origen with _ | vecs
  · rw [hz] at hsome
    simp at hsome
  have hJ1 : ∀ v u, dget ([] : List (Nodo × Nodo)) v = some u → u ∈ ([] : List Nodo) ∧
      ∃ w du, ((u, v, w) ∈ aristas ∨ (v, u, w) ∈ aristas) ∧
        dget (dset ((construirGrafo aristas).map (fun kv => (kv.1, (none : Option Nat))))
          origen (some 0)) u = some (some du) ∧
        dget (dset ((construirGrafo aristas).map (fun kv => (kv.1, (none : Option Nat))))
          origen (some 0)) v = some (some (du + w)) := by
    intro v u hv
    simp [dget] at hv
  have hJ2 : ∀ v d2, v ∉ ([] : List Nodo) →
      dget (dset ((construirGrafo aristas).map (fun kv => (kv.1, (none : Option Nat))))
        origen (some 0)) v = some (some d2) → (d2, v) ∈ [((0 : Nat), origen)] := by
    intro v d2 _ hd
    by_cases hvo : v = origen
    · subst hvo
      rw [dget_dset_self] at hd
      obtain rfl := Option.some.inj (Option.some.inj hd)
      exact List.mem_singleton.mpr rfl
    · rw [dget_dset_ne (fun h => hvo h.symm)] at hd
      rcases dget_map_none (construirGrafo aristas) v with h | h <;> rw [h] at hd
      · cases hd
      · cases Option.some.inj hd
  have hJ6 : ∀ en ∈ [((0 : Nat), origen)], ∃ d2,
      dget (dset ((construirGrafo aristas).map (fun kv => (kv.1, (none : Option Nat))))
        origen (some 0)) en.2 = some (some d2) ∧ d2 ≤ en.1 := by
    intro en hen
    rcases List.mem_singleton.mp hen with rfl
    exact ⟨0, dget_dset_self, le_refl _⟩
  obtain ⟨df, pf, hrun, hA, hB⟩ := dijkstraLoop_master aristas origen
    (construirGrafo aristas).length [((0 : Nat), origen)] []
    (dset ((construirGrafo aristas).map (fun kv => (kv.1, (none : Option Nat))))
      origen (some 0)) []
    (by simp) hJ1 hJ2 (List.pairwise_singleton _ _) hJ6 dget_dset_self
  refine ⟨df, pf, ?_, hA, hB⟩
  rw [dijkstra]
  show (match dget (construirGrafo aristas) origen with
    | none => (([] : List (Nodo × Option Nat)), ([] : List (Nodo × Nodo)))
    | some _ => dijkstraLoop (construirGrafo aristas)
        (dset ((construirGrafo aristas).map (fun kv => (kv.1, (none : Option Nat))))
          origen (some 0)) [] [] [(0, origen)]) = (df, pf)
  rw [hz]
  exact hrun

/-! ## Path reconstruction -/

/-- A non-empty result of the fuelled predecessor walk is the reverse of a
predecessor chain from the queried node back to the source. -/
theorem reconstruirAux_walk (predecesores : List (Nodo × Nodo)) (origen : Nodo) :
    ∀ (fuel : Nat) (actual : Nodo) (acc r : List Nodo),
      reconstruirAux predecesores origen fuel actual acc = r → r ≠ [] →
      ∃ resto, PredWalk predecesores origen actual resto ∧
        r = (acc ++ resto).reverse := by
  intro fuel
  induction fuel with
  | zero =>
    intro actual acc r h hne
    rw [reconstruirAux] at h
    subst h
    exact absurd rfl hne
  | succ fuel ih =>
    intro actual acc r h hne
    rw [reconstruirAux] at h
    by_cases heq : actual = origen
    · rw [if_pos heq] at h
      refine ⟨[origen], ?_, by rw [← h]⟩
      rw [heq]
      exact PredWalk.base
    · rw [if_neg heq] at h
      rcases hp : dget predecesores actual with _ | p
      · rw [hp] at h
        have h2 : ([] : List Nodo) = r := h
        subst h2
        exact absurd rfl hne
      · rw [hp] at h
        obtain ⟨resto, hw, hr⟩ := ih p (acc ++ [actual]) r h hne
        refine ⟨actual :: resto, PredWalk.paso heq hp hw, ?_⟩
        rw [hr, List.append_assoc]
        rfl

theorem Pares_concat : ∀ (l : List Nodo) (z x : Nodo), l.getLast? = some z →
    Pares (l ++ [x]) = Pares l ++ [(z, x)] := by
  intro l
  induction l with
  | nil =>
    intro z x h
    cases h
  | cons a t ih =>
    intro z x h
    rcases t with _ | ⟨b, t2⟩
    · obtain rfl : a = z := by simpa using h
      rfl
    · rw [List.getLast?_cons_cons] at h
      show (a, b) :: Pares ((b :: t2) ++ [x]) = ((a, b) :: Pares (b :: t2)) ++ [(z, x)]
      rw [ih z x h]
      rfl

theorem head?_append_ne {l l2 : List Nodo} (h : l ≠ []) :
    (l ++ l2).head? = l.head? := by
  rcases l with _ | ⟨a, t⟩
  · exact absurd rfl h
  · rfl

/-- Along a predecessor chain of a consistent final state, the reversed
path starts at the source, ends at the queried node, has monotonically
non-decreasing recorded distances, and its edge weights sum to the final
node's recorded distance. -/
theorem predwalk_ruta (aristas : List Arista) (origen : Nodo)
    (df : List (Nodo × Option Nat)) (pf : List (Nodo × Nodo))
    (hA : ∀ v u, dget pf v = some u →
      ∃ w du, ((u, v, w) ∈ aristas ∨ (v, u, w) ∈ aristas) ∧
        dget df u = some (some du) ∧ dget df v = some (some (du + w)))
    (hB : dget df origen = some (some 0)) :
    ∀ (v : Nodo) (resto : List Nodo), PredWalk pf origen v resto →
      ∃ dv, dget df v = some (some dv) ∧
        (∃ ws : List Nat,
          List.Forall₂ (fun (pq : Nodo × Nodo) (w : Nat) =>
            (pq.1, pq.2, w) ∈ aristas ∨ (pq.2, pq.1, w) ∈ aristas)
            (Pares resto.reverse) ws ∧ ws.sum = dv) ∧
        (∀ pq ∈ Pares resto.reverse, ∃ dx dy, dget df pq.1 = some (some dx) ∧
          dget df pq.2 = some (some dy) ∧ dx ≤ dy) ∧
        resto.reverse.head? = some origen ∧ resto.reverse.getLast? = some v := by
  intro v resto hw
  induction hw with
  | base =>
    refine ⟨0, hB, ⟨[], List.Forall₂.nil, rfl⟩, ?_, rfl, rfl⟩
    intro pq hpq
    cases hpq
  | paso hno hp hwp ih =>
    rename_i actual p l
    obtain ⟨dp, hdp, ⟨ws, hws, hsum⟩, hmono, hhead, hlast⟩ := ih
    obtain ⟨w, du, hav, hdu, hdvac⟩ := hA actual p hp
    obtain rfl : dp = du := Option.some.inj (Option.some.inj (hdp.symm.trans hdu))
    have hnn : l.reverse ≠ [] := by
      intro hnil
      rw [hnil] at hlast
      cases hlast
    have hPares : Pares ((actual :: l).reverse) = Pares l.reverse ++ [(p, actual)] := by
      rw [List.reverse_cons, Pares_concat l.reverse p actual hlast]
    refine ⟨dp + w, hdvac, ⟨ws ++ [w], ?_, ?_⟩, ?_, ?_, ?_⟩
    · rw [hPares]
      exact List.rel_append hws (List.Forall₂.cons hav List.Forall₂.nil)
    · rw [List.sum_append, hsum]
      simp
    · intro pq hpq
      rw [hPares] at hpq
      rcases List.mem_append.mp hpq with h | h
      · exact hmono pq h
      · rcases List.mem_singleton.mp h with rfl
        exact ⟨dp, dp + w, hdp, hdvac, Nat.le_add_right _ _⟩
    · rw [List.reverse_cons, head?_append_ne hnn]
      exact hhead
    · rw [List.reverse_cons, List.getLast?_concat]

/-! ## Huffman trees: leaves, the code table, prefix freedom -/

theorem hpush_join_perm :
    ∀ (l : List NodoHuffman) (x : NodoHuffman),
      (List.flatten ((hpush x l).map hojas)).Perm (hojas x ++ List.flatten (l.map hojas)) := by
  intro l
  induction l with
  | nil =>
    intro x
    simp [hpush]
  | cons y ys ih =>
    intro x
    rw [hpush]
    by_cases h : frecuencia y ≤ frecuencia x
    · rw [if_pos h]
      rw [List.map_cons, List.flatten_cons]
      have h2 : List.Perm (hojas y ++ List.flatten ((hpush x ys).map hojas))
          (hojas y ++ (hojas x ++ List.flatten (ys.map hojas))) :=
        List.Perm.append_left _ (ih x)
      refine h2.trans ?_
      rw [← List.append_assoc]
      have h3 : List.Perm ((hojas y ++ hojas x) ++ List.flatten (ys.map hojas))
          ((hojas x ++ hojas y) ++ List.flatten (ys.map hojas)) :=
        List.Perm.append_right _ List.perm_append_comm
      refine h3.trans ?_
      rw [List.append_assoc, List.map_cons, List.flatten_cons]
    · rw [if_neg h]
      rw [List.map_cons, List.flatten_cons, List.map_cons, List.flatten_cons]

theorem huffLoop_len_le : ∀ (n : Nat) (l : List NodoHuffman), l.length ≤ n →
    (huffLoop l).length ≤ 1 := by
  intro n
  induction n with
  | zero =>
    intro l hl
    rcases l with _ | ⟨t, l⟩
    · rw [huffLoop]
      simp
    · simp at hl
  | succ n ih =>
    intro l hl
    rcases l with _ | ⟨t1, l⟩
    · rw [huffLoop]
      simp
    rcases l with _ | ⟨t2, l⟩
    · rw [huffLoop]
      simp
    rw [huffLoop]
    refine ih _ ?_
    have hlen : ∀ (x : NodoHuffman) (h : List NodoHuffman),
        (hpush x h).length = h.length + 1 := by
      intro x h
      induction h with
      | nil => rfl
      | cons y ys ih2 =>
        simp only [hpush]
        split <;> simp [ih2]
    rw [hlen]
    simp only [List.length_cons] at hl
    omega

theorem huffLoop_ne_nil : ∀ (n : Nat) (l : List NodoHuffman), l.length ≤ n →
    l ≠ [] → huffLoop l ≠ [] := by
  intro n
  induction n with
  | zero =>
    intro l hl hne
    rcases l with _ | ⟨t, l⟩
    · exact absurd rfl hne
    · simp at hl
  | succ n ih =>
    intro l hl hne
    rcases l with _ | ⟨t1, l⟩
    · exact absurd rfl hne
    rcases l with _ | ⟨t2, l⟩
    · rw [huffLoop]
      simp
    rw [huffLoop]
    refine ih _ ?_ ?_
    · have hlen : ∀ (x : NodoHuffman) (h : List NodoHuffman),
          (hpush x h).length = h.length + 1 := by
        intro x h
        induction h with
        | nil => rfl
        | cons y ys ih2 =>
          simp only [hpush]
          split <;> simp [ih2]
      rw [hlen]
      simp only [List.length_cons] at hl
      omega
    · intro hnil
      have : (hpush (NodoHuffman.interno (frecuencia t1 + frecuencia t2) t1 t2) l).length
          = 0 := by rw [hnil]; rfl
      have hlen : ∀ (x : NodoHuffman) (h : List NodoHuffman),
          (hpush x h).length = h.length + 1 := by
        intro x h
        induction h with
        | nil => rfl
        | cons y ys ih2 =>
          simp only [hpush]
          split <;> simp [ih2]
      rw [hlen] at this
      omega

theorem huffLoop_join_perm : ∀ (n : Nat) (l : List NodoHuffman), l.length ≤ n →
    (List.flatten ((huffLoop l).map hojas)).Perm (List.flatten (l.map hojas)) := by
  intro n
  induction n with
  | zero =>
    intro l hl
    rcases l with _ | ⟨t, l⟩
    · rw [huffLoop]
    · simp at hl
  | succ n ih =>
    intro l hl
    rcases l with _ | ⟨t1, l⟩
    · rw [huffLoop]
    rcases l with _ | ⟨t2, l⟩
    · rw [huffLoop]
    rw [huffLoop]
    have hlen : ∀ (x : NodoHuffman) (h : List NodoHuffman),
        (hpush x h).length = h.length + 1 := by
      intro x h
      induction h with
      | nil => rfl
      | cons y ys ih2 =>
        simp only [hpush]
        split <;> simp [ih2]
    have hstep := ih (hpush (NodoHuffman.interno (frecuencia t1 + frecuencia t2) t1 t2) l)
      (by rw [hlen]; simp only [List.length_cons] at hl; omega)
    refine hstep.trans ?_
    refine (hpush_join_perm l _).trans ?_
    rw [List.map_cons, List.flatten_cons, List.map_cons, List.flatten_cons]
    show List.Perm ((hojas t1 ++ hojas t2) ++ List.flatten (l.map hojas))
      (hojas t1 ++ (hojas t2 ++ List.flatten (l.map hojas)))
    rw [List.append_assoc]

theorem join_map_hoja (frecuencias : List (Char × Nat)) :
    List.flatten ((frecuencias.map (fun cf => NodoHuffman.hoja cf.1 cf.2)).map hojas)
      = frecuencias.map Prod.fst := by
  induction frecuencias with
  | nil => rfl
  | cons cf resto ih =>
    rw [List.map_cons, List.map_cons, List.flatten_cons, ih]
    rfl

/-- A non-empty frequency table builds a tree whose leaf characters are a
permutation of the table's symbols. -/
theorem construir_arbol_hojas {frecuencias : List (Char × Nat)}
    (hne : frecuencias ≠ []) :
    ∃ t, construir_arbol_huffman frecuencias = some t ∧
      (hojas t).Perm (frecuencias.map Prod.fst) := by
  have hmapne : (frecuencias.map (fun cf => NodoHuffman.hoja cf.1 cf.2)).mergeSort
      (fun a b => frecuencia a ≤ frecuencia b) ≠ [] := by
    intro h
    have := List.mergeSort_perm (frecuencias.map (fun cf => NodoHuffman.hoja cf.1 cf.2))
      (fun a b => frecuencia a ≤ frecuencia b)
    rw [h] at this
    have h2 := this.length_eq
    simp only [List.length_nil, List.length_map] at h2
    exact hne (List.length_eq_zero.mp h2.symm)
  rcases hL : huffLoop ((frecuencias.map (fun cf => NodoHuffman.hoja cf.1 cf.2)).mergeSort
      (fun a b => frecuencia a ≤ frecuencia b)) with _ | ⟨t, rest⟩
  · exact absurd hL (huffLoop_ne_nil _ _ (le_refl _) hmapne)
  have hrest : rest = [] := by
    have := huffLoop_len_le _ _ (le_refl ((frecuencias.map
      (fun cf => NodoHuffman.hoja cf.1 cf.2)).mergeSort
      (fun a b => frecuencia a ≤ frecuencia b)).length)
    rw [hL] at this
    simp only [List.length_cons] at this
    exact List.length_eq_zero.mp (by omega)
  subst hrest
  refine ⟨t, ?_, ?_⟩
  · rw [construir_arbol_huffman, if_neg hne]
    show (match huffLoop ((frecuencias.map (fun cf => NodoHuffman.hoja cf.1 cf.2)).mergeSort
        (fun a b => frecuencia a ≤ frecuencia b)) with
      | t :: _ => some t
      | [] => none) = some t
    rw [hL]
  · have hperm := huffLoop_join_perm _ _ (le_refl ((frecuencias.map
      (fun cf => NodoHuffman.hoja cf.1 cf.2)).mergeSort
      (fun a b => frecuencia a ≤ frecuencia b)).length)
    rw [hL] at hperm
    have hjoin : List.flatten ([t].map hojas) = hojas t := by
      rw [List.map_cons, List.map_nil, List.flatten_cons]
      simp
    rw [hjoin] at hperm
    refine hperm.trans ?_
    have hms : ((frecuencias.map (fun cf => NodoHuffman.hoja cf.1 cf.2)).mergeSort
        (fun a b => frecuencia a ≤ frecuencia b)).Perm
        (frecuencias.map (fun cf => NodoHuffman.hoja cf.1 cf.2)) :=
      List.mergeSort_perm _ _
    refine ((hms.map hojas).flatten).trans ?_
    rw [join_map_hoja]

theorem tabla_claves : ∀ (t : NodoHuffman) (pre : List Char),
    (tabla t pre).map Prod.fst = hojas t := by
  intro t
  induction t with
  | hoja c f => intro pre; rfl
  | interno f izq der ih1 ih2 =>
    intro pre
    show ((tabla izq (pre ++ ['0']) ++ tabla der (pre ++ ['1'])).map Prod.fst)
      = hojas izq ++ hojas der
    rw [List.map_append, ih1, ih2]

/-- With duplicate-free leaves, `generar_codigos`'s dict recursion lays the
table out as an append. -/
theorem generarAux_tabla : ∀ (t : NodoHuffman) (pre : List Char)
    (codigos : List (Char × List Char)),
    (hojas t).Nodup →
    (∀ k ∈ codigos.map Prod.fst, k ∉ hojas t) →
    generarAux t pre codigos = codigos ++ tabla t pre := by
  intro t
  induction t with
  | hoja c f =>
    intro pre codigos _ hdisj
    show dset codigos c (if pre = [] then ['0'] else pre) = _
    rw [dset_eq_append_of_not_mem]
    · rfl
    · intro hmem
      exact hdisj c hmem (List.mem_singleton.mpr rfl)
  | interno f izq der ih1 ih2 =>
    intro pre codigos hnd hdisj
    obtain ⟨hnd1, hnd2, hdisj12⟩ := List.nodup_append.mp hnd
    show generarAux der (pre ++ ['1']) (generarAux izq (pre ++ ['0']) codigos) = _
    rw [ih1 (pre ++ ['0']) codigos hnd1
      (fun k hk hmem => hdisj k hk (List.mem_append.mpr (Or.inl hmem)))]
    rw [ih2 (pre ++ ['1']) (codigos ++ tabla izq (pre ++ ['0'])) hnd2 ?_]
    · rw [List.append_assoc]
      rfl
    · intro k hk hmem
      rw [List.map_append, List.mem_append] at hk
      rcases hk with hk | hk
      · exact hdisj k hk (List.mem_append.mpr (Or.inr hmem))
      · rw [tabla_claves] at hk
        exact hdisj12 hk hmem

theorem tabla_pre : ∀ (t : NodoHuffman) (pre : List Char) (c : Char) (w : List Char),
    pre ≠ [] → (c, w) ∈ tabla t pre → ∃ s, w = pre ++ s := by
  intro t
  induction t with
  | hoja c2 f =>
    intro pre c w hpre hmem
    have heq := List.mem_singleton.mp hmem
    have hw : w = if pre = [] then ['0'] else pre := congrArg Prod.snd heq
    rw [if_neg hpre] at hw
    exact ⟨[], by rw [hw, List.append_nil]⟩
  | interno f izq der ih1 ih2 =>
    intro pre c w hpre hmem
    rcases List.mem_append.mp hmem with h | h
    · obtain ⟨s, hs⟩ := ih1 (pre ++ ['0']) c w (by simp) h
      exact ⟨'0' :: s, by rw [hs, List.append_assoc]; rfl⟩
    · obtain ⟨s, hs⟩ := ih2 (pre ++ ['1']) c w (by simp) h
      exact ⟨'1' :: s, by rw [hs, List.append_assoc]; rfl⟩


/-! ## Prefix structure of the code table and decoding -/

theorem esPrefijoB_iff : ∀ (p l : List Char), esPrefijoB p l = true ↔ EsPrefijo p l := by
  intro p
  induction p with
  | nil =>
    intro l
    simp [esPrefijoB, EsPrefijo]
  | cons a as ih =>
    intro l
    cases l with
    | nil =>
      simp [esPrefijoB, EsPrefijo]
    | cons b bs =>
      rw [esPrefijoB]
      simp only [Bool.and_eq_true, decide_eq_true_eq]
      constructor
      · rintro ⟨rfl, h⟩
        obtain ⟨r, hr⟩ := (ih bs).mp h
        exact ⟨r, by rw [hr]; rfl⟩
      · rintro ⟨r, hr⟩
        rw [List.cons_append] at hr
        injection hr with h1 h2
        exact ⟨h1.symm, (ih bs).mpr ⟨r, h2⟩⟩

theorem prefijo_comparable {p1 p2 l : List Char} (h1 : EsPrefijo p1 l)
    (h2 : EsPrefijo p2 l) (hlen : p1.length ≤ p2.length) : EsPrefijo p1 p2 := by
  obtain ⟨r1, hr1⟩ := h1
  obtain ⟨r2, hr2⟩ := h2
  have hA : p1 <+: l := ⟨r1, hr1.symm⟩
  have hB : p2 <+: l := ⟨r2, hr2.symm⟩
  obtain ⟨r, hr⟩ := List.prefix_of_prefix_length_le hA hB hlen
  exact ⟨r, hr.symm⟩

theorem tabla_codigo_ne_nil : ∀ (t : NodoHuffman) (pre : List Char) (c : Char)
    (w : List Char), (c, w) ∈ tabla t pre → w ≠ [] := by
  intro t
  induction t with
  | hoja c2 f =>
    intro pre c w hmem
    have heq := List.mem_singleton.mp hmem
    have hw : w = if pre = [] then ['0'] else pre := congrArg Prod.snd heq
    by_cases hpre : pre = []
    · rw [if_pos hpre] at hw
      rw [hw]
      simp
    · rw [if_neg hpre] at hw
      rw [hw]
      exact hpre
  | interno f izq der ih1 ih2 =>
    intro pre c w hmem
    rcases List.mem_append.mp hmem with h | h
    · exact ih1 _ c w h
    · exact ih2 _ c w h

/-- With duplicate-free leaves, a code that leads another entry's code forces
the two entries to coincide: codes in distinct subtrees differ at the bit
after the shared prefix. -/
theorem tabla_prefijo_eq : ∀ (t : NodoHuffman) (pre : List Char),
    (hojas t).Nodup →
    ∀ p1 ∈ tabla t pre, ∀ p2 ∈ tabla t pre, EsPrefijo p1.2 p2.2 → p1 = p2 := by
  intro t
  induction t with
  | hoja c f =>
    intro pre _ p1 h1 p2 h2 _
    rw [List.mem_singleton.mp h1, List.mem_singleton.mp h2]
  | interno f izq der ih1 ih2 =>
    intro pre hnd p1 h1 p2 h2 hpref
    obtain ⟨hnd1, hnd2, _⟩ := List.nodup_append.mp hnd
    rcases List.mem_append.mp h1 with ha | ha <;> rcases List.mem_append.mp h2 with hb | hb
    · exact ih1 _ hnd1 p1 ha p2 hb hpref
    · obtain ⟨s1, hs1⟩ := tabla_pre izq _ p1.1 p1.2 (by simp) ha
      obtain ⟨s2, hs2⟩ := tabla_pre der _ p2.1 p2.2 (by simp) hb
      obtain ⟨r, hr⟩ := hpref
      rw [hs1, hs2] at hr
      simp only [List.append_assoc] at hr
      have hc := List.append_cancel_left hr
      simp at hc
    · obtain ⟨s1, hs1⟩ := tabla_pre der _ p1.1 p1.2 (by simp) ha
      obtain ⟨s2, hs2⟩ := tabla_pre izq _ p2.1 p2.2 (by simp) hb
      obtain ⟨r, hr⟩ := hpref
      rw [hs1, hs2] at hr
      simp only [List.append_assoc] at hr
      have hc := List.append_cancel_left hr
      simp at hc
    · exact ih2 _ hnd2 p1 ha p2 hb hpref

/-- The code table of a tree with duplicate-free leaves is prefix-free. -/
theorem tabla_sin_prefijos {t : NodoHuffman} (hnd : (hojas t).Nodup) :
    SinPrefijos (tabla t []) := by
  intro p1 h1 p2 h2 hne hpref
  exact hne (congrArg Prod.fst (tabla_prefijo_eq t [] hnd p1 h1 p2 h2 hpref))

/-- The greedy decoder's search finds exactly the entry whose code leads the
bit stream: any other hit would violate prefix freedom. -/
theorem find_codigo {t : NodoHuffman} (hnd : (hojas t).Nodup) {c : Char}
    {w enc r : List Char} (hmem : (c, w) ∈ tabla t []) (henc : enc = w ++ r) :
    (tabla t []).find? (fun cf => ! cf.2.isEmpty && esPrefijoB cf.2 enc)
      = some (c, w) := by
  have hwne : w ≠ [] := tabla_codigo_ne_nil t [] c w hmem
  have hpred : (! w.isEmpty && esPrefijoB w enc) = true := by
    rw [Bool.and_eq_true]
    constructor
    · rcases w with _ | ⟨b, w2⟩
      · exact absurd rfl hwne
      · rfl
    · exact (esPrefijoB_iff w enc).mpr ⟨r, henc⟩
  rcases hfind : (tabla t []).find? (fun cf => ! cf.2.isEmpty && esPrefijoB cf.2 enc)
    with _ | cf0
  · rw [List.find?_eq_none] at hfind
    exact absurd hpred (hfind (c, w) hmem)
  · have hcf0mem := List.mem_of_find?_eq_some hfind
    have hcf0p := List.find?_some hfind
    simp only [Bool.and_eq_true] at hcf0p
    have hcf0pref : EsPrefijo cf0.2 enc := (esPrefijoB_iff _ _).mp hcf0p.2
    have hwpref : EsPrefijo w enc := ⟨r, henc⟩
    rcases Nat.le_total cf0.2.length w.length with hl | hl
    · have h12 : EsPrefijo cf0.2 w := prefijo_comparable hcf0pref hwpref hl
      have heq := tabla_prefijo_eq t [] hnd cf0 hcf0mem (c, w) hmem h12
      rw [hfind, heq]
    · have h21 : EsPrefijo w cf0.2 := prefijo_comparable hwpref hcf0pref hl
      have heq := tabla_prefijo_eq t [] hnd (c, w) hmem cf0 hcf0mem h21
      rw [hfind, ← heq]

theorem codificar_total {tab : List (Char × List Char)} :
    ∀ msg, (∀ c ∈ msg, c ∈ tab.map Prod.fst) →
      ∃ enc, codificar tab msg = some enc := by
  intro msg
  induction msg with
  | nil =>
    intro _
    exact ⟨[], rfl⟩
  | cons c resto ih =>
    intro h
    obtain ⟨enc2, henc2⟩ := ih (fun c2 hc2 => h c2 (List.mem_cons_of_mem _ hc2))
    have hsome : (dget tab c).isSome = true :=
      dget_isSome.mpr (h c (List.mem_cons_self c resto))
    rcases hw : dget tab c with _ | w
    · rw [hw] at hsome
      exact absurd hsome (by simp)
    refine ⟨w ++ enc2, ?_⟩
    rw [codificar, hw, henc2]

/-- Greedy decoding inverts encoding, with any fuel at least the bit count:
each decoded symbol strips its own (nonempty) code off the stream. -/
theorem decodificarAux_codificar {t : NodoHuffman} (hnd : (hojas t).Nodup) :
    ∀ (msg enc : List Char) (fuel : Nat),
      codificar (tabla t []) msg = some enc → enc.length ≤ fuel →
      decodificarAux (tabla t []) fuel enc = some msg := by
  intro msg
  induction msg with
  | nil =>
    intro enc fuel hcod _
    rw [codificar] at hcod
    have h0 : ([] : List Char) = enc := Option.some.inj hcod
    subst h0
    cases fuel <;> rfl
  | cons c resto ih =>
    intro enc fuel hcod hfuel
    rcases hw : dget (tabla t []) c with _ | w
    · rw [codificar, hw] at hcod
      exact Option.noConfusion hcod
    rcases hc2 : codificar (tabla t []) resto with _ | enc2
    · rw [codificar, hw, hc2] at hcod
      exact Option.noConfusion hcod
    rw [codificar, hw, hc2] at hcod
    have henc : w ++ enc2 = enc := Option.some.inj hcod
    subst henc
    have hmem : (c, w) ∈ tabla t [] := dget_mem hw
    have hwne : w ≠ [] := tabla_codigo_ne_nil t [] c w hmem
    rcases w with _ | ⟨b, w2⟩
    · exact absurd rfl hwne
    rcases fuel with _ | f
    · simp at hfuel
    show decodificarAux (tabla t []) (f + 1) (b :: (w2 ++ enc2)) = some (c :: resto)
    rw [decodificarAux]
    rw [find_codigo hnd hmem
      (show (b :: (w2 ++ enc2) : List Char) = (b :: w2) ++ enc2 from rfl)]
    have hdec2 : decodificarAux (tabla t []) f enc2 = some resto := by
      refine ih enc2 f hc2 ?_
      rw [List.length_append, List.length_cons] at hfuel
      omega
    have hdrop : (b :: (w2 ++ enc2)).drop (b :: w2).length = enc2 := by
      show ((b :: w2) ++ enc2).drop (b :: w2).length = enc2
      exact List.drop_left _ _
    show (match decodificarAux (tabla t [])
        f ((b :: (w2 ++ enc2)).drop (b :: w2).length) with
      | none => none
      | some resto2 => some (c :: resto2)) = some (c :: resto)
    rw [hdrop, hdec2]

theorem decodificar_codificar {t : NodoHuffman} (hnd : (hojas t).Nodup)
    {msg enc : List Char} (hcod : codificar (tabla t []) msg = some enc) :
    decodificar (tabla t []) enc = some msg :=
  decodificarAux_codificar hnd msg enc enc.length hcod (le_refl _)

/-- On a non-empty duplicate-free frequency table, `generar_codigos` over the
built tree is exactly the flat table `tabla t []` of a tree whose leaves
enumerate the symbols without repeats. -/
theorem generar_eq_tabla {frecuencias : List (Char × Nat)} (hne : frecuencias ≠ [])
    (hnd : (frecuencias.map Prod.fst).Nodup) :
    ∃ t, construir_arbol_huffman frecuencias = some t ∧ (hojas t).Nodup ∧
      (hojas t).Perm (frecuencias.map Prod.fst) ∧
      generar_codigos (construir_arbol_huffman frecuencias) = tabla t [] := by
  obtain ⟨t, ht, hperm⟩ := construir_arbol_hojas hne
  have hndh : (hojas t).Nodup := hperm.nodup_iff.mpr hnd
  refine ⟨t, ht, hndh, hperm, ?_⟩
  rw [ht]
  show generarAux t [] [] = tabla t []
  rw [generarAux_tabla t [] [] hndh (by intro k hk; simp at hk)]
  rfl

theorem generar_codigos_uno (c : Char) (f : Nat) :
    generar_codigos (construir_arbol_huffman [(c, f)]) = [(c, ['0'])] := by
  have hms : ([NodoHuffman.hoja c f]).mergeSort (fun a b => frecuencia a ≤ frecuencia b)
      = [NodoHuffman.hoja c f] := List.mergeSort_of_sorted (by simp)
  have harb : construir_arbol_huffman [(c, f)] = some (NodoHuffman.hoja c f) := by
    rw [construir_arbol_huffman, if_neg (by simp)]
    show (match huffLoop (([(c, f)].map (fun cf => NodoHuffman.hoja cf.1 cf.2)).mergeSort
        (fun a b => frecuencia a ≤ frecuencia b)) with
      | t :: _ => some t
      | [] => none) = some (NodoHuffman.hoja c f)
    rw [show ([(c, f)].map (fun cf => NodoHuffman.hoja cf.1 cf.2))
        = [NodoHuffman.hoja c f] from rfl]
    rw [hms, huffLoop]
  rw [harb]
  show generarAux (NodoHuffman.hoja c f) [] [] = [(c, ['0'])]
  rfl

/-! # Claims -/

/-- C3, counterexample: on a state reachable by three `unir` calls after
construction over four nodes, the redundant call `unir d b` returns `false`
yet mutates the parent mapping — path compression inside the embedded
`encontrar` calls rewrites the parent of `d` from `c` to `a`.  This refutes
"returns false and mutates nothing: the parent mapping and the rank mapping
are exactly the same after the call as before it". -/
theorem c3_contraejemplo :
    ReachableUF ufEjemplo ∧
    rootD ufEjemplo "d" = rootD ufEjemplo "b" ∧
    unir ufEjemplo "d" "b" = some (false, ufEjemplo2) ∧
    ufEjemplo2.padre ≠ ufEjemplo.padre :=
  ⟨reachable_ufEjemplo, by decide, by decide, by decide⟩

/-- C3, amended: on every reachable state, `unir` on two registered nodes
that already share a root returns `false` and leaves the rank mapping, the
key set and every node's representative (the partition) unchanged; parent
pointers may change only by path compression. -/
theorem c3_union_redundante {uf : UF} (h : ReachableUF uf) {x y : Nodo}
    (hx : x ∈ uf.claves) (hy : y ∈ uf.claves)
    (hsame : rootD uf x = rootD uf y) :
    ∃ uf2, unir uf x y = some (false, uf2) ∧
      uf2.rango = uf.rango ∧
      uf2.padre.map Prod.fst = uf.padre.map Prod.fst ∧
      (∀ z, rootD uf2 z = rootD uf z) := by
  have hb := reachable_buen h
  obtain ⟨b, uf2, heq, _, hkeys, _, hcase⟩ := unir_ok hb hx hy
  rcases hcase with ⟨hbf, _, hrango, hroots⟩ | ⟨_, hne, _⟩
  · subst hbf
    exact ⟨uf2, heq, hrango, hkeys, hroots⟩
  · exact absurd hsame hne

/-- C3, amended, witness at a concrete reachable state. -/
theorem c3_union_redundante_witness :
    ∃ uf2, unir ufEjemplo "d" "b" = some (false, uf2) ∧
      uf2.rango = ufEjemplo.rango ∧
      uf2.padre.map Prod.fst = ufEjemplo.padre.map Prod.fst ∧
      (∀ z, rootD uf2 z = rootD ufEjemplo z) :=
  c3_union_redundante reachable_ufEjemplo (by decide) (by decide) (by decide)

/-- C4: on every reachable state, `encontrar` terminates on every registered
node (it returns a result rather than running out of fuel on a parent
cycle), the result is the chain's root, and every traversed non-root node
of the search path ends with its parent pointer set directly to that root. -/
theorem c4_encontrar_termina_comprime {uf : UF} (h : ReachableUF uf) {x : Nodo}
    (hx : x ∈ uf.claves) :
    ∃ r uf2, encontrar uf x = some (r, uf2) ∧ r = rootD uf x ∧ EsRaiz uf r ∧
      ∀ i, ¬ EsRaiz uf (iterar uf i x) → padreDe uf2 (iterar uf i x) = r := by
  have hb := reachable_buen h
  obtain ⟨uf2, heq, _, _, _, _, hcomp⟩ := encontrar_ok hb hx
  exact ⟨_, uf2, heq, rfl, esRaiz_rootD hb x, hcomp⟩

/-- C4, witness at a concrete reachable state with a depth-two chain. -/
theorem c4_encontrar_witness :
    ∃ r uf2, encontrar ufEjemplo "d" = some (r, uf2) ∧
      r = rootD ufEjemplo "d" ∧ EsRaiz ufEjemplo r ∧
      ∀ i, ¬ EsRaiz ufEjemplo (iterar ufEjemplo i "d") →
        padreDe uf2 (iterar ufEjemplo i "d") = r :=
  c4_encontrar_termina_comprime reachable_ufEjemplo (by decide)

/-- C5: invoking `dijkstra` with a source that is not an endpoint of any
edge returns the empty distance map and the empty predecessor map — the
guard fires before any distance initialization or relaxation. -/
theorem c5_dijkstra_origen_ausente (aristas : List Arista) (origen : Nodo)
    (h : ∀ e ∈ aristas, origen ≠ e.1 ∧ origen ≠ e.2.1) :
    dijkstra aristas origen = ([], []) := by
  have hmem : origen ∉ nodosDe aristas := by
    rw [mem_nodosDe]
    rintro ⟨e, he, hx | hx⟩
    · exact (h e he).1 hx
    · exact (h e he).2 hx
  have hnone : dget (construirGrafo aristas) origen = none := by
    rw [dget_eq_none, construirGrafo_keys]
    exact hmem
  simp [dijkstra, hnone]

/-- C5, witness at the worked example of the spec with the absent source
`Q`. -/
theorem c5_dijkstra_witness :
    (∀ e ∈ ([("A", "B", 1), ("B", "C", 2), ("A", "C", 4)] : List Arista),
      "Q" ≠ e.1 ∧ "Q" ≠ e.2.1) ∧
    dijkstra [("A", "B", 1), ("B", "C", 2), ("A", "C", 4)] "Q" = ([], []) :=
  ⟨by decide, c5_dijkstra_origen_ausente _ _ (by decide)⟩

/-- C10, failing input: `prim` on the non-empty edge list `[(A, B, 1)]` with
the explicit start node `Z` — which is not an endpoint of any edge — hits
the unguarded subscript `grafo[nodo_inicial]` and raises an uncaught
`KeyError` instead of returning a result; the spec's "the core never aborts
the process" is violated. -/
theorem c10_prim_inicio_ausente :
    prim [("A", "B", 1)] (some "Z") = .error "KeyError" := rfl

/-- C9, counterexample: with exactly two symbols of equal frequency the
compression ratio of `ejecutar_huffman` is `87.5%`, not `0%` — each symbol
gets a one-bit code against the 8-bit baseline, so the ratio is
`(1 - 1/8) * 100`. -/
theorem c9_contraejemplo :
    tasa_compresion [('a', 1), ('b', 1)] = 175 / 2 ∧
    tasa_compresion [('a', 1), ('b', 1)] ≠ 0 := by
  have h := huffman_tasa_dos 'a' 'b' 1 (by decide) (by decide)
  refine ⟨h, ?_⟩
  rw [h]
  norm_num

/-- C9, amended: for every frequency table of exactly two distinct symbols
with equal positive frequencies, the compression ratio equals `87.5%`
(`175/2`), independent of the symbols and of the common frequency. -/
theorem c9_dos_simbolos (a b : Char) (f : Nat) (hne : a ≠ b) (hf : 0 < f) :
    tasa_compresion [(a, f), (b, f)] = 175 / 2 :=
  huffman_tasa_dos a b f hne hf

/-- C9, amended, witness. -/
theorem c9_dos_simbolos_witness :
    ('x' ≠ 'y') ∧ (0 < 7) ∧ tasa_compresion [('x', 7), ('y', 7)] = 175 / 2 :=
  ⟨by decide, by decide, c9_dos_simbolos 'x' 'y' 7 (by decide) (by decide)⟩

/-- C2: on a connected non-empty input both engines return exactly
`V - 1` accepted edges forming an acyclic spanning edge set; on a
disconnected input both return fewer than `V - 1` edges, and Prim's
accepted edges connect exactly the start node's component. -/
theorem c2_conteo_mst (aristas : List Arista) (hne : aristas ≠ []) :
    (Conectado aristas →
      (kruskal aristas).1.length + 1 = (nodosDe aristas).length ∧
      Bosque (kruskal aristas).1 ∧ Genera (kruskal aristas).1 aristas ∧
      (∃ P w, prim aristas none = Except.ok (P, w) ∧
        P.length + 1 = (nodosDe aristas).length ∧ Bosque P ∧ Genera P aristas)) ∧
    (∀ x ∈ nodosDe aristas, ∀ y ∈ nodosDe aristas, ¬ Alcanza aristas x y →
      (kruskal aristas).1.length + 1 < (nodosDe aristas).length ∧
      (∃ P w, prim aristas none = Except.ok (P, w) ∧
        P.length + 1 < (nodosDe aristas).length ∧
        (∀ v ∈ nodosDe aristas,
          (Alcanza P ((nodosDe aristas).headI) v ↔
            Alcanza aristas ((nodosDe aristas).headI) v)))) := by
  obtain ⟨K, w, hkeq, hsubK, hbK, hwK, hcovK, hdomK⟩ := kruskal_facts aristas hne
  obtain ⟨P, w2, visF, hpeq, h1, h2, h3, h4, h5, h6, h7, h8, h12, hcc⟩ :=
    prim_facts aristas hne
  have hnd : (nodosDe aristas).Nodup := nodosDe_nodup aristas
  have hendsK : ∀ e ∈ K, e.1 ∈ nodosDe aristas ∧ e.2.1 ∈ nodosDe aristas := by
    intro e he
    exact ⟨mem_nodosDe.mpr ⟨e, hsubK e he, Or.inl rfl⟩,
      mem_nodosDe.mpr ⟨e, hsubK e he, Or.inr rfl⟩⟩
  have htransP : ∀ u v, Alcanza P u v → Alcanza aristas u v :=
    fun u v h => alcanza_avail (fun e he => (h4 e he).2.2) h
  constructor
  · intro hcon
    -- every node gets visited
    have hfull : ∀ v ∈ nodosDe aristas, v ∈ visF :=
      fun v hv => hcc v hv (hcon _ (h2 _ h3) v hv)
    have hvlen : visF.length = (nodosDe aristas).length :=
      lista_eq_length h1 hnd h2 hfull
    have hGK : Genera K aristas := by
      intro x hx y hy
      exact alcanza_por_ady (fun e he => hcovK e he) (hcon x hx y hy)
    have hone : numClases K (nodosDe aristas) = 1 :=
      conecta_numClases_one (nodosDe_ne_nil hne) hGK
    have hcountK := bosque_count hnd hbK hendsK
    refine ⟨?_, ?_, ?_, P, w2, hpeq, ?_, h6, ?_⟩
    · rw [hkeq]
      show K.length + 1 = (nodosDe aristas).length
      omega
    · rw [hkeq]
      exact hbK
    · rw [hkeq]
      exact hGK
    · omega
    · intro x hx y hy
      exact alcanza_trans (alcanza_symm (h8 x (hfull x hx))) (h8 y (hfull y hy))
  · intro x hx y hy hno
    have hnoK : ¬ Alcanza K x y :=
      fun h => hno (alcanza_por_ady (fun e he => alcanza_de_arista (hsubK e he)) h)
    have h2cl : 2 ≤ numClases K (nodosDe aristas) := desconectado_numClases hx hy hnoK
    have hcountK := bosque_count hnd hbK hendsK
    have hmiss : ¬ (x ∈ visF ∧ y ∈ visF) := by
      rintro ⟨hxv, hyv⟩
      exact hno (htransP x y (alcanza_trans (alcanza_symm (h8 x hxv)) (h8 y hyv)))
    have hvlt : visF.length < (nodosDe aristas).length := by
      by_cases hxv : x ∈ visF
      · have hyv : y ∉ visF := fun h => hmiss ⟨hxv, h⟩
        exact lista_menor h1 h2 hy hyv
      · exact lista_menor h1 h2 hx hxv
    refine ⟨?_, P, w2, hpeq, by omega, ?_⟩
    · rw [hkeq]
      show K.length + 1 < (nodosDe aristas).length
      omega
    · intro v hv
      constructor
      · intro h
        exact htransP _ _ h
      · intro h
        exact h8 v (hcc v hv h)

/-- C2, witness at a disconnected two-component input: the hypothesis of the
claim theorem is discharged by computation. -/
theorem c2_conteo_mst_witness :
    (([("A", "B", 1), ("C", "D", 2)] : List Arista) ≠ []) ∧
    ((Conectado [("A", "B", 1), ("C", "D", 2)] →
      (kruskal [("A", "B", 1), ("C", "D", 2)]).1.length + 1
        = (nodosDe [("A", "B", 1), ("C", "D", 2)]).length ∧
      Bosque (kruskal [("A", "B", 1), ("C", "D", 2)]).1 ∧
      Genera (kruskal [("A", "B", 1), ("C", "D", 2)]).1 [("A", "B", 1), ("C", "D", 2)] ∧
      (∃ P w, prim [("A", "B", 1), ("C", "D", 2)] none = Except.ok (P, w) ∧
        P.length + 1 = (nodosDe [("A", "B", 1), ("C", "D", 2)]).length ∧
        Bosque P ∧ Genera P [("A", "B", 1), ("C", "D", 2)])) ∧
    (∀ x ∈ nodosDe [("A", "B", 1), ("C", "D", 2)],
      ∀ y ∈ nodosDe [("A", "B", 1), ("C", "D", 2)],
      ¬ Alcanza [("A", "B", 1), ("C", "D", 2)] x y →
      (kruskal [("A", "B", 1), ("C", "D", 2)]).1.length + 1
        < (nodosDe [("A", "B", 1), ("C", "D", 2)]).length ∧
      (∃ P w, prim [("A", "B", 1), ("C", "D", 2)] none = Except.ok (P, w) ∧
        P.length + 1 < (nodosDe [("A", "B", 1), ("C", "D", 2)]).length ∧
        (∀ v ∈ nodosDe [("A", "B", 1), ("C", "D", 2)],
          (Alcanza P ((nodosDe [("A", "B", 1), ("C", "D", 2)]).headI) v ↔
            Alcanza [("A", "B", 1), ("C", "D", 2)]
              ((nodosDe [("A", "B", 1), ("C", "D", 2)]).headI) v))))) :=
  ⟨by decide, c2_conteo_mst [("A", "B", 1), ("C", "D", 2)] (by decide)⟩

/-- C1: on every connected non-empty input the total weight reported by
`prim` equals the total weight reported by `kruskal` — both engines return
minimum spanning trees, shown by comparing, threshold by threshold, the
class counts of their weight-bounded subforests. -/
theorem c1_prim_kruskal_peso (aristas : List Arista) (hne : aristas ≠ [])
    (hcon : Conectado aristas) :
    ∃ r, prim aristas none = Except.ok r ∧ r.2 = (kruskal aristas).2 := by
  obtain ⟨K, w, hkeq, hsubK, hbK, hwK, hcovK, hdomK⟩ := kruskal_facts aristas hne
  obtain ⟨P, w2, visF, hpeq, h1, h2, h3, h4, h5, h6, h7, h8, h12, hcc⟩ :=
    prim_facts aristas hne
  have hnd : (nodosDe aristas).Nodup := nodosDe_nodup aristas
  have hfull : ∀ v ∈ nodosDe aristas, v ∈ visF :=
    fun v hv => hcc v hv (hcon _ (h2 _ h3) v hv)
  have hvlen : visF.length = (nodosDe aristas).length :=
    lista_eq_length h1 hnd h2 hfull
  have hendsK : ∀ e ∈ K, e.1 ∈ nodosDe aristas ∧ e.2.1 ∈ nodosDe aristas := by
    intro e he
    exact ⟨mem_nodosDe.mpr ⟨e, hsubK e he, Or.inl rfl⟩,
      mem_nodosDe.mpr ⟨e, hsubK e he, Or.inr rfl⟩⟩
  have hendsP : ∀ e ∈ P, e.1 ∈ nodosDe aristas ∧ e.2.1 ∈ nodosDe aristas :=
    fun e he => avail_ends (h4 e he).2.2
  have hGK : Genera K aristas := by
    intro x hx y hy
    exact alcanza_por_ady (fun e he => hcovK e he) (hcon x hx y hy)
  have honeK : numClases K (nodosDe aristas) = 1 :=
    conecta_numClases_one (nodosDe_ne_nil hne) hGK
  have hcountK := bosque_count hnd hbK hendsK
  have hlen : P.length = K.length := by omega
  have hWK : ∀ e ∈ K, pesoDe e ≤ pesoTotal aristas :=
    fun e he => pesoDe_le_total (hsubK e he)
  have hWP : ∀ e ∈ P, pesoDe e ≤ pesoTotal aristas := by
    intro e he
    rcases (h4 e he).2.2 with h | h
    · have := pesoDe_le_total h
      exact this
    · have := pesoDe_le_total h
      exact this
  -- threshold-by-threshold dominance in both directions
  have hdirP : ∀ c, numClases (hasta P c) (nodosDe aristas)
      ≤ numClases (hasta K c) (nodosDe aristas) := by
    intro c
    refine numClases_mono ?_
    intro x y h
    by_cases hxy : x = y
    · subst hxy
      exact alcanza_refl _
    have hmem := alcanza_mem_nodos h
    rcases hmem with heq | ⟨hxm, hym⟩
    · exact absurd heq hxy
    have hxns : x ∈ nodosDe aristas := by
      obtain ⟨e, he, hor⟩ := mem_nodosDe.mp hxm
      have heK : e ∈ aristas := hsubK e (hasta_subset e he)
      rcases hor with heq | heq
      · exact mem_nodosDe.mpr ⟨e, heK, Or.inl heq⟩
      · exact mem_nodosDe.mpr ⟨e, heK, Or.inr heq⟩
    have hyns : y ∈ nodosDe aristas := by
      obtain ⟨e, he, hor⟩ := mem_nodosDe.mp hym
      have heK : e ∈ aristas := hsubK e (hasta_subset e he)
      rcases hor with heq | heq
      · exact mem_nodosDe.mpr ⟨e, heK, Or.inl heq⟩
      · exact mem_nodosDe.mpr ⟨e, heK, Or.inr heq⟩
    have hgr : Alcanza (hasta aristas c) x y :=
      alcanza_mono (fun e he => mem_hasta.mpr
        ⟨hsubK e (mem_hasta.mp he).1, (mem_hasta.mp he).2⟩) h
    exact h12 c x y (hfull x hxns) (hfull y hyns) hgr
  have hdirK : ∀ c, numClases (hasta K c) (nodosDe aristas)
      ≤ numClases (hasta P c) (nodosDe aristas) := by
    intro c
    refine numClases_mono ?_
    intro x y h
    exact hdomK c x y (alcanza_avail_hasta (fun e he => (h4 e he).2.2) h)
  have hle1 : pesoTotal P ≤ pesoTotal K :=
    pesoTotal_le_de_clases hnd h6 hbK hendsP hendsK hWP hWK hlen hdirP
  have hle2 : pesoTotal K ≤ pesoTotal P :=
    pesoTotal_le_de_clases hnd hbK h6 hendsK hendsP hWK hWP hlen.symm hdirK
  refine ⟨(P, w2), hpeq, ?_⟩
  rw [hkeq]
  show w2 = w
  omega

/-- C1, witness at the worked example of the spec. -/
theorem c1_prim_kruskal_peso_witness :
    (([("A", "B", 1), ("B", "C", 2), ("A", "C", 4)] : List Arista) ≠ []) ∧
    Conectado [("A", "B", 1), ("B", "C", 2), ("A", "C", 4)] ∧
    (∃ r, prim [("A", "B", 1), ("B", "C", 2), ("A", "C", 4)] none = Except.ok r ∧
      r.2 = (kruskal [("A", "B", 1), ("B", "C", 2), ("A", "C", 4)]).2) :=
  ⟨by decide, by decide,
    c1_prim_kruskal_peso [("A", "B", 1), ("B", "C", 2), ("A", "C", 4)]
      (by decide) (by decide)⟩

/-- C6: with a source present in the graph and any target for which
`reconstruir_ruta` on `dijkstra`'s predecessor map returns a non-empty
path, the path runs from the source to the target, the recorded distances
of its nodes are monotonically non-decreasing along it, and the weights of
the traversed graph edges sum exactly to the recorded distance of the
target. -/
theorem c6_dijkstra_ruta (aristas : List Arista) (origen destino : Nodo)
    (hmem : origen ∈ nodosDe aristas)
    (hne : reconstruir_ruta (dijkstra aristas origen).2 origen destino ≠ []) :
    (reconstruir_ruta (dijkstra aristas origen).2 origen destino).head?
      = some origen ∧
    (reconstruir_ruta (dijkstra aristas origen).2 origen destino).getLast?
      = some destino ∧
    (∀ pq ∈ Pares (reconstruir_ruta (dijkstra aristas origen).2 origen destino),
      ∃ dx dy, dget (dijkstra aristas origen).1 pq.1 = some (some dx) ∧
        dget (dijkstra aristas origen).1 pq.2 = some (some dy) ∧ dx ≤ dy) ∧
    (∃ ws : List Nat,
      List.Forall₂ (fun (pq : Nodo × Nodo) (w : Nat) =>
        (pq.1, pq.2, w) ∈ aristas ∨ (pq.2, pq.1, w) ∈ aristas)
        (Pares (reconstruir_ruta (dijkstra aristas origen).2 origen destino)) ws ∧
      dget (dijkstra aristas origen).1 destino = some (some ws.sum)) := by
  obtain ⟨df, pf, hd, hA, hB⟩ := dijkstra_final aristas origen hmem
  have hne2 : reconstruir_ruta pf origen destino ≠ [] := by
    rw [hd] at hne
    exact hne
  by_cases hcond : (dget pf destino).isNone ∧ destino ≠ origen
  · exfalso
    apply hne2
    rw [reconstruir_ruta, if_pos hcond]
  · have hruta_eq : reconstruir_ruta pf origen destino
        = reconstruirAux pf origen (pf.length + 1) destino [] := by
      rw [reconstruir_ruta, if_neg hcond]
    obtain ⟨resto, hwalk, hrev⟩ := reconstruirAux_walk pf origen (pf.length + 1)
      destino [] (reconstruirAux pf origen (pf.length + 1) destino []) rfl
      (by rw [← hruta_eq]; exact hne2)
    obtain ⟨dv, hdv, ⟨ws, hws, hsum⟩, hmono, hhead, hlast⟩ :=
      predwalk_ruta aristas origen df pf hA hB destino resto hwalk
    have hruta2 : reconstruir_ruta pf origen destino = resto.reverse := by
      rw [hruta_eq, hrev]
      simp
    rw [hd]
    refine ⟨?_, ?_, ?_, ws, ?_, ?_⟩
    · show (reconstruir_ruta pf origen destino).head? = some origen
      rw [hruta2]
      exact hhead
    · show (reconstruir_ruta pf origen destino).getLast? = some destino
      rw [hruta2]
      exact hlast
    · show ∀ pq ∈ Pares (reconstruir_ruta pf origen destino), ∃ dx dy,
        dget df pq.1 = some (some dx) ∧ dget df pq.2 = some (some dy) ∧ dx ≤ dy
      rw [hruta2]
      exact hmono
    · show List.Forall₂ _ (Pares (reconstruir_ruta pf origen destino)) ws
      rw [hruta2]
      exact hws
    · show dget df destino = some (some ws.sum)
      rw [hsum]
      exact hdv

/-- C6, witness at the worked example of the spec: the path `A → B → C`
with distances `0 ≤ 1 ≤ 3` and edge weights `1 + 2 = 3`. -/
theorem c6_dijkstra_ruta_witness :
    ("A" ∈ nodosDe [("A", "B", 1), ("B", "C", 2), ("A", "C", 4)]) ∧
    (reconstruir_ruta
      (dijkstra [("A", "B", 1), ("B", "C", 2), ("A", "C", 4)] "A").2 "A" "C" ≠ []) ∧
    ((reconstruir_ruta
        (dijkstra [("A", "B", 1), ("B", "C", 2), ("A", "C", 4)] "A").2 "A" "C").head?
      = some "A" ∧
    (reconstruir_ruta
        (dijkstra [("A", "B", 1), ("B", "C", 2), ("A", "C", 4)] "A").2 "A" "C").getLast?
      = some "C" ∧
    (∀ pq ∈ Pares (reconstruir_ruta
        (dijkstra [("A", "B", 1), ("B", "C", 2), ("A", "C", 4)] "A").2 "A" "C"),
      ∃ dx dy, dget (dijkstra [("A", "B", 1), ("B", "C", 2), ("A", "C", 4)] "A").1 pq.1
          = some (some dx) ∧
        dget (dijkstra [("A", "B", 1), ("B", "C", 2), ("A", "C", 4)] "A").1 pq.2
          = some (some dy) ∧ dx ≤ dy) ∧
    (∃ ws : List Nat,
      List.Forall₂ (fun (pq : Nodo × Nodo) (w : Nat) =>
        (pq.1, pq.2, w) ∈ [("A", "B", 1), ("B", "C", 2), ("A", "C", 4)] ∨
        (pq.2, pq.1, w) ∈ [("A", "B", 1), ("B", "C", 2), ("A", "C", 4)])
        (Pares (reconstruir_ruta
          (dijkstra [("A", "B", 1), ("B", "C", 2), ("A", "C", 4)] "A").2 "A" "C")) ws ∧
      dget (dijkstra [("A", "B", 1), ("B", "C", 2), ("A", "C", 4)] "A").1 "C"
        = some (some ws.sum))) := by
  have hdij : dijkstra [("A", "B", 1), ("B", "C", 2), ("A", "C", 4)] "A"
      = ([("A", some 0), ("B", some 1), ("C", some 3)], [("B", "A"), ("C", "B")]) := by
    simp +decide [dijkstra, construirGrafo, dget, dset, heapPushD, entradaDijLe,
      strLtB, charsLt, dijkstraLoop, relajar, ltInf]
  have hne : reconstruir_ruta
      (dijkstra [("A", "B", 1), ("B", "C", 2), ("A", "C", 4)] "A").2 "A" "C" ≠ [] := by
    rw [hdij]
    decide
  exact ⟨by decide, hne,
    c6_dijkstra_ruta [("A", "B", 1), ("B", "C", 2), ("A", "C", 4)] "A" "C"
      (by decide) hne⟩

/-- **C8.** For every non-empty frequency table of distinct symbols with
positive integer frequencies, the code table produced by `generar_codigos` on
the tree built by `construir_arbol_huffman` is prefix-free; encoding any
symbol sequence over the table succeeds and decoding the concatenated code
stream recovers the original sequence; and in the single-symbol case the
symbol's code is the one-bit string `"0"`. -/
theorem c8_huffman_codigos (frecuencias : List (Char × Nat)) (msg : List Char)
    (hne : frecuencias ≠ []) (hnd : (frecuencias.map Prod.fst).Nodup)
    (hpos : ∀ cf ∈ frecuencias, 0 < cf.2)
    (hmsg : ∀ c ∈ msg, c ∈ frecuencias.map Prod.fst) :
    SinPrefijos (generar_codigos (construir_arbol_huffman frecuencias)) ∧
    (∃ enc, codificar (generar_codigos (construir_arbol_huffman frecuencias)) msg
        = some enc ∧
      decodificar (generar_codigos (construir_arbol_huffman frecuencias)) enc
        = some msg) ∧
    (∀ c f, frecuencias = [(c, f)] →
      generar_codigos (construir_arbol_huffman frecuencias) = [(c, ['0'])]) := by
  obtain ⟨t, ht, hndh, hperm, htab⟩ := generar_eq_tabla hne hnd
  refine ⟨?_, ?_, ?_⟩
  · rw [htab]
    exact tabla_sin_prefijos hndh
  · have hmsg2 : ∀ c ∈ msg, c ∈ (tabla t []).map Prod.fst := by
      intro c hc
      rw [tabla_claves t []]
      exact hperm.mem_iff.mpr (hmsg c hc)
    obtain ⟨enc, henc⟩ := codificar_total msg hmsg2
    refine ⟨enc, ?_, ?_⟩
    · rw [htab]
      exact henc
    · rw [htab]
      exact decodificar_codificar hndh henc
  · intro c f heq
    rw [heq]
    exact generar_codigos_uno c f

/-- C8's theorem applied at the table `a ↦ 1, b ↦ 2` and the message `bab`. -/
theorem c8_huffman_codigos_witness :
    SinPrefijos (generar_codigos (construir_arbol_huffman [('a', 1), ('b', 2)])) ∧
    (∃ enc, codificar (generar_codigos (construir_arbol_huffman [('a', 1), ('b', 2)]))
        ['b', 'a', 'b'] = some enc ∧
      decodificar (generar_codigos (construir_arbol_huffman [('a', 1), ('b', 2)])) enc
        = some ['b', 'a', 'b']) ∧
    (∀ c f, ([('a', 1), ('b', 2)] : List (Char × Nat)) = [(c, f)] →
      generar_codigos (construir_arbol_huffman [('a', 1), ('b', 2)]) = [(c, ['0'])]) :=
  c8_huffman_codigos [('a', 1), ('b', 2)] ['b', 'a', 'b'] (by decide) (by decide)
    (by decide) (by decide)

end Proyecto
